import Mathlib

/-!
# Sodium transaction core (`sodium/transaction.cpp`)

A shallow embedding of the node graph with its rank maintenance, of `transaction_impl`,
`partition`, the `transaction_` scope object and the default policy, followed by the
properties proved about them.

Nodes live in an arena (a list) and a `std::shared_ptr<node>` is an index into it; ranks are
`unsigned long long`, held as natural numbers with the one addition in the code taken modulo
`2^64`. Closures are named by handles and run through a table, exceptions and failed
assertions are outcomes, and loops that the code does not bound carry a fuel argument.
-/

namespace sodium

/-! ## Nodes and ranks -/

/-- The constant `ULLONG_MAX` of `<limits.h>`, `2^64 - 1`. -/
def ULLONG_MAX : Nat := 18446744073709551615

/-- Modelled from the spec: the struct `target` is declared in the header `sodium/sodium.h`,
which is not among the sources; the code uses its members `handler` (a `void*`, here a
number) and `n` (a `std::shared_ptr<node>`, here an optional arena index); the spec calls
them `identity` and `target` of an Edge. -/
structure target where
  handler : Nat
  n : Option Nat
deriving DecidableEq, Repr

/-- Modelled from the spec: the class `node` is declared in the header `sodium/sodium.h`,
which is not among the sources; the code uses its members `rank` (an `unsigned long long`)
and `targets` (the ordered list of edges). -/
structure node where
  rank : Nat
  targets : List target
deriving DecidableEq, Repr

/-- The arena of nodes; a node pointer is an index into it. -/
abbrev Graph := List node

/-- Dereference of a node pointer. An index outside the arena, which no `shared_ptr` can be,
reads as a node of rank 0 without targets. -/
def nodeAt (g : Graph) (p : Nat) : node := g.getD p ⟨0, []⟩

/-- The assignment `rank = r` on the node at `p`. -/
def setRank (g : Graph) (p : Nat) (r : Nat) : Graph :=
  g.set p { nodeAt g p with rank := r }

/-- The function `node::ensure_bigger_than(visited, limit)` on the node `this`. The state is the arena
together with the `visited` set; the first argument bounds the depth of the recursion, and
`none` means that the bound was reached. The loop runs over the targets of `this` and reads
`rank` of `this` afresh for every recursive call, as the code does. -/
def node.ensure_bigger_than : Nat → Nat → Nat → Graph × List Nat → Option (Graph × List Nat)
  | 0, _, _, _ => none
  | fuel + 1, this, limit, s =>
    if (nodeAt s.1 this).rank > limit ∨ this ∈ s.2 then some s
    else
      let s1 : Graph × List Nat := (setRank s.1 this ((limit + 1) % (ULLONG_MAX + 1)), this :: s.2)
      (nodeAt s1.1 this).targets.foldlM
        (fun st it =>
          match it.n with
          | some b => node.ensure_bigger_than fuel b (nodeAt st.1 this).rank st
          | none => some st)
        s1

/-- The statement `targets.push_back(target(handler, targ))` on the node `this`. -/
def pushTarget (g : Graph) (this handler : Nat) (targ : Option Nat) : Graph :=
  g.set this { nodeAt g this with targets := (nodeAt g this).targets ++ [⟨handler, targ⟩] }

/-- The function `node::link(handler, targ)` on the node `this`; `fuel` bounds the recursion depth of
`ensure_bigger_than`. -/
def node.link (fuel : Nat) (g : Graph) (this handler : Nat) (targ : Option Nat) : Option Graph :=
  match targ with
  | some b =>
    (node.ensure_bigger_than fuel b (nodeAt g this).rank (g, [])).map
      (fun s => pushTarget s.1 this handler targ)
  | none => some (pushTarget g this handler targ)

/-- There is an edge from `x` to `y`: a target of `x` whose node is `y`. -/
def edge (g : Graph) (x y : Nat) : Prop := ∃ t ∈ (nodeAt g x).targets, t.n = some y

/-- Reachability along zero or more edges. -/
def Reachable (g : Graph) : Nat → Nat → Prop := Relation.ReflTransGen (edge g)

/-- The number of nodes of the arena that are not in the `visited` set. -/
def unvisited (s : Graph × List Nat) : Nat :=
  ((Finset.range s.1.length).filter (fun p => p ∉ s.2)).card

/-- A diamond below `node 1`: edges `1 → 3`, `1 → 2` (in this order) and `2 → 3`, with ranks
0, 1, 2 for nodes 1, 2, 3, and an unconnected `node 0` of rank 3. -/
def diamond : Graph :=
  [⟨3, []⟩, ⟨0, [⟨10, some 3⟩, ⟨11, some 2⟩]⟩, ⟨1, [⟨12, some 3⟩]⟩, ⟨2, []⟩]

/-- How a state of `ensure_bigger_than` extends an earlier one: the arena keeps its size and
all targets, `visited` only grows, nodes that were visited keep their rank, and every node
whose rank differs is in the new `visited`. -/
structure Ext (s s' : Graph × List Nat) : Prop where
  len : s'.1.length = s.1.length
  tgts : ∀ p, (nodeAt s'.1 p).targets = (nodeAt s.1 p).targets
  mono : ∀ p ∈ s.2, p ∈ s'.2
  frozen : ∀ p ∈ s.2, (nodeAt s'.1 p).rank = (nodeAt s.1 p).rank
  changed : ∀ p, p ∉ s'.2 → (nodeAt s'.1 p).rank = (nodeAt s.1 p).rank

/-- The loop of `node::unlink`: the targets without the first one whose handler is
`handler`, or `none` when the loop falls through (`return false`). -/
def node.unlinkLoop (handler : Nat) : List target → Option (List target)
  | [] => none
  | it :: rest =>
    if it.handler = handler then some rest
    else (node.unlinkLoop handler rest).map (fun r => it :: r)

/-- The function `node::unlink`. -/
def node.unlink (g : Graph) (this handler : Nat) : Graph × Bool :=
  match node.unlinkLoop handler (nodeAt g this).targets with
  | some ts => (g.set this { nodeAt g this with targets := ts }, true)
  | none => (g, false)

/-- The rank invariant: every edge with a present target goes to a node of larger rank. -/
def RankInv (g : Graph) : Prop :=
  ∀ x y, edge g x y → (nodeAt g x).rank < (nodeAt g y).rank

/-- No node reaches itself along one or more edges. -/
def Acyclic (g : Graph) : Prop := ∀ x, ¬ Relation.TransGen (edge g) x x

/-- A sequence of `link` calls `(source, handler, target)`, each with a present target, made
one after the other on the arena. -/
def linkAll (fuel : Nat) : Graph → List (Nat × Nat × Nat) → Option Graph
  | g, [] => some g
  | g, (this, handler, targ) :: rest =>
    (node.link fuel g this handler (some targ)).bind (fun g1 => linkAll fuel g1 rest)

/-- Five nodes after the calls `4 → 0`, `1 → 3`, `1 → 2`, `2 → 3` on fresh nodes of rank `0`:
a diamond below `node 1`, and `node 0` with rank `1`. -/
def builtDiamond : Graph :=
  [⟨1, []⟩, ⟨0, [⟨10, some 3⟩, ⟨11, some 2⟩]⟩, ⟨1, [⟨12, some 3⟩]⟩, ⟨2, []⟩, ⟨0, [⟨9, some 0⟩]⟩]

/-- The arena `builtDiamond` after `node 0` has been linked to `node 1`, as the code leaves
it. -/
def builtDiamondLinked : Graph :=
  [⟨1, [⟨99, some 1⟩]⟩, ⟨2, [⟨10, some 3⟩, ⟨11, some 2⟩]⟩, ⟨3, [⟨12, some 3⟩]⟩, ⟨3, []⟩,
    ⟨0, [⟨9, some 0⟩]⟩]

/-! ## Transactions, partitions and scopes -/

/-- Modelled from the spec: the `entryID` type is declared in a header that is not part of
the sources; the spec describes it as an opaque, strictly increasing, totally ordered value
used as tie-break and map key. Entry ids are natural numbers, the default-constructed id is
`0`, and this is the `succ()` member, which adds one. -/
def entryID.succ (id : Nat) : Nat := id + 1

/-- Modelled from the spec: the struct `prioritized_entry` is declared in the header
`sodium/sodium.h`, which is not among the sources; the code uses its members `target` and
`action`. Here `target` is an optional arena index and `action` the handle of the stored
`std::function<void(transaction_impl*)>`; closures are named by natural-number handles and
run through a `Callbacks` table. -/
structure prioritized_entry where
  target : Option Nat
  action : Nat
deriving DecidableEq, Repr

/-- Modelled from the spec: the class `transaction_impl` is declared in the header
`sodium/sodium.h`, which is not among the sources; the code uses the members below.
`entries` is the `std::map<entryID, prioritized_entry>` kept in ascending key order,
`prioritizedQ` the `std::set<pair<rank, entryID>>` kept in ascending order, `lastQ` the list
of final callbacks. The `part` pointer is not a field: the model has a single partition. -/
structure transaction_impl where
  to_regen : Bool
  entries : List (Nat × prioritized_entry)
  prioritizedQ : List (Nat × Nat)
  next_entry_id : Nat
  lastQ : List Nat
deriving DecidableEq, Repr

/-- Modelled from the spec: the struct `partition` is declared in the header
`sodium/sodium.h`, which is not among the sources; the code uses the members below. This is
its state as seen from one thread: `mx` is the number of holds the thread has on the
recursive mutex (`lock` adds one, `unlock` takes one away), `depth` the nesting counter,
`key` the value of the thread-specific slot (`pthread_getspecific(key)`), either a
transaction address or `NULL`. -/
structure partition where
  mx : Nat
  depth : Int
  processing_post : Bool
  postQ : List Nat
  key : Option Nat
deriving DecidableEq, Repr

/-- The program state the library works on: the node arena, the partition and the heap of
`transaction_impl` objects (`none` marks a deleted object). -/
structure State where
  nodes : Graph
  part : partition
  heap : List (Option transaction_impl)
deriving DecidableEq, Repr

/-- Observation points: the entry into `process_transactional`, the calls of `prioritized`,
`last` and `post`, and the invocations of a prioritized action (`run`), a final callback
(`run_last`) and a deferred callback (`run_post`). They are recorded, each with the state at
the time, in a log that no library function ever reads. -/
inductive Event where
  | process_transactional (impl : Nat)
  | prioritized (impl : Nat) (id : Nat) (target : Option Nat) (f : Nat)
  | run (impl : Nat) (id : Nat) (target : Option Nat) (f : Nat)
  | last (impl : Nat) (f : Nat)
  | run_last (impl : Nat) (f : Nat)
  | post (f : Nat)
  | run_post (f : Nat)
deriving DecidableEq, Repr

/-- The state together with the observation log. -/
structure World extends State where
  log : List (Event × State)
deriving DecidableEq, Repr

/-- How a call ends: normal return, a C++ exception in flight, the end of the program (a
failed `assert`, a dereference of a deleted transaction, or `std::terminate`), or the loop
bound of the model exhausted. -/
inductive Outcome where
  | done (w : World)
  | thrown (w : World)
  | crashed (w : World)
  | out_of_fuel
deriving DecidableEq, Repr

/-- What an outcome becomes at the boundary of a function that is `noexcept`, as a destructor
without exception specification is: an exception that would leave it calls `std::terminate`,
which ends the program. -/
def Outcome.noexcept : Outcome → Outcome
  | Outcome.thrown w => Outcome.crashed w
  | o => o

/-- The closures handed to the library: `action f impl` runs the
`std::function<void(transaction_impl*)>` with handle `f` on the transaction at address
`impl`; `fn f` runs the `std::function<void()>` with handle `f`. -/
structure Callbacks where
  action : Nat → Nat → World → Outcome
  fn : Nat → World → Outcome

/-- Append an observation, with the current state, to the log. -/
def World.record (w : World) (e : Event) : World :=
  { w with log := w.log ++ [(e, w.toState)] }

/-- The call `mx.lock()` of the thread on the recursive mutex of the partition. -/
def World.lock (w : World) : World :=
  { w with part := { w.part with mx := w.part.mx + 1 } }

/-- The call `mx.unlock()`. -/
def World.unlock (w : World) : World :=
  { w with part := { w.part with mx := w.part.mx - 1 } }

/-- The `transaction_impl` object at address `impl`, if it is alive. -/
def World.trans (w : World) (impl : Nat) : Option transaction_impl :=
  (w.heap.get? impl).join

/-- Store `t` as the `transaction_impl` object at address `impl`. -/
def World.setTrans (w : World) (impl : Nat) (t : transaction_impl) : World :=
  { w with heap := w.heap.set impl (some t) }

/-- Ordering of `std::pair<unsigned long long, entryID>`. -/
def pairLt (a b : Nat × Nat) : Bool :=
  decide (a.1 < b.1) || (decide (a.1 = b.1) && decide (a.2 < b.2))

/-- Insertion `std::set::insert` into the ascending list of keys; an equal key already
present is kept. -/
def setInsert (x : Nat × Nat) : List (Nat × Nat) → List (Nat × Nat)
  | [] => [x]
  | y :: ys =>
    if pairLt x y then x :: y :: ys
    else if x = y then y :: ys
    else y :: setInsert x ys

/-- Insertion `std::map::insert`: ascending keys, an existing key keeps its value. -/
def mapInsert (k : Nat) (v : prioritized_entry) :
    List (Nat × prioritized_entry) → List (Nat × prioritized_entry)
  | [] => [(k, v)]
  | e :: m =>
    if k < e.1 then (k, v) :: e :: m
    else if k = e.1 then e :: m
    else e :: mapInsert k v m

/-- Lookup `std::map::find`. -/
def mapFind (k : Nat) : List (Nat × prioritized_entry) → Option prioritized_entry
  | [] => none
  | e :: m => if e.1 = k then some e.2 else mapFind k m

/-- Removal `std::map::erase` of the element found under `k`. -/
def mapErase (k : Nat) :
    List (Nat × prioritized_entry) → List (Nat × prioritized_entry)
  | [] => []
  | e :: m => if e.1 = k then m else e :: mapErase k m

/-- The function `partition::post`. -/
def partition.post (action : Nat) (w : World) : World :=
  let w1 := (w.record (Event.post action)).lock
  let w2 := { w1 with part := { w1.part with postQ := w1.part.postQ ++ [action] } }
  w2.unlock

/-- The `while` loop of `partition::process_post`, entered and left with the mutex held. -/
def partition.process_post_loop (cb : Callbacks) : Nat → World → Outcome
  | 0, _ => Outcome.out_of_fuel
  | fuel + 1, w =>
    match w.part.postQ with
    | [] => Outcome.done w
    | action :: rest =>
      let w1 : World := { w with part := { w.part with postQ := rest } }
      let w2 := w1.unlock
      match cb.fn action (w2.record (Event.run_post action)) with
      | Outcome.done w3 => partition.process_post_loop cb fuel w3.lock
      | o => o

/-- The function `partition::process_post`; the `catch (...)` resets `processing_post` and
rethrows, skipping the final `unlock`. -/
def partition.process_post (cb : Callbacks) (fuel : Nat) (w : World) : Outcome :=
  let w1 := w.lock
  if !w1.part.processing_post then
    let w2 : World := { w1 with part := { w1.part with processing_post := true } }
    match partition.process_post_loop cb fuel w2 with
    | Outcome.done w3 =>
      let w4 : World := { w3 with part := { w3.part with processing_post := false } }
      Outcome.done w4.unlock
    | Outcome.thrown w3 =>
      Outcome.thrown { w3 with part := { w3.part with processing_post := false } }
    | o => o
  else Outcome.done w1.unlock

/-- The function `rankOf`: the rank of a present target, `ULLONG_MAX` for an absent one. -/
def rankOf (g : Graph) (target : Option Nat) : Nat :=
  match target with
  | some p => (nodeAt g p).rank
  | none => ULLONG_MAX

/-- The constructor `transaction_impl::transaction_impl(part)`: `to_regen` is false, the
containers are empty and `next_entry_id` is the default-constructed id. -/
def transaction_impl.new : transaction_impl :=
  { to_regen := false, entries := [], prioritizedQ := [], next_entry_id := 0, lastQ := [] }

/-- The function `transaction_impl::check_regen`, with the ranks read from the arena `g`. -/
def transaction_impl.check_regen (g : Graph) (t : transaction_impl) : transaction_impl :=
  if t.to_regen then
    { t with
      to_regen := false
      prioritizedQ := t.entries.foldl (fun q it => setInsert (rankOf g it.2.target, it.1) q) [] }
  else t

/-- The function `transaction_impl::prioritized` on the transaction at address `impl`. A call on a deleted
transaction, which is undefined in C++, changes nothing. -/
def transaction_impl.prioritized (impl : Nat) (target : Option Nat) (f : Nat) (w : World) :
    World :=
  match w.trans impl with
  | none => w
  | some t =>
    let id := t.next_entry_id
    (w.record (Event.prioritized impl id target f)).setTrans impl
      { t with
        next_entry_id := id.succ
        entries := mapInsert id ⟨target, f⟩ t.entries
        prioritizedQ := setInsert (rankOf w.nodes target, id) t.prioritizedQ }

/-- The function `transaction_impl::last` on the transaction at address `impl`. -/
def transaction_impl.last (impl : Nat) (action : Nat) (w : World) : World :=
  match w.trans impl with
  | none => w
  | some t =>
    (w.record (Event.last impl action)).setTrans impl { t with lastQ := t.lastQ ++ [action] }

/-- The first loop of `transaction_impl::process_transactional`: `check_regen`, take the
least key, look up its entry (the `assert`), copy the action, erase key and entry, invoke
the action. -/
def transaction_impl.process_prioritized (cb : Callbacks) (impl : Nat) : Nat → World → Outcome
  | 0, _ => Outcome.out_of_fuel
  | fuel + 1, w =>
    match w.trans impl with
    | none => Outcome.crashed w
    | some t =>
      let t1 := t.check_regen w.nodes
      match t1.prioritizedQ with
      | [] => Outcome.done (w.setTrans impl t1)
      | pit :: rest =>
        match mapFind pit.2 t1.entries with
        | none => Outcome.crashed (w.setTrans impl t1)
        | some e =>
          let w1 := w.setTrans impl
            { t1 with prioritizedQ := rest, entries := mapErase pit.2 t1.entries }
          match cb.action e.action impl (w1.record (Event.run impl pit.2 e.target e.action)) with
          | Outcome.done w2 => transaction_impl.process_prioritized cb impl fuel w2
          | o => o

/-- The second loop of `transaction_impl::process_transactional`: the callback at the front
of `lastQ` is run, and erased after it has returned. -/
def transaction_impl.process_last (cb : Callbacks) (impl : Nat) : Nat → World → Outcome
  | 0, _ => Outcome.out_of_fuel
  | fuel + 1, w =>
    match w.trans impl with
    | none => Outcome.crashed w
    | some t =>
      match t.lastQ with
      | [] => Outcome.done w
      | f :: _ =>
        match cb.fn f (w.record (Event.run_last impl f)) with
        | Outcome.done w1 =>
          match w1.trans impl with
          | none => Outcome.crashed w1
          | some t1 =>
            transaction_impl.process_last cb impl fuel
              (w1.setTrans impl { t1 with lastQ := t1.lastQ.tail })
        | o => o

/-- The function `transaction_impl::process_transactional`: the prioritized loop, then the
loop over `lastQ`. The same `fuel` bounds each loop. -/
def transaction_impl.process_transactional (cb : Callbacks) (fuel : Nat) (impl : Nat)
    (w : World) : Outcome :=
  match transaction_impl.process_prioritized cb impl fuel
      (w.record (Event.process_transactional impl)) with
  | Outcome.done w1 => transaction_impl.process_last cb impl fuel w1
  | o => o

/-- A `transaction_` scope object: it holds the `impl_` pointer. -/
structure transaction_ where
  impl_ : Nat
deriving DecidableEq, Repr

/-- The function `simple_policy::current_transaction`. -/
def simple_policy.current_transaction (w : World) : Option Nat := w.part.key

/-- The function `simple_policy::initiate`. -/
def simple_policy.initiate (impl : Nat) (w : World) : World :=
  let w1 := w.lock
  { w1 with part := { w1.part with key := some impl } }

/-- The function `simple_policy::dispatch`: `transactional()`, clear the slot, unlock,
`post()`. An exception or crash in `transactional` leaves before the slot is cleared. -/
def simple_policy.dispatch (_impl : Nat) (transactional post : World → Outcome) (w : World) :
    Outcome :=
  match transactional w with
  | Outcome.done w1 =>
    let w2 : World := { w1 with part := { w1.part with key := none } }
    post w2.unlock
  | o => o

/-- The constructor `transaction_::transaction_(part)`. -/
def transaction_.ctor (w : World) : World × transaction_ :=
  match simple_policy.current_transaction w with
  | none =>
    let impl_ := w.heap.length
    let w1 : World := { w with heap := w.heap ++ [some transaction_impl.new] }
    let w2 := simple_policy.initiate impl_ w1
    ({ w2 with part := { w2.part with depth := w2.part.depth + 1 } }, ⟨impl_⟩)
  | some impl_ =>
    ({ w with part := { w.part with depth := w.part.depth + 1 } }, ⟨impl_⟩)

/-- The first closure that the destructor hands to `dispatch`: `process_transactional`, then
`depth--`. -/
def transaction_.dtor_transactional (cb : Callbacks) (fuel : Nat) (impl_ : Nat) (w : World) :
    Outcome :=
  match transaction_impl.process_transactional cb fuel impl_ w with
  | Outcome.done w1 =>
    Outcome.done { w1 with part := { w1.part with depth := w1.part.depth - 1 } }
  | o => o

/-- The second closure that the destructor hands to `dispatch`: `delete impl_`, then
`process_post`. -/
def transaction_.dtor_post (cb : Callbacks) (fuel : Nat) (impl_ : Nat) (w : World) : Outcome :=
  let w1 : World := { w with heap := w.heap.set impl_ none }
  partition.process_post cb fuel w1

/-- The destructor `transaction_::~transaction_()`. It is defined without an exception
specification, so it is `noexcept`: an exception that leaves `dispatch` does not reach the
code that closed the scope, it ends the program. -/
def transaction_.dtor (cb : Callbacks) (fuel : Nat) (this : transaction_) (w : World) :
    Outcome :=
  if w.part.depth = 1 then
    (simple_policy.dispatch this.impl_
      (transaction_.dtor_transactional cb fuel this.impl_)
      (transaction_.dtor_post cb fuel this.impl_)
      w).noexcept
  else Outcome.done { w with part := { w.part with depth := w.part.depth - 1 } }

/-- Strict order on queue keys, as a proposition. -/
def keyLt (a b : Nat × Nat) : Prop := a.1 < b.1 ∨ (a.1 = b.1 ∧ a.2 < b.2)

/-- Ordered insertion by a key, mirroring `setInsert` on arbitrary items. -/
def insertBy {α : Type} (key : α → Nat × Nat) (x : α) : List α → List α
  | [] => [x]
  | y :: ys =>
    if pairLt (key x) (key y) then x :: y :: ys
    else if key x = key y then y :: ys
    else y :: insertBy key x ys

/-- The ranks of all nodes, in arena order. -/
def ranks (g : Graph) : List Nat := g.map (fun nd => nd.rank)

/-- The events of a log, without the recorded states. -/
def World.events (w : World) : List Event := w.log.map Prod.fst

/-- A scheduling call a callback can make on the library. -/
inductive Call where
  | prioritized (target : Option Nat) (f : Nat)
  | last (f : Nat)
  | post (f : Nat)
deriving DecidableEq, Repr

/-- Run one scheduling call against the transaction at `impl`. -/
def Call.exec (impl : Nat) (w : World) : Call → World
  | Call.prioritized target f => transaction_impl.prioritized impl target f w
  | Call.last f => transaction_impl.last impl f w
  | Call.post f => partition.post f w

/-- Run a sequence of scheduling calls. -/
def execCalls (impl : Nat) (calls : List Call) (w : World) : World :=
  calls.foldl (Call.exec impl) w

/-- The effect of one scheduling call on the transaction object itself. -/
def Call.apply (g : Graph) (t : transaction_impl) : Call → transaction_impl
  | Call.prioritized target f =>
    { t with
      next_entry_id := entryID.succ t.next_entry_id
      entries := mapInsert t.next_entry_id ⟨target, f⟩ t.entries
      prioritizedQ := setInsert (rankOf g target, t.next_entry_id) t.prioritizedQ }
  | Call.last f => { t with lastQ := t.lastQ ++ [f] }
  | Call.post _ => t

/-- The event recorded by one scheduling call made on transaction `t`. -/
def Call.event (impl : Nat) (t : transaction_impl) : Call → Event
  | Call.prioritized target f => Event.prioritized impl t.next_entry_id target f
  | Call.last f => Event.last impl f
  | Call.post f => Event.post f

/-- The events recorded by a sequence of scheduling calls starting from transaction `t`. -/
def callEvents (impl : Nat) (g : Graph) : transaction_impl → List Call → List Event
  | _, [] => []
  | t, c :: cs => c.event impl t :: callEvents impl g (c.apply g t) cs

/-- The weight of a call: the weight of the callback it schedules in the transaction. -/
def Call.weight (wtA wtF : Nat → Nat) : Call → Nat
  | Call.prioritized _ f => wtA f
  | Call.last f => wtF f
  | Call.post f => wtF f

/-- The total weight of the callbacks pending in a transaction. -/
def pendingWeight (wtA wtF : Nat → Nat) (t : transaction_impl) : Nat :=
  (t.entries.map (fun e => wtA e.2.action)).sum + (t.lastQ.map wtF).sum

/-- Well-formedness of the scheduling state of a transaction under the ranks of `g`. -/
structure QInv (g : Graph) (t : transaction_impl) : Prop where
  regen : t.to_regen = false
  sorted : t.prioritizedQ.Pairwise keyLt
  ids : (t.prioritizedQ.map Prod.snd).Perm (t.entries.map Prod.fst)
  nodup : (t.entries.map Prod.fst).Nodup
  fresh : ∀ e ∈ t.entries, e.1 < t.next_entry_id
  keys : ∀ k ∈ t.prioritizedQ, ∀ e, mapFind k.2 t.entries = some e →
    k.1 = rankOf g e.target

/-- The final callbacks appended to transaction `impl`, in the order of the `last` calls
recorded in a list of events. -/
def lastCalls (impl : Nat) (evs : List Event) : List Nat :=
  evs.filterMap (fun e =>
    match e with
    | Event.last i f => if i = impl then some f else none
    | _ => none)

/-- The final callbacks of transaction `impl` invoked, in the order of invocation recorded in
a list of events. -/
def lastRuns (impl : Nat) (evs : List Event) : List Nat :=
  evs.filterMap (fun e =>
    match e with
    | Event.run_last i f => if i = impl then some f else none
    | _ => none)

/-- Whether an event is recorded by the draining code itself, at the start of a drain or at
the invocation of a callback, rather than by a scheduling call. -/
def Event.isInvoke : Event → Bool
  | Event.process_transactional _ => true
  | Event.run _ _ _ _ => true
  | Event.run_last _ _ => true
  | Event.run_post _ => true
  | _ => false

/-- Every action, in every world, returns normally after a sequence of scheduling calls on
the transaction at `impl` whose total weight is below the weight of the action. -/
def Callbacks.ActionsSchedule (cb : Callbacks) (impl : Nat) (wtA wtF : Nat → Nat) : Prop :=
  ∀ f w, ∃ calls, cb.action f impl w = Outcome.done (execCalls impl calls w) ∧
    (calls.map (Call.weight wtA wtF)).sum < wtA f

/-- The events recorded before the first occurrence of `a`. -/
def untilEvent (a : Event) (evs : List Event) : List Event :=
  evs.takeWhile (fun ev => decide (ev ≠ a))

/-- The transaction object at address `impl` in a recorded state. -/
def State.trans (s : State) (impl : Nat) : Option transaction_impl :=
  (s.heap.get? impl).join

/-- Whether a scheduling call is a `prioritized` call. -/
def Call.isPrioritized : Call → Bool
  | Call.prioritized _ _ => true
  | _ => false

/-- The callbacks posted by a sequence of scheduling calls, in order. -/
def postsOf (calls : List Call) : List Nat :=
  calls.filterMap (fun c =>
    match c with
    | Call.post f => some f
    | _ => none)

/-- Every `void()` callback, run in a world where the transaction at `impl` is the current
one of the thread, returns normally after a sequence of scheduling calls on that transaction,
each allowed by `ok`, whose total weight is below the weight of the callback. -/
def Callbacks.FinalsSchedule (cb : Callbacks) (impl : Nat) (wtA wtF : Nat → Nat)
    (ok : Call → Prop) : Prop :=
  ∀ f w, w.part.key = some impl →
    ∃ calls, cb.fn f w = Outcome.done (execCalls impl calls w) ∧
      (calls.map (Call.weight wtA wtF)).sum < wtF f ∧ ∀ c ∈ calls, ok c

/-- Posting a list of callbacks, in order. -/
def postAll (posts : List Nat) (w : World) : World :=
  posts.foldl (fun w f => partition.post f w) w

/-- Every `void()` callback, run in a world where the thread has no current transaction,
returns normally after posting callbacks whose total weight is below its own weight. -/
def Callbacks.DeferredSchedule (cb : Callbacks) (wtF : Nat → Nat) : Prop :=
  ∀ f w, w.part.key = none →
    ∃ posts, cb.fn f w = Outcome.done (postAll posts w) ∧ (posts.map wtF).sum < wtF f

/-- Callbacks given by tables of scheduling calls: action `f` makes the calls `aCalls f` on
the transaction it is handed; the `void()` callback `f` makes the calls `fCalls f` on the
current transaction of the thread and, when there is none, only the `post` calls among
them. -/
def scripted (aCalls fCalls : Nat → List Call) : Callbacks where
  action := fun f i w => Outcome.done (execCalls i (aCalls f) w)
  fn := fun f w =>
    match w.part.key with
    | some impl => Outcome.done (execCalls impl (fCalls f) w)
    | none => Outcome.done (postAll (postsOf (fCalls f)) w)

/-- A world with two nodes, `node 0` of rank 0 linked to `node 1` of rank 1, an idle
partition and one fresh transaction at address 0. -/
def chainWorld : World where
  nodes := [⟨0, [⟨7, some 1⟩]⟩, ⟨1, []⟩]
  part := ⟨1, 1, false, [], some 0⟩
  heap := [some transaction_impl.new]
  log := []

/-- Callbacks that do nothing. -/
def idleCallbacks : Callbacks := scripted (fun _ => []) (fun _ => [])

/-- The topological-order example: the action with handle 0, scheduled on `node 0`, schedules
another entry on `node 1`; every other action does nothing. -/
def topoCallbacks : Callbacks :=
  scripted (fun f => if f = 0 then [Call.prioritized (some 1) 1] else []) (fun _ => [])

/-- The pre-drain schedule of the topological-order example: first an entry on `node 1`
(handle 1), then an entry on `node 0` (handle 0). -/
def topoCalls : List Call := [Call.prioritized (some 1) 1, Call.prioritized (some 0) 0]

/-- The final-callback example: action 0 appends final 20 and schedules action 1, action 1
appends final 21, final 20 appends final 22. -/
def finalCallbacks : Callbacks :=
  scripted
    (fun f => if f = 0 then [Call.last 20, Call.prioritized none 1]
      else if f = 1 then [Call.last 21] else [])
    (fun f => if f = 20 then [Call.last 22] else [])

/-- The pre-drain schedule of the final-callback example. -/
def finalCalls : List Call := [Call.prioritized (some 0) 0, Call.last 23]

/-- The callbacks passed to `partition::post`, in the order of the calls recorded in a list
of events. -/
def postCalls (evs : List Event) : List Nat :=
  evs.filterMap (fun e =>
    match e with
    | Event.post f => some f
    | _ => none)

/-- The deferred callbacks invoked, in the order of invocation recorded in a list of
events. -/
def postRuns (evs : List Event) : List Nat :=
  evs.filterMap (fun e =>
    match e with
    | Event.run_post f => some f
    | _ => none)

/-- Two partition states that agree on everything but the deferred queue. -/
structure SamePart (p q : partition) : Prop where
  mx : p.mx = q.mx
  depth : p.depth = q.depth
  processing_post : p.processing_post = q.processing_post
  key : p.key = q.key

/-- What a piece of execution that only schedules leaves in place: the log grows by `new`,
nodes and heap size stay, the partition changes only by the callbacks posted, and every
recorded state agrees with the start on nodes and partition apart from the deferred queue. -/
structure Frame (w w' : World) (new : List (Event × State)) : Prop where
  log : w'.log = w.log ++ new
  nodes : w'.nodes = w.nodes
  part : SamePart w'.part w.part
  posts : w'.part.postQ = w.part.postQ ++ postCalls (new.map Prod.fst)
  heap : w'.heap.length = w.heap.length
  snaps : ∀ x ∈ new, SamePart x.2.part w.part ∧ x.2.nodes = w.nodes

/-- The world in which the post phase of the outermost close starts, given the world `w`
left by `process_transactional`: depth decremented, slot cleared, one mutex hold released,
the transaction deleted. -/
def postWorld (impl : Nat) (w : World) : World where
  nodes := w.nodes
  part := { w.part with depth := w.part.depth - 1, key := none, mx := w.part.mx - 1 }
  heap := w.heap.set impl none
  log := w.log

/-- What a thread does with scopes: open a `transaction_` scope, close the innermost open
scope, or make a scheduling call on the transaction of the innermost open scope. -/
inductive ScopeOp where
  | open_
  | close_
  | call (c : Call)
deriving DecidableEq, Repr

/-- Run a sequence of scope operations; the list of `transaction_` objects is the stack of
open scopes, innermost first. A close or a call with no open scope cannot be written in the
source language and stops the run as crashed. -/
def runOps (cb : Callbacks) (fuel : Nat) :
    List ScopeOp → List transaction_ → World → Outcome × List transaction_
  | [], st, w => (Outcome.done w, st)
  | ScopeOp.open_ :: ops, st, w =>
    runOps cb fuel ops ((transaction_.ctor w).2 :: st) (transaction_.ctor w).1
  | ScopeOp.close_ :: ops, st, w =>
    match st with
    | [] => (Outcome.crashed w, [])
    | tr :: st' =>
      match transaction_.dtor cb fuel tr w with
      | Outcome.done w1 => runOps cb fuel ops st' w1
      | o => (o, st')
  | ScopeOp.call c :: ops, st, w =>
    match st with
    | [] => (Outcome.crashed w, [])
    | tr :: _ => runOps cb fuel ops st (c.exec tr.impl_ w)

/-- The number of open scopes after `ops`, started with `k` open scopes; `none` when `ops`
closes the outermost scope. -/
def levelAfter : Nat → List ScopeOp → Option Nat
  | k, [] => some k
  | k, ScopeOp.open_ :: ops => levelAfter (k + 1) ops
  | k, ScopeOp.close_ :: ops => if 1 < k then levelAfter (k - 1) ops else none
  | k, ScopeOp.call _ :: ops => levelAfter k ops

/-- The scheduling calls among a sequence of scope operations, in order. -/
def callsOf : List ScopeOp → List Call
  | [] => []
  | ScopeOp.call c :: ops => c :: callsOf ops
  | _ :: ops => callsOf ops

/-- What a run of operations inside an open scope leaves in place. -/
structure Inner (impl : Nat) (w w' : World) (t t' : transaction_impl)
    (new : List (Event × State)) : Prop where
  log : w'.log = w.log ++ new
  quiet : ∀ x ∈ new, x.1.isInvoke = false
  nodes : w'.nodes = w.nodes
  heap : w'.heap.length = w.heap.length
  trans : w'.trans impl = some t'
  key : w'.part.key = w.part.key
  mx : w'.part.mx = w.part.mx
  processing_post : w'.part.processing_post = w.part.processing_post
  posts : w'.part.postQ = w.part.postQ ++ postCalls (new.map Prod.fst)

/-- Whether an event is the start of a drain. -/
def Event.isDrain : Event → Bool
  | Event.process_transactional _ => true
  | _ => false

/-- A thread outside any scope: depth 0, no current transaction, no deferred pass running. -/
structure Idle (w : World) : Prop where
  depth : w.part.depth = 0
  key : w.part.key = none
  processing_post : w.part.processing_post = false

/-- An idle world: no nodes, no transaction, nothing queued. -/
def idleWorld : World where
  nodes := []
  part := ⟨0, 0, false, [], none⟩
  heap := []
  log := []

/-- The nesting example inside the outer scope: open an inner scope, schedule an entry with
action 5 in it, close it. -/
def nestedBody : List ScopeOp :=
  [ScopeOp.open_, ScopeOp.call (Call.prioritized none 5), ScopeOp.close_]

/-- The isolation example: the action with handle 0 posts the deferred callback 30, which in
turn posts 31. -/
def postingCallbacks : Callbacks :=
  scripted (fun f => if f = 0 then [Call.post 30] else [])
    (fun f => if f = 30 then [Call.post 31] else [])

/-- The nesting example with work in both scopes: a final callback and a post in the outer
scope, an entry in the inner scope. -/
def mixedBody : List ScopeOp :=
  [ScopeOp.call (Call.last 20), ScopeOp.open_, ScopeOp.call (Call.prioritized none 0),
    ScopeOp.close_, ScopeOp.call (Call.post 30)]

/-- An idle world with two callbacks waiting in the deferred queue. -/
def queuedWorld : World where
  nodes := []
  part := ⟨0, 0, false, [30, 40], none⟩
  heap := []
  log := []

/-- Well-formedness of the `entries` map alone: keys are distinct and below the next id. -/
structure EInv (t : transaction_impl) : Prop where
  nodup : (t.entries.map Prod.fst).Nodup
  fresh : ∀ e ∈ t.entries, e.1 < t.next_entry_id

/-- The data-model invariant at the start of a drain: either the queue is a faithful
reflection of `entries` under the current ranks and `to_regen` is false, or `to_regen` is set
and `entries` is well-formed, so that the first `check_regen` rebuilds the queue. -/
def SchedInv (g : Graph) (t : transaction_impl) : Prop :=
  QInv g t ∨ (t.to_regen = true ∧ EInv t)

/-- A transaction with a stale queue: the entry on `node 1` (id 0) was keyed when the rank of
`node 1` was still 0, the entry on `node 0` (id 1) afterwards, and `to_regen` has been set. -/
def staleTrans : transaction_impl where
  to_regen := true
  entries := [(0, ⟨some 1, 1⟩), (1, ⟨some 0, 0⟩)]
  prioritizedQ := [(0, 0), (0, 1)]
  next_entry_id := 2
  lastQ := []

/-- The chain world with the stale transaction at address 0. -/
def staleWorld : World where
  nodes := [⟨0, [⟨7, some 1⟩]⟩, ⟨1, []⟩]
  part := ⟨1, 1, false, [], some 0⟩
  heap := [some staleTrans]
  log := []

/-- Callbacks that are not scripts of scheduling calls: the action with handle 0 posts the
deferred callback 30, and the deferred callback 30 opens a scope of its own, schedules an
entry with action 7 in it and closes it. -/
def reopeningCallbacks : Callbacks where
  action := fun f i w =>
    if f = 0 then Outcome.done (execCalls i [Call.post 30] w) else Outcome.done w
  fn := fun f w =>
    if f = 30 then
      (runOps idleCallbacks 3
        [ScopeOp.open_, ScopeOp.call (Call.prioritized none 7), ScopeOp.close_] [] w).1
    else Outcome.done w

/-- A graph with cycles: edges `0 → 1`, `1 → 0` and the self-loop `1 → 1`, all ranks 0. -/
def cyclic : Graph :=
  [⟨0, [⟨1, some 1⟩]⟩, ⟨0, [⟨2, some 0⟩, ⟨3, some 1⟩]⟩]

/-- A chain `0 → 1` whose source has the largest rank an `unsigned long long` can hold, and a
target `node 2` of rank 7 with an edge to `node 1`. -/
def wrapGraph : Graph :=
  [⟨ULLONG_MAX, [⟨1, some 1⟩]⟩, ⟨0, []⟩, ⟨7, [⟨2, some 1⟩]⟩]

/-- The absent-target example: an entry without target (action 0) is scheduled first, then an
entry on `node 1` (action 1) whose action schedules an entry on `node 0` (action 2). -/
def absentCalls : List Call := [Call.prioritized none 0, Call.prioritized (some 1) 1]

/-- The callbacks of the absent-target example. -/
def absentCallbacks : Callbacks :=
  scripted (fun f => if f = 1 then [Call.prioritized (some 0) 2] else []) (fun _ => [])

/-- One pass through the body of the first loop of `process_transactional`, up to the point
where the action is invoked: `check_regen`, then, unless the queue is empty (the `break`),
the least key is looked up and key and entry are erased. `none` is the failed `assert`. -/
def transaction_impl.drain_step (g : Graph) (t : transaction_impl) : Option transaction_impl :=
  let t1 := t.check_regen g
  match t1.prioritizedQ with
  | [] => some t1
  | pit :: rest =>
    match mapFind pit.2 t1.entries with
    | none => none
    | some _ => some { t1 with prioritizedQ := rest, entries := mapErase pit.2 t1.entries }

/-- The operations that act on the scheduling state of a transaction and on the ranks. -/
inductive SchedOp where
  | prioritized (target : Option Nat) (f : Nat)
  | link (this handler : Nat) (targ : Option Nat)
  | unlink (this handler : Nat)
  | check_regen
  | drain_step
deriving DecidableEq, Repr

/-- Run one operation on the world, for the transaction at address `impl`; `fuel` bounds the
recursion of `ensure_bigger_than` in a `link`. -/
def SchedOp.run (fuel impl : Nat) (w : World) : SchedOp → Option World
  | SchedOp.prioritized target f => some (transaction_impl.prioritized impl target f w)
  | SchedOp.link this handler targ =>
    (node.link fuel w.nodes this handler targ).map (fun g => { w with nodes := g })
  | SchedOp.unlink this handler => some { w with nodes := (node.unlink w.nodes this handler).1 }
  | SchedOp.check_regen =>
    (w.trans impl).map (fun t => w.setTrans impl (t.check_regen w.nodes))
  | SchedOp.drain_step =>
    (w.trans impl).bind (fun t => (t.drain_step w.nodes).map (fun t1 => w.setTrans impl t1))

/-- Run a sequence of operations. -/
def runSched (fuel impl : Nat) : World → List SchedOp → Option World
  | w, [] => some w
  | w, op :: ops => (op.run fuel impl w).bind (fun w1 => runSched fuel impl w1 ops)

/-- The priority queue is exactly the set of keys `(rankOf target, id)` of the entries, with
the ranks read from `g`. -/
def Faithful (g : Graph) (t : transaction_impl) : Prop :=
  ∀ k, k ∈ t.prioritizedQ ↔ ∃ e ∈ t.entries, k = (rankOf g e.2.target, e.1)

/-- Whether the operation, run in `w`, keeps the ranks of all nodes referenced by pending
entries: a `link` is checked on its result, every other operation changes no rank. -/
def SchedOp.keepsPending (fuel impl : Nat) (w : World) : SchedOp → Bool
  | SchedOp.link this handler targ =>
    match node.link fuel w.nodes this handler targ, w.trans impl with
    | some g', some t =>
      t.entries.all (fun e => decide (rankOf g' e.2.target = rankOf w.nodes e.2.target))
    | _, _ => true
  | _ => true

/-- Whether every operation of the sequence, in the state in which it runs, keeps the ranks
of the nodes referenced by pending entries. -/
def KeepsPending (fuel impl : Nat) : World → List SchedOp → Bool
  | _, [] => true
  | w, op :: ops =>
    op.keepsPending fuel impl w &&
      match op.run fuel impl w with
      | some w1 => KeepsPending fuel impl w1 ops
      | none => true

/-- Two fresh nodes of rank 0 without edges and a fresh transaction at address 0. -/
def freshWorld : World where
  nodes := [⟨0, []⟩, ⟨0, []⟩]
  part := ⟨1, 1, false, [], some 0⟩
  heap := [some transaction_impl.new]
  log := []

/-- Schedule an entry on `node 1`, link `node 0` to `node 1` (which raises the rank of
`node 1` to 1), then schedule an entry on `node 0`. -/
def staleOps : List SchedOp :=
  [SchedOp.prioritized (some 1) 1, SchedOp.link 0 7 (some 1), SchedOp.prioritized (some 0) 0]

/-- Link `node 0` to `node 1` first, schedule on both nodes, link again (the rank of `node 1`
is already larger), then a `check_regen`, a drain step and an `unlink`. -/
def keptOps : List SchedOp :=
  [SchedOp.link 0 7 (some 1), SchedOp.prioritized (some 1) 1, SchedOp.prioritized (some 0) 0,
    SchedOp.link 0 8 (some 1), SchedOp.check_regen, SchedOp.drain_step, SchedOp.unlink 0 7]

/-- The transaction that `staleOps` leaves behind: the key of the entry on `node 1` still
carries rank 0, and `to_regen` is false. -/
def staleQueued : transaction_impl where
  to_regen := false
  entries := [(0, ⟨some 1, 1⟩), (1, ⟨some 0, 0⟩)]
  prioritizedQ := [(0, 0), (0, 1)]
  next_entry_id := 2
  lastQ := []

/-- The world that `keptOps` reaches from `freshWorld`. -/
def keptWorld : World := (runSched 3 0 freshWorld keptOps).getD freshWorld

/-- Callbacks that fail: the action with handle 0 posts the deferred callback 30 and then
throws; the `void()` callback with handle 21 throws; the `void()` callback with handle 31
throws; everything else returns at once. -/
def throwingCallbacks : Callbacks where
  action := fun f i w =>
    if f = 0 then Outcome.thrown (execCalls i [Call.post 30] w) else Outcome.done w
  fn := fun f w => if f = 21 ∨ f = 31 then Outcome.thrown w else Outcome.done w

/-- The body of the failing scope: an entry with the throwing action 0, a second entry, and a
final callback. -/
def failingBody : List ScopeOp :=
  [ScopeOp.call (Call.prioritized none 0), ScopeOp.call (Call.prioritized none 1),
    ScopeOp.call (Call.last 20)]

/-- The world inside the open scope, after the calls of `failingBody` and before the close. -/
def failingWorld : World := execCalls 0 (callsOf failingBody) (transaction_.ctor idleWorld).1

/-- The world in which the drain of `failingWorld` ends. -/
def failedWorld : World :=
  match transaction_impl.process_transactional throwingCallbacks 4 0 failingWorld with
  | Outcome.thrown v => v
  | _ => failingWorld

/-- An idle world with hold count 0 whose deferred queue holds the throwing callback 31 and,
behind it, callback 40. -/
def failQueued : World where
  nodes := []
  part := ⟨0, 0, false, [31, 40], none⟩
  heap := []
  log := []

/-- The world in which `process_post` on `failQueued` ends. -/
def failedPost : World :=
  match partition.process_post throwingCallbacks 3 failQueued with
  | Outcome.thrown v => v
  | _ => failQueued

/-- What a deferred callback does with the library: post a callback, call `process_post`
itself, or run a scope of its own (open, the operations of `body`, close). -/
inductive DeferredOp where
  | post (f : Nat)
  | process_post
  | scope (body : List ScopeOp)
deriving DecidableEq, Repr

/-- Run the operations of a deferred callback, one after the other. -/
def runDeferred (cb : Callbacks) (fuel : Nat) : List DeferredOp → World → Outcome
  | [], w => Outcome.done w
  | DeferredOp.post f :: ops, w => runDeferred cb fuel ops (partition.post f w)
  | DeferredOp.process_post :: ops, w =>
    match partition.process_post cb fuel w with
    | Outcome.done w1 => runDeferred cb fuel ops w1
    | o => o
  | DeferredOp.scope body :: ops, w =>
    match (runOps cb fuel (ScopeOp.open_ :: body ++ [ScopeOp.close_]) [] w).1 with
    | Outcome.done w1 => runDeferred cb fuel ops w1
    | o => o

/-- The weight of an operation of a deferred callback: the weight of what it schedules. -/
def DeferredOp.weight (wtA wtF : Nat → Nat) : DeferredOp → Nat
  | DeferredOp.post f => wtF f
  | DeferredOp.process_post => 0
  | DeferredOp.scope body => ((callsOf body).map (Call.weight wtA wtF)).sum

/-- The body of a scope operation is well nested. -/
def DeferredOp.wellNested : DeferredOp → Prop
  | DeferredOp.scope body => levelAfter 1 body = some 1
  | _ => True

/-- Every `void()` callback, run while a deferred pass is in progress on a thread outside
any scope, returns what a sequence of posts, `process_post` calls and scopes returns; the
nested runs take their callbacks from `inner`, and the sequence weighs less than the
callback and than `fuel`. -/
def Callbacks.DeferredReenter (cb inner : Callbacks) (wtA wtF : Nat → Nat) (fuel : Nat) :
    Prop :=
  ∀ f w, w.part.key = none → w.part.depth = 0 → w.part.processing_post = true →
    ∃ ops, cb.fn f w = runDeferred inner fuel ops w ∧ (∀ op ∈ ops, op.wellNested) ∧
      (ops.map (DeferredOp.weight wtA wtF)).sum < wtF f ∧
      (ops.map (DeferredOp.weight wtA wtF)).sum < fuel

/-- What a deferred callback leaves in place when it returns: the log grows by `new`, which
holds no invocation of a deferred callback, and the partition changes only by the callbacks
posted. -/
structure Quiet (w w' : World) (new : List (Event × State)) : Prop where
  log : w'.log = w.log ++ new
  part : SamePart w'.part w.part
  posts : w'.part.postQ = w.part.postQ ++ postCalls (new.map Prod.fst)
  runs : postRuns (new.map Prod.fst) = []

/-- Callbacks of the re-entry example: the deferred callback 30 posts 31, calls
`process_post` itself, and then opens a scope in which it posts 32 and schedules an entry
with action 7, and closes it; everything else does nothing. -/
def reenteringCallbacks : Callbacks where
  action := idleCallbacks.action
  fn := fun f w =>
    if f = 30 ∧ w.part.key = none then
      runDeferred idleCallbacks 4
        [DeferredOp.post 31, DeferredOp.process_post,
          DeferredOp.scope [ScopeOp.call (Call.post 32), ScopeOp.call (Call.prioritized none 7)]]
        w
    else idleCallbacks.fn f w

/-- The body of a scope whose first final callback throws: two final callbacks, the throwing
one first, and an entry whose action returns. -/
def failingFinalBody : List ScopeOp :=
  [ScopeOp.call (Call.last 21), ScopeOp.call (Call.last 20),
    ScopeOp.call (Call.prioritized none 1)]

/-- Well-formedness of the containers of a transaction, with a property `P` of every key and
the entry it belongs to: `to_regen` is false, the queue is in ascending order, it holds one
key for every entry, the entry ids are distinct and below `next_entry_id`. This is what
`std::set`, `std::map` and the id counter guarantee; nothing is said about ranks unless `P`
says it. -/
structure QKeys (P : Nat × Nat → prioritized_entry → Prop) (t : transaction_impl) : Prop where
  regen : t.to_regen = false
  sorted : t.prioritizedQ.Pairwise keyLt
  ids : (t.prioritizedQ.map Prod.snd).Perm (t.entries.map Prod.fst)
  nodup : (t.entries.map Prod.fst).Nodup
  fresh : ∀ e ∈ t.entries, e.1 < t.next_entry_id
  keys : ∀ k ∈ t.prioritizedQ, ∀ e, mapFind k.2 t.entries = some e → P k e

/-- The containers are well-formed with `P` on the keys, or `to_regen` is set and the
`entries` map is well-formed, so that the first `check_regen` rebuilds the queue. -/
def SchedKeys (P : Nat × Nat → prioritized_entry → Prop) (t : transaction_impl) : Prop :=
  QKeys P t ∨ (t.to_regen = true ∧ EInv t)

/-- The property of keys that holds whatever the ranks were and are. -/
def anyKey (_ : Nat × Nat) (_ : prioritized_entry) : Prop := True

/-- The key of an entry with an absent target carries `ULLONG_MAX`. -/
def absentKey (k : Nat × Nat) (e : prioritized_entry) : Prop :=
  e.target = none → k.1 = ULLONG_MAX

/-- Callbacks in which the final callback 20 schedules a prioritized entry with action 1;
everything else does nothing. -/
def finalSchedulingCallbacks : Callbacks :=
  scripted (fun _ => []) (fun f => if f = 20 then [Call.prioritized none 1] else [])

/-- The events of the drain of `w` with the entries pending in each recorded state, and the
entries left at the end. -/
def drainTrace (cb : Callbacks) (fuel impl : Nat) (w : World) :
    Option (List (Event × List (Nat × prioritized_entry)) × List (Nat × prioritized_entry)) :=
  match transaction_impl.process_transactional cb fuel impl w with
  | Outcome.done v =>
    some ((v.log.drop w.log.length).map (fun x =>
        (x.1, match x.2.trans impl with
          | some t => t.entries
          | none => [])),
      match v.trans impl with
      | some t => t.entries
      | none => [])
  | _ => none

/-- The world that `staleOps` reaches from `freshWorld`: the queue key of the entry on
`node 1` is stale. -/
def staleReached : World := (runSched 3 0 freshWorld staleOps).getD freshWorld

/-- Two nodes whose ranks are both `2^64 - 1`, and a fresh transaction at address 0. -/
def wrapWorld : World where
  nodes := [⟨ULLONG_MAX, []⟩, ⟨ULLONG_MAX, []⟩]
  part := ⟨1, 1, false, [], some 0⟩
  heap := [some transaction_impl.new]
  log := []

/-- Schedule an entry without target, schedule an entry on `node 0`, then link `node 1` to
`node 0`, which wraps the rank of `node 0` to 0. -/
def wrapOps : List SchedOp :=
  [SchedOp.prioritized none 0, SchedOp.prioritized (some 0) 1, SchedOp.link 1 7 (some 0)]

/-! ## Lemmas and theorems -/

theorem nodeAt_set (g : Graph) (q : Nat) (nd : node) (p : Nat) :
    nodeAt (g.set q nd) p = if p = q ∧ q < g.length then nd else nodeAt g p := by
  unfold nodeAt
  simp only [List.getD_eq_getElem?_getD, List.getElem?_set]
  by_cases h : q = p
  · subst h
    by_cases hl : q < g.length
    · simp [hl]
    · simp [hl, List.getElem?_eq_none (Nat.le_of_not_lt hl)]
  · have h' : ¬ p = q := fun e => h e.symm
    simp [h, h']

theorem nodeAt_setRank (g : Graph) (q r p : Nat) :
    nodeAt (setRank g q r) p
      = if p = q ∧ q < g.length then { nodeAt g q with rank := r } else nodeAt g p := by
  unfold setRank
  exact nodeAt_set g q _ p

theorem nodeAt_of_le (g : Graph) (p : Nat) (h : g.length ≤ p) : nodeAt g p = ⟨0, []⟩ := by
  unfold nodeAt
  simp [List.getD_eq_getElem?_getD, List.getElem?_eq_none h]

theorem Ext.ext_refl (s : Graph × List Nat) : Ext s s :=
  ⟨Eq.refl _, fun _ => Eq.refl _, fun _ h => h, fun _ _ => Eq.refl _, fun _ _ => Eq.refl _⟩

theorem Ext.ext_trans {a b c : Graph × List Nat} (h1 : Ext a b) (h2 : Ext b c) : Ext a c where
  len := h2.len.trans h1.len
  tgts p := (h2.tgts p).trans (h1.tgts p)
  mono p hp := h2.mono p (h1.mono p hp)
  frozen p hp := (h2.frozen p (h1.mono p hp)).trans (h1.frozen p hp)
  changed p hp := (h2.changed p hp).trans (h1.changed p (fun h => hp (h2.mono p h)))

theorem Ext.visit (g : Graph) (v : List Nat) (this r : Nat) (h : this ∉ v) :
    Ext (g, v) (setRank g this r, this :: v) where
  len := by simp [setRank]
  tgts p := by
    simp only [nodeAt_setRank]
    split
    · next hp => rw [hp.1]
    · rfl
  mono p hp := List.mem_cons_of_mem _ hp
  frozen p hp := by
    have hne : p ≠ this := fun e => h (e ▸ hp)
    simp [nodeAt_setRank, hne]
  changed p hp := by
    have hne : p ≠ this := fun e => hp (e ▸ List.mem_cons_self _ _)
    simp [nodeAt_setRank, hne]

theorem foldlM_inv {σ α : Type} (I : σ → Prop) (f : σ → α → Option σ) :
    ∀ (l : List α) (s s' : σ),
      (∀ st a st', a ∈ l → I st → f st a = some st' → I st') →
      I s → l.foldlM f s = some s' → I s'
  | [], s, s', _, hI, h => by
    simp [List.foldlM] at h
    exact h ▸ hI
  | a :: l, s, s', hstep, hI, h => by
    simp only [List.foldlM, Option.bind_eq_bind, Option.bind_eq_some] at h
    obtain ⟨s1, h1, h2⟩ := h
    exact foldlM_inv I f l s1 s'
      (fun st b st' hb => hstep st b st' (List.mem_cons_of_mem _ hb))
      (hstep s a s1 (List.mem_cons_self _ _) hI h1) h2

theorem foldlM_total {σ α : Type} (I : σ → Prop) (f : σ → α → Option σ) :
    ∀ (l : List α) (s : σ),
      (∀ st a, a ∈ l → I st → ∃ st', f st a = some st' ∧ I st') →
      I s → ∃ s', l.foldlM f s = some s' ∧ I s'
  | [], s, _, hI => ⟨s, by simp [List.foldlM], hI⟩
  | a :: l, s, hstep, hI => by
    obtain ⟨s1, h1, hI1⟩ := hstep s a (List.mem_cons_self _ _) hI
    obtain ⟨s2, h2, hI2⟩ := foldlM_total I f l s1
      (fun st b hb => hstep st b (List.mem_cons_of_mem _ hb)) hI1
    exact ⟨s2, by simp [List.foldlM, h1, h2], hI2⟩

theorem ensure_bigger_than_ext :
    ∀ (fuel this limit : Nat) (s s' : Graph × List Nat),
      node.ensure_bigger_than fuel this limit s = some s' → Ext s s'
  | 0, _, _, _, _, h => by simp [node.ensure_bigger_than] at h
  | fuel + 1, this, limit, s, s', h => by
    rw [node.ensure_bigger_than] at h
    split at h
    · simp at h; exact h ▸ Ext.ext_refl s
    · next hc =>
      have hv : this ∉ s.2 := fun hm => hc (Or.inr hm)
      have h1 := Ext.visit s.1 s.2 this ((limit + 1) % (ULLONG_MAX + 1)) hv
      refine foldlM_inv (fun st => Ext s st) _ _ _ s' ?_ h1 h
      intro st it st' _ hI hstep
      cases hn : it.n with
      | none => simp [hn] at hstep; exact hstep ▸ hI
      | some b =>
        simp only [hn] at hstep
        exact hI.ext_trans (ensure_bigger_than_ext fuel b _ st st' hstep)


theorem edge_congr {g g' : Graph} (h : ∀ p, (nodeAt g' p).targets = (nodeAt g p).targets)
    (x y : Nat) : edge g' x y ↔ edge g x y := by
  unfold edge
  rw [h x]

theorem Reachable_congr {g g' : Graph} (h : ∀ p, (nodeAt g' p).targets = (nodeAt g p).targets)
    {x y : Nat} (hr : Reachable g' x y) : Reachable g x y := by
  unfold Reachable at *
  exact Relation.ReflTransGen.mono (fun a b hab => (edge_congr h a b).1 hab) hr

theorem ensure_bigger_than_reach :
    ∀ (fuel this limit : Nat) (s s' : Graph × List Nat),
      node.ensure_bigger_than fuel this limit s = some s' →
      ∀ p ∈ s'.2, p ∈ s.2 ∨ Reachable s.1 this p
  | 0, _, _, _, _, h => by simp [node.ensure_bigger_than] at h
  | fuel + 1, this, limit, s, s', h => by
    rw [node.ensure_bigger_than] at h
    split at h
    · simp at h; subst h; exact fun p hp => Or.inl hp
    · next hc =>
      have hv : this ∉ s.2 := fun hm => hc (Or.inr hm)
      have h1 := Ext.visit s.1 s.2 this ((limit + 1) % (ULLONG_MAX + 1)) hv
      have key := foldlM_inv
        (fun st => Ext s st ∧ ∀ p ∈ st.2, p ∈ s.2 ∨ Reachable s.1 this p) _ _ _ s' ?_ ?_ h
      · exact key.2
      · intro st it st' hit hI hstep
        cases hn : it.n with
        | none => simp [hn] at hstep; exact hstep ▸ hI
        | some b =>
          simp only [hn] at hstep
          have he := ensure_bigger_than_ext fuel b _ st st' hstep
          refine ⟨hI.1.ext_trans he, fun p hp => ?_⟩
          rcases ensure_bigger_than_reach fuel b _ st st' hstep p hp with hp' | hp'
          · exact hI.2 p hp'
          · right
            have hedge : edge s.1 this b := by
              refine ⟨it, ?_, hn⟩
              have := h1.tgts this
              simp only at this
              rw [← this]; exact hit
            exact Relation.ReflTransGen.head hedge (Reachable_congr hI.1.tgts hp')
      · refine ⟨h1, fun p hp => ?_⟩
        rcases List.mem_cons.1 hp with e | hp'
        · right; rw [e]; exact Relation.ReflTransGen.refl
        · exact Or.inl hp'

theorem unvisited_mono {s s' : Graph × List Nat} (h : Ext s s') : unvisited s' ≤ unvisited s := by
  unfold unvisited
  rw [h.len]
  apply Finset.card_le_card
  intro p hp
  simp only [Finset.mem_filter] at hp ⊢
  exact ⟨hp.1, fun hm => hp.2 (h.mono p hm)⟩

theorem unvisited_visit (g : Graph) (v : List Nat) (this r : Nat)
    (hv : this ∉ v) (hl : this < g.length) :
    unvisited (setRank g this r, this :: v) < unvisited (g, v) := by
  unfold unvisited
  have hlen : (setRank g this r).length = g.length := by simp [setRank]
  simp only [hlen]
  apply Finset.card_lt_card
  rw [Finset.ssubset_iff_of_subset]
  · exact ⟨this, by simp [hl, hv], by simp⟩
  · intro p hp
    simp only [Finset.mem_filter, List.mem_cons, not_or] at hp ⊢
    exact ⟨hp.1, hp.2.2⟩

theorem ensure_bigger_than_total :
    ∀ (fuel this limit : Nat) (s : Graph × List Nat),
      unvisited s < fuel → ∃ s', node.ensure_bigger_than fuel this limit s = some s'
  | 0, _, _, _, h => by omega
  | fuel + 1, this, limit, s, hfuel => by
    rw [node.ensure_bigger_than]
    split
    · exact ⟨s, Eq.refl _⟩
    · next hc =>
      have hv : this ∉ s.2 := fun hm => hc (Or.inr hm)
      by_cases hl : this < s.1.length
      · have hlt := unvisited_visit s.1 s.2 this ((limit + 1) % (ULLONG_MAX + 1)) hv hl
        obtain ⟨s', hs', _⟩ := foldlM_total
          (fun st => Ext (setRank s.1 this ((limit + 1) % (ULLONG_MAX + 1)), this :: s.2) st)
          (fun st it =>
            match it.n with
            | some b => node.ensure_bigger_than fuel b (nodeAt st.1 this).rank st
            | none => some st)
          (nodeAt (setRank s.1 this ((limit + 1) % (ULLONG_MAX + 1))) this).targets _
          (by
            intro st it _ hI
            cases hn : it.n with
            | none => exact ⟨st, by simp only [hn], hI⟩
            | some b =>
              have hle := unvisited_mono hI
              have hss : unvisited (s.1, s.2) = unvisited s := Eq.refl _
              obtain ⟨st', hst'⟩ := ensure_bigger_than_total fuel b (nodeAt st.1 this).rank st
                (by omega)
              exact ⟨st', by simp only [hn]; exact hst',
                hI.ext_trans (ensure_bigger_than_ext _ _ _ _ _ hst')⟩)
          (Ext.ext_refl _)
        exact ⟨s', hs'⟩
      · have h0 : (nodeAt (setRank s.1 this ((limit + 1) % (ULLONG_MAX + 1))) this).targets = [] := by
          rw [nodeAt_of_le]
          simp [setRank]; omega
        simp only [h0]
        exact ⟨_, Eq.refl _⟩


theorem ensure_bigger_than_post (fuel this limit : Nat) (s s' : Graph × List Nat)
    (hl : this < s.1.length) (hv : this ∉ s.2) (hlim : limit < ULLONG_MAX)
    (h : node.ensure_bigger_than fuel this limit s = some s') :
    (nodeAt s'.1 this).rank > limit := by
  cases fuel with
  | zero => simp [node.ensure_bigger_than] at h
  | succ fuel =>
    rw [node.ensure_bigger_than] at h
    split at h
    · next hc =>
      simp at h; subst h
      rcases hc with hc | hc
      · exact hc
      · exact absurd hc hv
    · have hE : Ext (setRank s.1 this ((limit + 1) % (ULLONG_MAX + 1)), this :: s.2) s' := by
        refine foldlM_inv
          (fun st => Ext (setRank s.1 this ((limit + 1) % (ULLONG_MAX + 1)), this :: s.2) st)
          _ _ _ s' ?_ (Ext.ext_refl _) h
        intro st it st' _ hI hstep
        cases hn : it.n with
        | none => simp [hn] at hstep; exact hstep ▸ hI
        | some b =>
          simp only [hn] at hstep
          exact hI.ext_trans (ensure_bigger_than_ext fuel b _ st st' hstep)
      have hfro := hE.frozen this (List.mem_cons_self _ _)
      simp only [nodeAt_setRank, hl, and_self, if_true] at hfro
      rw [hfro, Nat.mod_eq_of_lt (by omega)]
      omega

theorem nodeAt_pushTarget (g : Graph) (q handler : Nat) (targ : Option Nat) (p : Nat) :
    nodeAt (pushTarget g q handler targ) p
      = if p = q ∧ q < g.length
        then { nodeAt g q with targets := (nodeAt g q).targets ++ [⟨handler, targ⟩] }
        else nodeAt g p := by
  unfold pushTarget
  exact nodeAt_set g q _ p

theorem rank_pushTarget (g : Graph) (q handler : Nat) (targ : Option Nat) (p : Nat) :
    (nodeAt (pushTarget g q handler targ) p).rank = (nodeAt g p).rank := by
  rw [nodeAt_pushTarget]
  split
  · next hp => rw [hp.1]
  · rfl

theorem edge_mem {g : Graph} {x y : Nat} (h : edge g x y) :
    ∃ nd ∈ g, ∃ t ∈ nd.targets, t.n = some y := by
  obtain ⟨t, ht, hn⟩ := h
  by_cases hl : x < g.length
  · refine ⟨nodeAt g x, ?_, t, ht, hn⟩
    unfold nodeAt
    rw [List.getD_eq_getElem?_getD, List.getElem?_eq_getElem hl]
    exact List.getElem_mem hl
  · rw [nodeAt_of_le g x (Nat.le_of_not_lt hl)] at ht
    simp at ht

theorem not_reachable_of_no_incoming {g : Graph} {a b : Nat} (hne : b ≠ a)
    (hno : ∀ nd ∈ g, ∀ t ∈ nd.targets, t.n ≠ some a) : ¬ Reachable g b a := by
  intro hr
  unfold Reachable at hr
  rcases Relation.ReflTransGen.cases_tail hr with e | ⟨c, _, hedge⟩
  · exact hne e.symm
  · obtain ⟨nd, hnd, t, ht, hn⟩ := edge_mem hedge
    exact hno nd hnd t ht hn

/-- C1: linking `A` to a present target `B` from which `A` is not reachable, with
`A.rank < 2^64 - 1`, returns (given fuel above the node count) with `B.rank > A.rank`,
`A.rank` unchanged and the edge `(h, B)` appended after `A`'s earlier edges; linking to an
absent target changes no rank and appends `(h, absent)`. -/
theorem link_establishes_rank (g : Graph) (A h : Nat) (hA : A < g.length) :
    (∀ B fuel, B < g.length → ¬ Reachable g B A → (nodeAt g A).rank < ULLONG_MAX →
      g.length < fuel →
      ∃ g', node.link fuel g A h (some B) = some g' ∧
        (nodeAt g' B).rank > (nodeAt g' A).rank ∧
        (nodeAt g' A).rank = (nodeAt g A).rank ∧
        (nodeAt g' A).targets = (nodeAt g A).targets ++ [⟨h, some B⟩]) ∧
    (∀ fuel, ∃ g', node.link fuel g A h none = some g' ∧
        (∀ p, (nodeAt g' p).rank = (nodeAt g p).rank) ∧
        (nodeAt g' A).targets = (nodeAt g A).targets ++ [⟨h, none⟩]) := by
  constructor
  · intro B fuel hB hreach hrank hfuel
    have hun : unvisited (g, []) < fuel := by
      simp [unvisited]; exact hfuel
    obtain ⟨s', hs'⟩ := ensure_bigger_than_total fuel B (nodeAt g A).rank (g, []) hun
    have hE := ensure_bigger_than_ext _ _ _ _ _ hs'
    have hR := ensure_bigger_than_reach _ _ _ _ _ hs'
    have hAv : A ∉ s'.2 := by
      intro hm
      rcases hR A hm with h0 | h0
      · simp at h0
      · exact hreach h0
    have hrA : (nodeAt s'.1 A).rank = (nodeAt g A).rank := hE.changed A hAv
    have hrB := ensure_bigger_than_post fuel B (nodeAt g A).rank (g, []) s' hB (by simp) hrank hs'
    have hlen : s'.1.length = g.length := hE.len
    refine ⟨pushTarget s'.1 A h (some B), by simp [node.link, hs'], ?_, ?_, ?_⟩
    · rw [rank_pushTarget, rank_pushTarget, hrA]; exact hrB
    · rw [rank_pushTarget, hrA]
    · rw [nodeAt_pushTarget]
      simp only [hlen, hA, and_self, if_true]
      rw [hE.tgts A]
  · intro fuel
    refine ⟨pushTarget g A h none, by simp [node.link], fun p => rank_pushTarget g A h none p, ?_⟩
    rw [nodeAt_pushTarget]
    simp [hA]

theorem link_establishes_rank_witness :
    ∃ g', node.link 5 diamond 0 99 (some 2) = some g' ∧
        (nodeAt g' 2).rank > (nodeAt g' 0).rank ∧
        (nodeAt g' 0).rank = (nodeAt diamond 0).rank ∧
        (nodeAt g' 0).targets = (nodeAt diamond 0).targets ++ [⟨99, some 2⟩] :=
  (link_establishes_rank diamond 0 99 (by decide)).1 2 5 (by decide)
    (not_reachable_of_no_incoming (by decide) (by decide)) (by decide) (by decide)


theorem acyclic_of_numbering (g : Graph) (f : Nat → Nat)
    (h : ∀ x y, edge g x y → f x < f y) : Acyclic g := by
  have key : ∀ x y, Relation.TransGen (edge g) x y → f x < f y := by
    intro x y hxy
    induction hxy with
    | single hab => exact h _ _ hab
    | tail _ hbc ih => exact lt_trans ih (h _ _ hbc)
  intro x hx
  exact lt_irrefl _ (key x x hx)

theorem edge_iff_mem (g : Graph) (x y : Nat) :
    edge g x y ↔ ∃ i, ∃ _ : i < g.length, i = x ∧ ∃ t ∈ (nodeAt g i).targets, t.n = some y := by
  constructor
  · intro h
    by_cases hl : x < g.length
    · exact ⟨x, hl, Eq.refl _, h⟩
    · obtain ⟨t, ht, _⟩ := h
      rw [nodeAt_of_le g x (Nat.le_of_not_lt hl)] at ht
      simp at ht
  · rintro ⟨i, _, e, h⟩
    exact e ▸ h

/-- C2 (evaluation at the failing input): five fresh nodes of rank `0` are linked `4 → 0`,
`1 → 3`, `1 → 2`, `2 → 3`, which gives a diamond on which the rank invariant holds; linking
`0 → 1` then keeps the graph acyclic, and after the call the edge `2 → 3` has a target whose
rank is not greater than the rank of its source. -/
theorem link_diamond_breaks_rank_invariant :
    linkAll 6 (List.replicate 5 ⟨0, []⟩) [(4, 9, 0), (1, 10, 3), (1, 11, 2), (2, 12, 3)]
      = some builtDiamond ∧
    RankInv builtDiamond ∧
    node.link 6 builtDiamond 0 99 (some 1) = some builtDiamondLinked ∧
    Acyclic builtDiamondLinked ∧
    edge builtDiamondLinked 2 3 ∧
    ¬ (nodeAt builtDiamondLinked 2).rank < (nodeAt builtDiamondLinked 3).rank := by
  refine ⟨by decide, ?_, by decide, ?_, ⟨⟨12, some 3⟩, by decide, Eq.refl _⟩, by decide⟩
  · intro x y hxy
    obtain ⟨i, hi, e, t, ht, hn⟩ := (edge_iff_mem _ _ _).1 hxy
    subst e
    have hi5 : i < 5 := hi
    interval_cases i <;> simp [builtDiamond, nodeAt] at ht ⊢
    · rcases ht with e | e <;> (subst e; simp at hn; subst hn; simp)
    · subst ht; simp at hn; subst hn; simp
    · subst ht; simp at hn; subst hn; simp
  · refine acyclic_of_numbering _ (fun i => [1, 2, 3, 4, 0].getD i 0) ?_
    intro x y hxy
    obtain ⟨i, hi, e, t, ht, hn⟩ := (edge_iff_mem _ _ _).1 hxy
    subst e
    have hi5 : i < 5 := hi
    interval_cases i <;> simp [builtDiamondLinked, nodeAt] at ht ⊢
    · subst ht; simp at hn; subst hn; simp
    · rcases ht with e | e <;> (subst e; simp at hn; subst hn; simp)
    · subst ht; simp at hn; subst hn; simp
    · subst ht; simp at hn; subst hn; simp

theorem unlinkLoop_none (handler : Nat) :
    ∀ ts : List target, node.unlinkLoop handler ts = none ↔ ∀ t ∈ ts, t.handler ≠ handler
  | [] => by simp [node.unlinkLoop]
  | it :: rest => by
    by_cases h : it.handler = handler
    · simp [node.unlinkLoop, h]
    · simp [node.unlinkLoop, h, unlinkLoop_none handler rest]

theorem unlinkLoop_some (handler : Nat) :
    ∀ ts ts' : List target, node.unlinkLoop handler ts = some ts' →
      ∃ pre e post, ts = pre ++ e :: post ∧ e.handler = handler ∧
        (∀ t ∈ pre, t.handler ≠ handler) ∧ ts' = pre ++ post
  | [], ts', h => by simp [node.unlinkLoop] at h
  | it :: rest, ts', h => by
    by_cases hh : it.handler = handler
    · simp [node.unlinkLoop, hh] at h
      exact ⟨[], it, rest, by simp, hh, by simp, by simp [h]⟩
    · simp only [node.unlinkLoop, hh, if_false, Option.map_eq_some'] at h
      obtain ⟨r, hr, e⟩ := h
      obtain ⟨pre, e', post, h1, h2, h3, h4⟩ := unlinkLoop_some handler rest r hr
      refine ⟨it :: pre, e', post, by simp [h1], h2, ?_, by simp [← e, h4]⟩
      intro t ht
      rcases List.mem_cons.1 ht with e1 | e1
      · exact e1 ▸ hh
      · exact h3 t e1

/-- C10: `unlink(h)` on a node removes exactly the first edge with identity `h`, keeps all
other edges in order and returns true; when no edge has identity `h` it returns false and
leaves the edge list unchanged. No node's rank changes and no other node's edges change. -/
theorem unlink_removes_first (g : Graph) (this h : Nat) :
    ((∃ t ∈ (nodeAt g this).targets, t.handler = h) →
      ∃ pre e post, (nodeAt g this).targets = pre ++ e :: post ∧ e.handler = h ∧
        (∀ t ∈ pre, t.handler ≠ h) ∧
        (nodeAt (node.unlink g this h).1 this).targets = pre ++ post ∧
        (node.unlink g this h).2 = true) ∧
    ((∀ t ∈ (nodeAt g this).targets, t.handler ≠ h) →
      node.unlink g this h = (g, false)) ∧
    (∀ p, (nodeAt (node.unlink g this h).1 p).rank = (nodeAt g p).rank) ∧
    (∀ p, p ≠ this → (nodeAt (node.unlink g this h).1 p).targets = (nodeAt g p).targets) := by
  refine ⟨?_, ?_, ?_, ?_⟩
  · rintro ⟨t, ht, hh⟩
    cases hu : node.unlinkLoop h (nodeAt g this).targets with
    | none => exact absurd hh ((unlinkLoop_none h _).1 hu t ht)
    | some ts =>
      obtain ⟨pre, e, post, h1, h2, h3, h4⟩ := unlinkLoop_some h _ ts hu
      refine ⟨pre, e, post, h1, h2, h3, ?_, by simp [node.unlink, hu]⟩
      have hl : this < g.length := by
        by_contra hl
        rw [nodeAt_of_le g this (Nat.le_of_not_lt hl)] at ht
        simp at ht
      simp [node.unlink, hu, nodeAt_set, hl, h4]
  · intro hno
    simp [node.unlink, (unlinkLoop_none h _).2 hno]
  · intro p
    cases hu : node.unlinkLoop h (nodeAt g this).targets with
    | none => simp [node.unlink, hu]
    | some ts =>
      simp only [node.unlink, hu, nodeAt_set]
      split
      · next hp => rw [hp.1]
      · rfl
  · intro p hp
    cases hu : node.unlinkLoop h (nodeAt g this).targets with
    | none => simp [node.unlink, hu]
    | some ts => simp [node.unlink, hu, nodeAt_set, hp]

theorem unlink_removes_first_witness :
    ∃ pre e post, (nodeAt diamond 1).targets = pre ++ e :: post ∧ e.handler = 11 ∧
      (∀ t ∈ pre, t.handler ≠ 11) ∧
      (nodeAt (node.unlink diamond 1 11).1 1).targets = pre ++ post ∧
      (node.unlink diamond 1 11).2 = true :=
  (unlink_removes_first diamond 1 11).1 ⟨⟨11, some 2⟩, by decide, Eq.refl _⟩

theorem pairLt_iff (a b : Nat × Nat) : pairLt a b = true ↔ keyLt a b := by
  simp [pairLt, keyLt]

theorem keyLt_trans {a b c : Nat × Nat} (h1 : keyLt a b) (h2 : keyLt b c) : keyLt a c := by
  obtain ⟨a1, a2⟩ := a
  obtain ⟨b1, b2⟩ := b
  obtain ⟨c1, c2⟩ := c
  simp only [keyLt] at *
  omega

theorem keyLt_of_not {a b : Nat × Nat} (h1 : ¬ keyLt a b) (h2 : a ≠ b) : keyLt b a := by
  obtain ⟨a1, a2⟩ := a
  obtain ⟨b1, b2⟩ := b
  simp only [keyLt, ne_eq, Prod.mk.injEq] at *
  omega

theorem mem_setInsert {x y : Nat × Nat} :
    ∀ {l : List (Nat × Nat)}, y ∈ setInsert x l → y = x ∨ y ∈ l
  | [], h => by simpa [setInsert] using h
  | z :: zs, h => by
    unfold setInsert at h
    split at h
    · simpa using h
    · split at h
      · exact Or.inr h
      · rcases List.mem_cons.1 h with e | h'
        · exact Or.inr (e ▸ List.mem_cons_self _ _)
        · rcases mem_setInsert h' with e | h''
          · exact Or.inl e
          · exact Or.inr (List.mem_cons_of_mem _ h'')

theorem pairwise_setInsert (x : Nat × Nat) :
    ∀ l : List (Nat × Nat), l.Pairwise keyLt → (setInsert x l).Pairwise keyLt
  | [], _ => by simp [setInsert]
  | z :: zs, h => by
    have hz := List.pairwise_cons.1 h
    unfold setInsert
    split
    · next hlt =>
      have hxz := (pairLt_iff _ _).1 hlt
      refine List.pairwise_cons.2 ⟨?_, h⟩
      intro y hy
      rcases List.mem_cons.1 hy with e | hy'
      · exact e ▸ hxz
      · exact keyLt_trans hxz (hz.1 y hy')
    · next hnlt =>
      split
      · exact h
      · next hne =>
        have hzx : keyLt z x := keyLt_of_not (fun hc => hnlt ((pairLt_iff _ _).2 hc)) hne
        refine List.pairwise_cons.2 ⟨?_, pairwise_setInsert x zs hz.2⟩
        intro y hy
        rcases mem_setInsert hy with e | hy'
        · exact e ▸ hzx
        · exact hz.1 y hy'

theorem map_insertBy {α : Type} (key : α → Nat × Nat) (x : α) :
    ∀ l : List α, (insertBy key x l).map key = setInsert (key x) (l.map key)
  | [] => by simp [insertBy, setInsert]
  | y :: ys => by
    unfold insertBy
    simp only [List.map_cons, setInsert]
    split
    · rfl
    · split
      · rfl
      · simp [map_insertBy key x ys]

theorem perm_insertBy {α : Type} (key : α → Nat × Nat) (x : α) :
    ∀ l : List α, key x ∉ l.map key → (insertBy key x l).Perm (x :: l)
  | [], _ => by simp [insertBy]
  | y :: ys, h => by
    have hne : key x ≠ key y := fun e => h (by simp [e])
    have hys : key x ∉ ys.map key := fun hm => h (by simp at hm ⊢; exact Or.inr hm)
    by_cases hlt : pairLt (key x) (key y) = true
    · simp [insertBy, hlt]
    · simp only [insertBy, hlt, hne, if_false]
      exact ((perm_insertBy key x ys hys).cons y).trans (List.Perm.swap x y ys)

theorem mapInsert_fresh (k : Nat) (v : prioritized_entry) :
    ∀ m : List (Nat × prioritized_entry), (∀ e ∈ m, e.1 < k) → mapInsert k v m = m ++ [(k, v)]
  | [], _ => by simp [mapInsert]
  | e :: m, h => by
    have he : e.1 < k := h e (List.mem_cons_self _ _)
    have h1 : ¬ k < e.1 := Nat.not_lt.2 (Nat.le_of_lt he)
    have h2 : ¬ k = e.1 := fun e' => Nat.lt_irrefl _ (e' ▸ he)
    simp [mapInsert, h1, h2, mapInsert_fresh k v m (fun e' he' => h e' (List.mem_cons_of_mem _ he'))]

theorem mapFind_mapErase_ne {k k' : Nat} (hne : k' ≠ k) :
    ∀ m : List (Nat × prioritized_entry), mapFind k' (mapErase k m) = mapFind k' m
  | [] => by simp [mapErase]
  | e :: m => by
    unfold mapErase
    split
    · next he =>
      have : ¬ e.1 = k' := fun e' => hne (e'.symm.trans he)
      simp [mapFind, this]
    · simp [mapFind, mapFind_mapErase_ne hne m]

theorem mapFind_of_mem {k : Nat} {v : prioritized_entry} :
    ∀ m : List (Nat × prioritized_entry), (m.map Prod.fst).Nodup → (k, v) ∈ m →
      mapFind k m = some v
  | [], _, h => by simp at h
  | e :: m, hnd, h => by
    simp only [List.map_cons, List.nodup_cons] at hnd
    unfold mapFind
    rcases List.mem_cons.1 h with e1 | h'
    · simp [← e1]
    · have hne : ¬ e.1 = k := by
        intro e1
        apply hnd.1
        rw [e1]
        exact List.mem_map.2 ⟨(k, v), h', Eq.refl _⟩
      simp only [hne, if_false]
      exact mapFind_of_mem m hnd.2 h'

theorem trans_lt {w : World} {impl : Nat} {t : transaction_impl} (h : w.trans impl = some t) :
    impl < w.heap.length := by
  unfold World.trans at h
  by_contra hl
  rw [List.get?_eq_getElem?, List.getElem?_eq_none (Nat.le_of_not_lt hl)] at h
  simp at h

theorem trans_setTrans {w : World} {impl : Nat} (t : transaction_impl)
    (h : impl < w.heap.length) : (w.setTrans impl t).trans impl = some t := by
  simp [World.trans, World.setTrans, List.getElem?_set, h]

theorem setTrans_setTrans (w : World) (impl : Nat) (t t' : transaction_impl) :
    (w.setTrans impl t).setTrans impl t' = w.setTrans impl t' := by
  simp [World.setTrans, List.set_set]

theorem check_regen_of_false {g : Graph} {t : transaction_impl} (h : t.to_regen = false) :
    t.check_regen g = t := by
  simp [transaction_impl.check_regen, h]

theorem mapFind_isSome_of_mem {k : Nat} :
    ∀ m : List (Nat × prioritized_entry), k ∈ m.map Prod.fst → ∃ e, mapFind k m = some e
  | [], h => by simp at h
  | e :: m, h => by
    by_cases he : e.1 = k
    · exact ⟨e.2, by simp [mapFind, he]⟩
    · have : k ∈ m.map Prod.fst := by
        simp only [List.map_cons, List.mem_cons] at h
        rcases h with h | h
        · exact absurd h.symm he
        · exact h
      obtain ⟨e', he'⟩ := mapFind_isSome_of_mem m this
      exact ⟨e', by simp [mapFind, he, he']⟩

theorem mapFind_mem {k : Nat} {v : prioritized_entry} :
    ∀ m : List (Nat × prioritized_entry), mapFind k m = some v → (k, v) ∈ m
  | [], h => by simp [mapFind] at h
  | e :: m, h => by
    unfold mapFind at h
    split at h
    · next he =>
      simp only [Option.some.injEq] at h
      exact List.mem_cons.2 (Or.inl (Prod.ext he.symm h.symm))
    · exact List.mem_cons_of_mem _ (mapFind_mem m h)

theorem map_fst_mapErase (k : Nat) :
    ∀ m : List (Nat × prioritized_entry), (mapErase k m).map Prod.fst = (m.map Prod.fst).erase k
  | [] => by simp [mapErase]
  | e :: m => by
    by_cases he : e.1 = k
    · simp [mapErase, he]
    · simp [mapErase, he, List.erase_cons_tail, map_fst_mapErase k m]

theorem mem_mapErase {k : Nat} {x : Nat × prioritized_entry} :
    ∀ m : List (Nat × prioritized_entry), x ∈ mapErase k m → x ∈ m
  | [], h => by simp [mapErase] at h
  | e :: m, h => by
    unfold mapErase at h
    split at h
    · exact List.mem_cons_of_mem _ h
    · rcases List.mem_cons.1 h with h | h
      · exact h ▸ List.mem_cons_self _ _
      · exact List.mem_cons_of_mem _ (mem_mapErase m h)

theorem QInv.pop {g : Graph} {t : transaction_impl} {k : Nat × Nat} {rest : List (Nat × Nat)}
    (h : QInv g t) (hQ : t.prioritizedQ = k :: rest) :
    ∃ e, mapFind k.2 t.entries = some e ∧ k.1 = rankOf g e.target ∧
      QInv g { t with prioritizedQ := rest, entries := mapErase k.2 t.entries } := by
  have hk : k.2 ∈ t.entries.map Prod.fst := h.ids.subset (by simp [hQ])
  obtain ⟨e, he⟩ := mapFind_isSome_of_mem _ hk
  have hs := h.sorted
  rw [hQ] at hs
  have hids := h.ids
  rw [hQ] at hids
  have hndQ : ((k :: rest).map Prod.snd).Nodup := hids.nodup_iff.2 h.nodup
  simp only [List.map_cons, List.nodup_cons] at hndQ
  refine ⟨e, he, h.keys k (by simp [hQ]) e he, ⟨h.regen, (List.pairwise_cons.1 hs).2, ?_, ?_, ?_, ?_⟩⟩
  · simp only [map_fst_mapErase]
    have := hids.erase k.2
    simpa using this
  · simp only [map_fst_mapErase]
    exact h.nodup.erase _
  · intro x hx
    exact h.fresh x (mem_mapErase _ hx)
  · intro k' hk' e' he'
    have hne : k'.2 ≠ k.2 := by
      intro e1
      exact hndQ.1 (e1 ▸ List.mem_map.2 ⟨k', hk', Eq.refl _⟩)
    simp only at he'
    rw [mapFind_mapErase_ne hne] at he'
    exact h.keys k' (by simp [hQ, hk']) e' he'

theorem setInsert_perm {x : Nat × Nat} {l : List (Nat × Nat)} (h : x ∉ l) :
    (setInsert x l).Perm (x :: l) := by
  have h1 := perm_insertBy (fun a : Nat × Nat => a) x l (by simpa using h)
  have h2 := map_insertBy (fun a : Nat × Nat => a) x l
  simp only [List.map_id'] at h2
  rw [← h2]
  exact h1

theorem mapFind_append_fresh {k k' : Nat} {v : prioritized_entry} (hne : k' ≠ k) :
    ∀ m : List (Nat × prioritized_entry), mapFind k' (m ++ [(k, v)]) = mapFind k' m
  | [] => by
    have : ¬ k = k' := fun e => hne e.symm
    simp [mapFind, this]
  | e :: m => by
    by_cases he : e.1 = k'
    · simp [mapFind, he]
    · simp [mapFind, he, mapFind_append_fresh hne m]

theorem mapFind_append_self {k : Nat} {v : prioritized_entry} :
    ∀ m : List (Nat × prioritized_entry), (∀ e ∈ m, e.1 ≠ k) →
      mapFind k (m ++ [(k, v)]) = some v
  | [], _ => by simp [mapFind]
  | e :: m, h => by
    have he : ¬ e.1 = k := h e (List.mem_cons_self _ _)
    simp only [List.cons_append, mapFind, he, if_false]
    exact mapFind_append_self m (fun e' he' => h e' (List.mem_cons_of_mem _ he'))

theorem QInv.apply {g : Graph} {t : transaction_impl} (h : QInv g t) (c : Call) :
    QInv g (c.apply g t) := by
  cases c with
  | last f => exact ⟨h.regen, h.sorted, h.ids, h.nodup, h.fresh, h.keys⟩
  | post f => exact h
  | prioritized target f =>
    have hfreshK : t.next_entry_id ∉ t.entries.map Prod.fst := by
      intro hm
      obtain ⟨e, he, hk⟩ := List.mem_map.1 hm
      have := h.fresh e he
      omega
    have hfreshQ : (rankOf g target, t.next_entry_id) ∉ t.prioritizedQ := by
      intro hm
      exact hfreshK (h.ids.subset (List.mem_map.2 ⟨_, hm, Eq.refl _⟩))
    have hins := mapInsert_fresh t.next_entry_id ⟨target, f⟩ t.entries h.fresh
    refine ⟨h.regen, pairwise_setInsert _ _ h.sorted, ?_, ?_, ?_, ?_⟩
    · simp only [Call.apply, hins, List.map_append, List.map_cons, List.map_nil]
      exact ((setInsert_perm hfreshQ).map Prod.snd).trans
        ((h.ids.cons _).trans (List.perm_append_singleton _ _).symm)
    · simp only [Call.apply, hins, List.map_append, List.map_cons, List.map_nil]
      exact (List.perm_append_singleton _ _).nodup_iff.2 (List.nodup_cons.2 ⟨hfreshK, h.nodup⟩)
    · intro e he
      simp only [Call.apply, hins, List.mem_append, List.mem_singleton] at he
      simp only [Call.apply, entryID.succ]
      rcases he with he | he
      · exact Nat.lt_succ_of_lt (h.fresh e he)
      · rw [he]; exact Nat.lt_succ_self _
    · intro k hk e he
      simp only [Call.apply, hins] at he hk
      rcases mem_setInsert hk with e1 | hk'
      · subst e1
        rw [mapFind_append_self _ (fun e' he' => Nat.ne_of_lt (h.fresh e' he'))] at he
        simp only [Option.some.injEq] at he
        rw [← he]
      · have hne : k.2 ≠ t.next_entry_id := by
          intro e1
          exact hfreshK (e1 ▸ h.ids.subset (List.mem_map.2 ⟨k, hk', Eq.refl _⟩))
        rw [mapFind_append_fresh hne] at he
        exact h.keys k hk' e he

theorem Call.exec_spec {impl : Nat} {w : World} {t : transaction_impl}
    (ht : w.trans impl = some t) (c : Call) :
    (c.exec impl w).trans impl = some (c.apply w.nodes t) ∧
    (c.exec impl w).nodes = w.nodes ∧
    (c.exec impl w).log = w.log ++ [(c.event impl t, w.toState)] := by
  have hl := trans_lt ht
  cases c with
  | prioritized target f =>
    simp only [Call.exec, transaction_impl.prioritized, ht, Call.apply, Call.event]
    exact ⟨trans_setTrans _ (by simpa [World.record] using hl),
      by simp [World.record, World.setTrans], by simp [World.record, World.setTrans]⟩
  | last f =>
    simp only [Call.exec, transaction_impl.last, ht, Call.apply, Call.event]
    exact ⟨trans_setTrans _ (by simpa [World.record] using hl),
      by simp [World.record, World.setTrans], by simp [World.record, World.setTrans]⟩
  | post f =>
    simp only [Call.exec, partition.post, Call.apply, Call.event]
    exact ⟨by simpa [World.trans, World.record, World.lock, World.unlock] using ht,
      by simp [World.record, World.lock, World.unlock],
      by simp [World.record, World.lock, World.unlock]⟩

theorem execCalls_spec (impl : Nat) :
    ∀ (calls : List Call) (w : World) (t : transaction_impl), w.trans impl = some t →
      ∃ news, (execCalls impl calls w).log = w.log ++ news ∧
        news.map Prod.fst = callEvents impl w.nodes t calls ∧
        (execCalls impl calls w).trans impl = some (calls.foldl (Call.apply w.nodes) t) ∧
        (execCalls impl calls w).nodes = w.nodes
  | [], w, t, ht => ⟨[], by simp [execCalls], by simp [callEvents], by simpa [execCalls] using ht,
      by simp [execCalls]⟩
  | c :: cs, w, t, ht => by
    obtain ⟨h1, h2, h3⟩ := Call.exec_spec ht c
    obtain ⟨news, g1, g2, g3, g4⟩ := execCalls_spec impl cs (c.exec impl w) (c.apply w.nodes t) h1
    refine ⟨(c.event impl t, w.toState) :: news, ?_, ?_, ?_, ?_⟩
    · simp only [execCalls, List.foldl_cons] at g1 ⊢
      rw [g1, h3]
      simp
    · simp [callEvents, g2, h2]
    · simp only [execCalls, List.foldl_cons] at g3 ⊢
      rw [g3, h2]
    · simp only [execCalls, List.foldl_cons] at g4 ⊢
      rw [g4, h2]

theorem QInv.applyAll {g : Graph} :
    ∀ (calls : List Call) {t : transaction_impl}, QInv g t → QInv g (calls.foldl (Call.apply g) t)
  | [], _, h => h
  | c :: cs, _, h => QInv.applyAll cs (h.apply c)

theorem callEvents_not_invoke (impl : Nat) (g : Graph) :
    ∀ (calls : List Call) (t : transaction_impl), ∀ e ∈ callEvents impl g t calls,
      e.isInvoke = false
  | [], _, e, h => by simp [callEvents] at h
  | c :: cs, t, e, h => by
    simp only [callEvents, List.mem_cons] at h
    rcases h with h | h
    · subst h
      cases c <;> rfl
    · exact callEvents_not_invoke impl g cs _ e h

theorem lastQ_applyAll (impl : Nat) (g : Graph) :
    ∀ (calls : List Call) (t : transaction_impl),
      (calls.foldl (Call.apply g) t).lastQ = t.lastQ ++ lastCalls impl (callEvents impl g t calls)
  | [], t => by simp [callEvents, lastCalls]
  | c :: cs, t => by
    rw [List.foldl_cons, lastQ_applyAll impl g cs]
    cases c <;> simp [callEvents, lastCalls, Call.apply, Call.event, List.filterMap_cons]

theorem lastRuns_callEvents (impl : Nat) (g : Graph) :
    ∀ (calls : List Call) (t : transaction_impl), lastRuns impl (callEvents impl g t calls) = []
  | [], t => by simp [callEvents, lastRuns]
  | c :: cs, t => by
    have := lastRuns_callEvents impl g cs (c.apply g t)
    simp only [lastRuns] at this
    cases c <;> simp [callEvents, lastRuns, Call.event, List.filterMap_cons, this]

theorem pendingWeight_apply (wtA wtF : Nat → Nat) {g : Graph} {t : transaction_impl}
    (h : QInv g t) (c : Call) :
    pendingWeight wtA wtF (c.apply g t) + ((postsOf [c]).map wtF).sum
      = pendingWeight wtA wtF t + c.weight wtA wtF := by
  cases c with
  | prioritized target f =>
    simp only [pendingWeight, Call.apply, mapInsert_fresh _ _ _ h.fresh, Call.weight, postsOf]
    simp
    omega
  | last f =>
    simp only [pendingWeight, Call.apply, Call.weight, postsOf]
    simp
    omega
  | post f => simp [pendingWeight, Call.apply, Call.weight, postsOf]

theorem pendingWeight_applyAll (wtA wtF : Nat → Nat) {g : Graph} :
    ∀ (calls : List Call) {t : transaction_impl}, QInv g t →
      pendingWeight wtA wtF (calls.foldl (Call.apply g) t) + ((postsOf calls).map wtF).sum
        = pendingWeight wtA wtF t + (calls.map (Call.weight wtA wtF)).sum
  | [], _, _ => by simp [postsOf]
  | c :: cs, t, h => by
    have h1 := pendingWeight_applyAll wtA wtF cs (h.apply c)
    have h2 := pendingWeight_apply wtA wtF h c
    have h3 : postsOf (c :: cs) = postsOf [c] ++ postsOf cs := by
      simp only [postsOf, List.filterMap_cons]
      cases c <;> simp
    rw [List.foldl_cons, h3]
    simp only [List.map_append, List.sum_append, List.map_cons, List.sum_cons]
    omega

theorem postCalls_callEvents (impl : Nat) (g : Graph) :
    ∀ (calls : List Call) (t : transaction_impl),
      postCalls (callEvents impl g t calls) = postsOf calls
  | [], _ => by simp [callEvents, postCalls, postsOf]
  | c :: cs, t => by
    have ih := postCalls_callEvents impl g cs (c.apply g t)
    simp only [postCalls, postsOf] at ih ⊢
    cases c <;> simp [callEvents, Call.event, List.filterMap_cons, ih]

theorem sum_mapErase (wt : prioritized_entry → Nat) {k : Nat} {e : prioritized_entry} :
    ∀ m : List (Nat × prioritized_entry), mapFind k m = some e →
      (m.map (fun x => wt x.2)).sum = wt e + ((mapErase k m).map (fun x => wt x.2)).sum
  | [], h => by simp [mapFind] at h
  | x :: m, h => by
    unfold mapFind at h
    unfold mapErase
    split at h
    · next hx =>
      simp only [Option.some.injEq] at h
      simp [hx, h]
    · next hx =>
      simp only [hx, if_false, List.map_cons, List.sum_cons]
      rw [sum_mapErase wt m h]
      omega

theorem mem_setInsert_of_mem {x y : Nat × Nat} :
    ∀ {l : List (Nat × Nat)}, y ∈ l → y ∈ setInsert x l
  | [], h => by simp at h
  | z :: zs, h => by
    unfold setInsert
    split
    · exact List.mem_cons_of_mem _ h
    · split
      · exact h
      · rcases List.mem_cons.1 h with e | h'
        · exact e ▸ List.mem_cons_self _ _
        · exact List.mem_cons_of_mem _ (mem_setInsert_of_mem h')

theorem pending_apply {g : Graph} {t : transaction_impl} (h : QInv g t) (c : Call)
    {k : Nat × Nat} {e : prioritized_entry} (hk : k ∈ t.prioritizedQ)
    (he : mapFind k.2 t.entries = some e) :
    k ∈ (c.apply g t).prioritizedQ ∧ mapFind k.2 (c.apply g t).entries = some e := by
  cases c with
  | last f => exact ⟨hk, he⟩
  | post f => exact ⟨hk, he⟩
  | prioritized target f =>
    refine ⟨mem_setInsert_of_mem hk, ?_⟩
    have hne : k.2 ≠ t.next_entry_id :=
      Nat.ne_of_lt (h.fresh _ (mapFind_mem _ he))
    simp only [Call.apply, mapInsert_fresh _ _ _ h.fresh]
    rw [mapFind_append_fresh hne]
    exact he

theorem pending_applyAll {g : Graph} :
    ∀ (calls : List Call) {t : transaction_impl}, QInv g t →
      ∀ {k : Nat × Nat} {e : prioritized_entry}, k ∈ t.prioritizedQ →
        mapFind k.2 t.entries = some e →
        k ∈ (calls.foldl (Call.apply g) t).prioritizedQ ∧
        mapFind k.2 (calls.foldl (Call.apply g) t).entries = some e
  | [], _, _, _, _, hk, he => ⟨hk, he⟩
  | c :: cs, _, h, _, _, hk, he =>
    pending_applyAll cs (h.apply c) (pending_apply h c hk he).1 (pending_apply h c hk he).2

theorem SamePart.same_refl (p : partition) : SamePart p p := ⟨Eq.refl _, Eq.refl _, Eq.refl _, Eq.refl _⟩

theorem SamePart.same_trans {p q r : partition} (h1 : SamePart p q) (h2 : SamePart q r) :
    SamePart p r :=
  ⟨h1.mx.trans h2.mx, h1.depth.trans h2.depth, h1.processing_post.trans h2.processing_post,
    h1.key.trans h2.key⟩

theorem postCalls_append (a b : List Event) : postCalls (a ++ b) = postCalls a ++ postCalls b := by
  simp [postCalls, List.filterMap_append]

theorem postRuns_append (a b : List Event) : postRuns (a ++ b) = postRuns a ++ postRuns b := by
  simp [postRuns, List.filterMap_append]

theorem Frame.frame_refl (w : World) : Frame w w [] :=
  ⟨by simp, Eq.refl _, SamePart.same_refl _, by simp [postCalls], Eq.refl _, by simp⟩

theorem Frame.frame_trans {w w' w'' : World} {n1 n2 : List (Event × State)}
    (h1 : Frame w w' n1) (h2 : Frame w' w'' n2) : Frame w w'' (n1 ++ n2) where
  log := by rw [h2.log, h1.log, List.append_assoc]
  nodes := h2.nodes.trans h1.nodes
  part := h2.part.same_trans h1.part
  posts := by rw [h2.posts, h1.posts, List.map_append, postCalls_append, List.append_assoc]
  heap := h2.heap.trans h1.heap
  snaps := by
    intro x hx
    rcases List.mem_append.1 hx with hx | hx
    · exact h1.snaps x hx
    · exact ⟨(h2.snaps x hx).1.same_trans h1.part, (h2.snaps x hx).2.trans h1.nodes⟩

theorem Frame.record (w : World) (ev : Event) (h : postCalls [ev] = []) :
    Frame w (w.record ev) [(ev, w.toState)] :=
  ⟨Eq.refl _, Eq.refl _, SamePart.same_refl _, by simp [World.record, h], Eq.refl _,
    by simp [SamePart.same_refl]⟩

theorem Frame.setTrans (w : World) (impl : Nat) (t : transaction_impl) :
    Frame w (w.setTrans impl t) [] :=
  ⟨by simp [World.setTrans], Eq.refl _, SamePart.same_refl _, by simp [World.setTrans, postCalls],
    by simp [World.setTrans], by simp⟩

theorem Frame.post (w : World) (f : Nat) :
    Frame w (partition.post f w) [(Event.post f, w.toState)] :=
  ⟨by simp [partition.post, World.record, World.lock, World.unlock], Eq.refl _,
    ⟨by simp [partition.post, World.record, World.lock, World.unlock], Eq.refl _, Eq.refl _,
      Eq.refl _⟩,
    by simp [partition.post, World.record, World.lock, World.unlock, postCalls], Eq.refl _,
    by simp [SamePart.same_refl]⟩

theorem Call.exec_frame (impl : Nat) (c : Call) (w : World) :
    ∃ new, Frame w (c.exec impl w) new ∧ (∀ x ∈ new, x.1.isInvoke = false) ∧
      postCalls (new.map Prod.fst) = postsOf [c] ∧ lastRuns impl (new.map Prod.fst) = [] := by
  cases c with
  | prioritized target f =>
    cases ht : w.trans impl with
    | none =>
      exact ⟨[], by simpa [Call.exec, transaction_impl.prioritized, ht] using Frame.frame_refl w,
        by simp, by simp [postCalls, postsOf], by simp [lastRuns]⟩
    | some t =>
      refine ⟨[(Event.prioritized impl t.next_entry_id target f, w.toState)], ?_,
        by simp [Event.isInvoke], by simp [postCalls, postsOf], by simp [lastRuns]⟩
      simp only [Call.exec, transaction_impl.prioritized, ht]
      simpa using (Frame.record w _ (by simp [postCalls])).frame_trans (Frame.setTrans _ impl _)
  | last f =>
    cases ht : w.trans impl with
    | none =>
      exact ⟨[], by simpa [Call.exec, transaction_impl.last, ht] using Frame.frame_refl w,
        by simp, by simp [postCalls, postsOf], by simp [lastRuns]⟩
    | some t =>
      refine ⟨[(Event.last impl f, w.toState)], ?_,
        by simp [Event.isInvoke], by simp [postCalls, postsOf], by simp [lastRuns]⟩
      simp only [Call.exec, transaction_impl.last, ht]
      simpa using (Frame.record w _ (by simp [postCalls])).frame_trans (Frame.setTrans _ impl _)
  | post f =>
    exact ⟨[(Event.post f, w.toState)], Frame.post w f, by simp [Event.isInvoke],
      by simp [postCalls, postsOf], by simp [lastRuns]⟩

theorem execCalls_frame (impl : Nat) :
    ∀ (calls : List Call) (w : World),
      ∃ new, Frame w (execCalls impl calls w) new ∧ (∀ x ∈ new, x.1.isInvoke = false) ∧
        postCalls (new.map Prod.fst) = postsOf calls ∧ lastRuns impl (new.map Prod.fst) = []
  | [], w => ⟨[], Frame.frame_refl w, by simp, by simp [postCalls, postsOf], by simp [lastRuns]⟩
  | c :: cs, w => by
    obtain ⟨n1, h1, h2, h3, h4⟩ := Call.exec_frame impl c w
    obtain ⟨n2, g1, g2, g3, g4⟩ := execCalls_frame impl cs (c.exec impl w)
    refine ⟨n1 ++ n2, h1.frame_trans g1, ?_, ?_, ?_⟩
    · intro x hx
      rcases List.mem_append.1 hx with hx | hx
      · exact h2 x hx
      · exact g2 x hx
    · rw [List.map_append, postCalls_append, h3, g3]
      simp [postsOf, List.filterMap_cons]
      cases c <;> simp
    · simp only [lastRuns] at h4 g4 ⊢
      rw [List.map_append, List.filterMap_append, h4, g4]
      rfl

theorem execCalls_log_eq {impl : Nat} {calls : List Call} {w : World}
    {n1 n2 : List (Event × State)}
    (h1 : (execCalls impl calls w).log = w.log ++ n1)
    (h2 : (execCalls impl calls w).log = w.log ++ n2) : n1 = n2 :=
  List.append_cancel_left (h1.symm.trans h2)

theorem untilEvent_cons_self (a : Event) (l : List Event) : untilEvent a (a :: l) = [] := by
  simp [untilEvent, List.takeWhile_cons]

theorem untilEvent_cons_ne {a b : Event} (h : b ≠ a) (l : List Event) :
    untilEvent a (b :: l) = b :: untilEvent a l := by
  simp [untilEvent, List.takeWhile_cons, h]

theorem untilEvent_append {a : Event} :
    ∀ (l1 l2 : List Event), (∀ x ∈ l1, x ≠ a) →
      untilEvent a (l1 ++ l2) = l1 ++ untilEvent a l2
  | [], _, _ => rfl
  | b :: l1, l2, h => by
    rw [List.cons_append, untilEvent_cons_ne (h b (List.mem_cons_self _ _)),
      untilEvent_append l1 l2 (fun x hx => h x (List.mem_cons_of_mem _ hx))]
    rfl

theorem mem_untilEvent {a x : Event} {pre post : List Event}
    (hpre : a ∉ pre) (hx : x ≠ a) : x ∈ untilEvent a (pre ++ x :: post) := by
  rw [untilEvent_append pre _ (fun y hy e => hpre (by rw [← e]; exact hy)), untilEvent_cons_ne hx]
  simp

theorem QInv.nil_entries {g : Graph} {t : transaction_impl} (h : QInv g t)
    (hQ : t.prioritizedQ = []) : t.entries = [] := by
  have := h.ids
  rw [hQ] at this
  simpa using this.symm.eq_nil

theorem process_prioritized_spec (cb : Callbacks) (impl : Nat) (wtA wtF : Nat → Nat)
    (hact : cb.ActionsSchedule impl wtA wtF) :
    ∀ (fuel : Nat) (w : World) (t : transaction_impl),
      w.trans impl = some t → QInv w.nodes t → pendingWeight wtA wtF t < fuel →
      ∃ (w' : World) (t' : transaction_impl) (new : List (Event × State)),
        transaction_impl.process_prioritized cb impl fuel w = Outcome.done w' ∧
        w'.log = w.log ++ new ∧ w'.nodes = w.nodes ∧
        w'.trans impl = some t' ∧ QInv w.nodes t' ∧
        t'.entries = [] ∧ t'.prioritizedQ = [] ∧
        t'.lastQ = t.lastQ ++ lastCalls impl (new.map Prod.fst) ∧
        pendingWeight wtA wtF t' + ((postCalls (new.map Prod.fst)).map wtF).sum
          ≤ pendingWeight wtA wtF t ∧
        Frame w w' new ∧
        (∀ x ∈ new, x.1.isInvoke = true → ∃ id tg f, x.1 = Event.run impl id tg f) ∧
        (∀ k ∈ t.prioritizedQ, ∀ e, mapFind k.2 t.entries = some e →
          Event.run impl k.2 e.target e.action ∈ new.map Prod.fst ∧
          ∀ ev ∈ untilEvent (Event.run impl k.2 e.target e.action) (new.map Prod.fst),
            ∀ i id tg f, ev = Event.run i id tg f → keyLt (rankOf w.nodes tg, id) k)
  | 0, _, _, _, _, hf => by omega
  | fuel + 1, w, t, ht, hinv, hf => by
    have hl := trans_lt ht
    cases hQ : t.prioritizedQ with
    | nil =>
      refine ⟨w.setTrans impl t, t, [], ?_, by simp [World.setTrans], by simp [World.setTrans],
        trans_setTrans t hl, hinv, hinv.nil_entries hQ, hQ, by simp [lastCalls],
        by simp [postCalls], Frame.setTrans w impl t, by simp, by simp [hQ]⟩
      simp [transaction_impl.process_prioritized, ht, check_regen_of_false hinv.regen, hQ]
    | cons k0 rest =>
      obtain ⟨e0, hfind0, hrank0, hinv1⟩ := hinv.pop hQ
      set t1 : transaction_impl :=
        { t with prioritizedQ := rest, entries := mapErase k0.2 t.entries } with ht1
      set w1 := (w.setTrans impl t1).record (Event.run impl k0.2 e0.target e0.action) with hw1
      have hw1t : w1.trans impl = some t1 := by
        have := @trans_setTrans w impl t1 hl
        simpa [hw1, World.trans, World.record] using this
      have hw1n : w1.nodes = w.nodes := by simp [hw1, World.record, World.setTrans]
      have hw1l : w1.log = w.log ++ [(Event.run impl k0.2 e0.target e0.action,
          (w.setTrans impl t1).toState)] := by simp [hw1, World.record, World.setTrans]
      obtain ⟨calls, hcb, hwt⟩ := hact e0.action w1
      obtain ⟨news, hlog2, hev2, htr2, hn2⟩ := execCalls_spec impl calls w1 t1 hw1t
      rw [hw1n] at hev2 htr2
      set t2 := calls.foldl (Call.apply w.nodes) t1 with ht2
      have hinv2 : QInv w.nodes t2 := QInv.applyAll calls hinv1
      have hpw1 : pendingWeight wtA wtF t = wtA e0.action + pendingWeight wtA wtF t1 := by
        simp only [pendingWeight, ht1]
        rw [sum_mapErase (fun x => wtA x.action) t.entries hfind0]
        omega
      have hpw2 : pendingWeight wtA wtF t2 + ((postsOf calls).map wtF).sum
          = pendingWeight wtA wtF t1 + (calls.map (Call.weight wtA wtF)).sum :=
        pendingWeight_applyAll wtA wtF calls hinv1
      have hn2' : (execCalls impl calls w1).nodes = w.nodes := hn2.trans hw1n
      have hposts2 : postCalls (news.map Prod.fst) = postsOf calls := by
        rw [hev2, postCalls_callEvents]
      have hframe1 : Frame w w1 [(Event.run impl k0.2 e0.target e0.action,
          (w.setTrans impl t1).toState)] := by
        simpa [hw1] using (Frame.setTrans w impl t1).frame_trans
          (Frame.record (w.setTrans impl t1) _ (by simp [postCalls]))
      have hframe2 : Frame w1 (execCalls impl calls w1) news := by
        obtain ⟨n, hn, _⟩ := execCalls_frame impl calls w1
        rw [← execCalls_log_eq hn.log hlog2]
        exact hn
      obtain ⟨w', t', new', hrun, hlog', hn', htr', hinv', hent', hq', hlast', hpw', hframe',
          hinvk', hord'⟩ :=
        process_prioritized_spec cb impl wtA wtF hact fuel (execCalls impl calls w1) t2 htr2
          (hn2'.symm ▸ hinv2) (by omega)
      rw [hn2'] at hn' hinv' hord'
      have hidsQ : ((k0 :: rest).map Prod.snd).Nodup := by
        have := hinv.ids
        rw [hQ] at this
        exact this.nodup_iff.2 hinv.nodup
      simp only [List.map_cons, List.nodup_cons] at hidsQ
      have hsorted := hinv.sorted
      rw [hQ] at hsorted
      refine ⟨w', t', (Event.run impl k0.2 e0.target e0.action, (w.setTrans impl t1).toState)
          :: news ++ new', ?_, ?_, hn', htr', hinv', hent', hq', ?_, ?_, ?_, ?_, ?_⟩
      · rw [transaction_impl.process_prioritized]
        simp only [ht, check_regen_of_false hinv.regen, hQ, hfind0]
        rw [← ht1, ← hw1, hcb]
        exact hrun
      · rw [hlog', hlog2, hw1l]
        simp
      · rw [hlast', ht2, lastQ_applyAll impl w.nodes calls t1]
        simp only [List.map_cons, List.map_append, hev2, lastCalls, List.filterMap_cons,
          List.filterMap_append, List.append_assoc]
      · have : postCalls (((Event.run impl k0.2 e0.target e0.action,
            (w.setTrans impl t1).toState) :: news ++ new').map Prod.fst)
            = postsOf calls ++ postCalls (new'.map Prod.fst) := by
          rw [List.cons_append, List.map_cons, List.map_append,
            ← List.singleton_append, postCalls_append, postCalls_append, hposts2]
          simp [postCalls]
        rw [this, List.map_append, List.sum_append]
        omega
      · simpa using (hframe1.frame_trans hframe2).frame_trans hframe'
      · intro x hx hxi
        simp only [List.cons_append, List.mem_cons, List.mem_append] at hx
        rcases hx with hx | hx | hx
        · exact ⟨_, _, _, by rw [hx]⟩
        · have := callEvents_not_invoke impl w.nodes calls t1 x.1
            (hev2 ▸ List.mem_map.2 ⟨x, hx, Eq.refl _⟩)
          rw [this] at hxi
          exact absurd hxi (by simp)
        · exact hinvk' x hx hxi
      · intro k hk e he
        rcases List.mem_cons.1 hk with hk0 | hkr
        · subst hk0
          rw [hfind0] at he
          simp only [Option.some.injEq] at he
          subst he
          refine ⟨by simp, ?_⟩
          simp only [List.cons_append, List.map_cons]
          rw [untilEvent_cons_self]
          intro ev hev
          simp at hev
        · have hne : k.2 ≠ k0.2 := by
            intro e1
            exact hidsQ.1 (e1 ▸ List.mem_map.2 ⟨k, hkr, Eq.refl _⟩)
          have hlt : keyLt k0 k := (List.pairwise_cons.1 hsorted).1 k hkr
          have he1 : mapFind k.2 t1.entries = some e := by
            simp only [ht1]
            rw [mapFind_mapErase_ne hne]
            exact he
          obtain ⟨hk2, he2⟩ := pending_applyAll calls hinv1 (show k ∈ t1.prioritizedQ from hkr) he1
          obtain ⟨hmem, hbefore⟩ := hord' k hk2 e he2
          have hne0 : Event.run impl k0.2 e0.target e0.action ≠ Event.run impl k.2 e.target e.action := by
            intro e1
            injection e1 with _ e2
            exact hne e2.symm
          have hnec : ∀ x ∈ news.map Prod.fst, x ≠ Event.run impl k.2 e.target e.action := by
            intro x hx e1
            have := callEvents_not_invoke impl w.nodes calls t1 x (hev2 ▸ hx)
            rw [e1] at this
            simp [Event.isInvoke] at this
          refine ⟨by simp [hmem], ?_⟩
          simp only [List.cons_append, List.map_cons, List.map_append]
          rw [untilEvent_cons_ne hne0, untilEvent_append _ _ hnec]
          intro ev hev i id tg f hrun
          simp only [List.mem_cons, List.mem_append] at hev
          rcases hev with hev | hev | hev
          · rw [hev] at hrun
            injection hrun with _ h2 h3 _
            rw [← h2, ← h3, ← hrank0]
            exact hlt
          · have := callEvents_not_invoke impl w.nodes calls t1 ev (hev2 ▸ hev)
            rw [hrun] at this
            simp [Event.isInvoke] at this
          · exact hbefore ev hev i id tg f hrun

theorem applyAll_no_prioritized (g : Graph) :
    ∀ (calls : List Call) (t : transaction_impl), (∀ c ∈ calls, c.isPrioritized = false) →
      (calls.foldl (Call.apply g) t).entries = t.entries ∧
      (calls.foldl (Call.apply g) t).prioritizedQ = t.prioritizedQ
  | [], _, _ => ⟨rfl, rfl⟩
  | c :: cs, t, h => by
    have hc := h c (List.mem_cons_self _ _)
    have ih := applyAll_no_prioritized g cs (c.apply g t)
      (fun c' hc' => h c' (List.mem_cons_of_mem _ hc'))
    rw [List.foldl_cons, ih.1, ih.2]
    cases c <;> simp [Call.apply, Call.isPrioritized] at hc ⊢

theorem QInv.setLastQ {g : Graph} {t : transaction_impl} (h : QInv g t) (q : List Nat) :
    QInv g { t with lastQ := q } :=
  ⟨h.regen, h.sorted, h.ids, h.nodup, h.fresh, h.keys⟩

theorem process_last_spec (cb : Callbacks) (impl : Nat) (wtA wtF : Nat → Nat)
    (ok : Call → Prop) (hfin : cb.FinalsSchedule impl wtA wtF ok) :
    ∀ (fuel : Nat) (w : World) (t : transaction_impl),
      w.trans impl = some t → QInv w.nodes t → w.part.key = some impl →
      pendingWeight wtA wtF t < fuel →
      ∃ (w' : World) (t' : transaction_impl) (new : List (Event × State)),
        transaction_impl.process_last cb impl fuel w = Outcome.done w' ∧
        w'.log = w.log ++ new ∧ w'.nodes = w.nodes ∧
        w'.trans impl = some t' ∧ t'.lastQ = [] ∧
        lastRuns impl (new.map Prod.fst) = t.lastQ ++ lastCalls impl (new.map Prod.fst) ∧
        pendingWeight wtA wtF t' + ((postCalls (new.map Prod.fst)).map wtF).sum
          ≤ pendingWeight wtA wtF t ∧
        Frame w w' new ∧
        (∀ x ∈ new, x.1.isInvoke = true → ∃ f, x.1 = Event.run_last impl f) ∧
        ((∀ c, ok c → c.isPrioritized = false) → t.entries = [] → t.prioritizedQ = [] →
          t'.entries = [] ∧ t'.prioritizedQ = [] ∧
          ∀ x ∈ new, ∀ i f, x.1 = Event.run_last i f →
            ∃ s, x.2.trans impl = some s ∧ s.entries = [] ∧ s.prioritizedQ = [])
  | 0, _, _, _, _, _, hf => by omega
  | fuel + 1, w, t, ht, hinv, hkey, hf => by
    have hl := trans_lt ht
    cases hQ : t.lastQ with
    | nil =>
      refine ⟨w, t, [], ?_, by simp, rfl, ht, hQ, by simp [lastRuns, lastCalls],
        by simp [postCalls], Frame.frame_refl w, by simp, fun _ he hq => ⟨he, hq, by simp⟩⟩
      simp [transaction_impl.process_last, ht, hQ]
    | cons f fs =>
      set w1 := w.record (Event.run_last impl f) with hw1
      have hw1t : w1.trans impl = some t := by simpa [hw1, World.trans, World.record] using ht
      have hw1n : w1.nodes = w.nodes := by simp [hw1, World.record]
      have hw1l : w1.log = w.log ++ [(Event.run_last impl f, w.toState)] := by
        simp [hw1, World.record]
      obtain ⟨calls, hcb, hwt, hok⟩ := hfin f w1 (by simpa [hw1, World.record] using hkey)
      obtain ⟨news, hlog2, hev2, htr2, hn2⟩ := execCalls_spec impl calls w1 t hw1t
      rw [hw1n] at hev2 htr2
      set t2 := calls.foldl (Call.apply w.nodes) t with ht2
      have hinv2 : QInv w.nodes t2 := QInv.applyAll calls hinv
      have hpw2 : pendingWeight wtA wtF t2 + ((postsOf calls).map wtF).sum
          = pendingWeight wtA wtF t + (calls.map (Call.weight wtA wtF)).sum :=
        pendingWeight_applyAll wtA wtF calls hinv
      have hposts2 : postCalls (news.map Prod.fst) = postsOf calls := by
        rw [hev2, postCalls_callEvents]
      have hframe1 : Frame w w1 [(Event.run_last impl f, w.toState)] := by
        simpa [hw1] using Frame.record w (Event.run_last impl f) (by simp [postCalls])
      have hframe2 : Frame w1 (execCalls impl calls w1) news := by
        obtain ⟨n, hn, _⟩ := execCalls_frame impl calls w1
        rw [← execCalls_log_eq hn.log hlog2]
        exact hn
      have hlq2 : t2.lastQ = f :: fs ++ lastCalls impl (callEvents impl w.nodes t calls) := by
        rw [ht2, lastQ_applyAll impl w.nodes calls t, hQ]
      set t3 : transaction_impl := { t2 with lastQ := t2.lastQ.tail } with ht3
      set w3 := (execCalls impl calls w1).setTrans impl t3 with hw3
      have hl2 := trans_lt htr2
      have hw3t : w3.trans impl = some t3 := trans_setTrans t3 hl2
      have hw3n : w3.nodes = w.nodes := by
        simp only [hw3, World.setTrans]
        exact hn2.trans hw1n
      have hpw3 : pendingWeight wtA wtF t3 + wtF f = pendingWeight wtA wtF t2 := by
        simp only [pendingWeight, ht3, hlq2]
        simp
        omega
      have hframe3 : Frame (execCalls impl calls w1) w3 [] := by
        simpa [hw3] using Frame.setTrans (execCalls impl calls w1) impl t3
      have hkey3 : w3.part.key = some impl :=
        (((hframe1.frame_trans hframe2).frame_trans hframe3).part.key).trans hkey
      obtain ⟨w', t', new', hrun, hlog', hn', htr', hlast', hfifo', hpw', hframe', hinvk',
          hstrict'⟩ :=
        process_last_spec cb impl wtA wtF ok hfin fuel w3 t3 hw3t
          (hw3n.symm ▸ hinv2.setLastQ _) hkey3 (by omega)
      refine ⟨w', t', (Event.run_last impl f, w.toState) :: news ++ new', ?_, ?_,
        hn'.trans hw3n, htr', hlast', ?_, ?_, ?_, ?_, ?_⟩
      · rw [transaction_impl.process_last]
        simp only [ht, hQ]
        rw [← hw1, hcb]
        simp only [htr2]
        rw [← ht3, ← hw3]
        exact hrun
      · rw [hlog']
        simp only [hw3, World.setTrans]
        rw [hlog2, hw1l]
        simp
      · have h1 := lastRuns_callEvents impl w.nodes calls t
        simp only [lastRuns] at h1 hfifo' ⊢
        simp only [List.map_cons, List.map_append, hev2, List.filterMap_cons,
          List.filterMap_append, h1, hfifo', lastCalls, if_true, List.nil_append]
        simp only [ht3, hlq2, List.cons_append, List.tail_cons, lastCalls, List.append_assoc]
        rfl
      · have : postCalls (((Event.run_last impl f, w.toState) :: news ++ new').map Prod.fst)
            = postsOf calls ++ postCalls (new'.map Prod.fst) := by
          rw [List.cons_append, List.map_cons, List.map_append,
            ← List.singleton_append, postCalls_append, postCalls_append, hposts2]
          simp [postCalls]
        rw [this, List.map_append, List.sum_append]
        omega
      · simpa using ((hframe1.frame_trans hframe2).frame_trans hframe3).frame_trans hframe'
      · intro x hx hxi
        simp only [List.cons_append, List.mem_cons, List.mem_append] at hx
        rcases hx with hx | hx | hx
        · exact ⟨f, by rw [hx]⟩
        · have := callEvents_not_invoke impl w.nodes calls t x.1
            (hev2 ▸ List.mem_map.2 ⟨x, hx, Eq.refl _⟩)
          rw [this] at hxi
          exact absurd hxi (by simp)
        · exact hinvk' x hx hxi
      · intro hstrict he hq
        have hnp := applyAll_no_prioritized w.nodes calls t
          (fun c hc => hstrict c (hok c hc))
        obtain ⟨h1, h2, h3⟩ := hstrict' hstrict (by simp only [ht3]; rw [← ht2] at hnp; rw [hnp.1, he])
          (by simp only [ht3]; rw [← ht2] at hnp; rw [hnp.2, hq])
        refine ⟨h1, h2, ?_⟩
        intro x hx i f' hev
        simp only [List.cons_append, List.mem_cons, List.mem_append] at hx
        rcases hx with hx | hx | hx
        · refine ⟨t, ?_, he, hq⟩
          rw [hx]
          exact ht
        · have := callEvents_not_invoke impl w.nodes calls t x.1
            (hev2 ▸ List.mem_map.2 ⟨x, hx, Eq.refl _⟩)
          rw [hev] at this
          simp [Event.isInvoke] at this
        · exact h3 x hx i f' hev

theorem untilEvent_append_of_mem {a : Event} :
    ∀ (l1 l2 : List Event), a ∈ l1 → untilEvent a (l1 ++ l2) = untilEvent a l1
  | [], _, h => by simp at h
  | b :: l1, l2, h => by
    by_cases hb : b = a
    · subst hb
      simp [untilEvent_cons_self]
    · rw [List.cons_append, untilEvent_cons_ne hb, untilEvent_cons_ne hb,
        untilEvent_append_of_mem l1 l2 (by
          rcases List.mem_cons.1 h with h | h
          · exact absurd h.symm hb
          · exact h)]

theorem QInv.new (g : Graph) : QInv g transaction_impl.new :=
  ⟨rfl, by simp [transaction_impl.new], by simp [transaction_impl.new],
    by simp [transaction_impl.new], by simp [transaction_impl.new],
    by simp [transaction_impl.new]⟩

theorem scripted_actions (impl : Nat) (aCalls fCalls : Nat → List Call) (wtA wtF : Nat → Nat)
    (h : ∀ f, ((aCalls f).map (Call.weight wtA wtF)).sum < wtA f) :
    (scripted aCalls fCalls).ActionsSchedule impl wtA wtF :=
  fun f _ => ⟨aCalls f, rfl, h f⟩

theorem scripted_finals (impl : Nat) (aCalls fCalls : Nat → List Call) (wtA wtF : Nat → Nat)
    (ok : Call → Prop)
    (h : ∀ f, ((fCalls f).map (Call.weight wtA wtF)).sum < wtF f ∧ ∀ c ∈ fCalls f, ok c) :
    (scripted aCalls fCalls).FinalsSchedule impl wtA wtF ok :=
  fun f w hk => ⟨fCalls f, by simp [scripted, hk], (h f).1, (h f).2⟩

theorem lastRuns_nil_of_runs (impl : Nat) :
    ∀ (l : List (Event × State)),
      (∀ x ∈ l, x.1.isInvoke = true → ∃ id tg f, x.1 = Event.run impl id tg f) →
      lastRuns impl (l.map Prod.fst) = []
  | [], _ => by simp [lastRuns]
  | x :: l, h => by
    have ih := lastRuns_nil_of_runs impl l (fun y hy => h y (List.mem_cons_of_mem _ hy))
    have hx := h x (List.mem_cons_self _ _)
    simp only [lastRuns, List.map_cons, List.filterMap_cons] at ih ⊢
    cases hx1 : x.1 with
    | run_last i f =>
      rw [hx1] at hx
      obtain ⟨_, _, _, h'⟩ := hx rfl
      cases h'
    | process_transactional i => simpa using ih
    | prioritized i id tg f => simpa using ih
    | run i id tg f => simpa using ih
    | last i f => simpa using ih
    | post f => simpa using ih
    | run_post f => simpa using ih

theorem regen_fold (g : Graph) :
    ∀ (entries : List (Nat × prioritized_entry)) (acc : List (Nat × Nat)),
      acc.Pairwise keyLt → (entries.map Prod.fst).Nodup →
      (∀ k ∈ acc, k.2 ∉ entries.map Prod.fst) →
      (entries.foldl (fun q it => setInsert (rankOf g it.2.target, it.1) q) acc).Pairwise keyLt ∧
      ((entries.foldl (fun q it => setInsert (rankOf g it.2.target, it.1) q) acc).map
          Prod.snd).Perm (acc.map Prod.snd ++ entries.map Prod.fst) ∧
      ∀ k ∈ entries.foldl (fun q it => setInsert (rankOf g it.2.target, it.1) q) acc,
        k ∈ acc ∨ ∃ it ∈ entries, k = (rankOf g it.2.target, it.1)
  | [], acc, hp, _, _ => ⟨hp, by simp, fun k hk => Or.inl hk⟩
  | it :: es, acc, hp, hnd, hdis => by
    simp only [List.map_cons, List.nodup_cons] at hnd
    have hfresh : (rankOf g it.2.target, it.1) ∉ acc := by
      intro hm
      exact hdis _ hm (by simp)
    obtain ⟨h1, h2, h3⟩ := regen_fold g es (setInsert (rankOf g it.2.target, it.1) acc)
      (pairwise_setInsert _ _ hp) hnd.2 (by
        intro k hk
        rcases mem_setInsert hk with e | hk'
        · rw [e]
          exact hnd.1
        · intro hm
          exact hdis k hk' (by simp [hm]))
    refine ⟨h1, ?_, ?_⟩
    · refine h2.trans ?_
      have := (setInsert_perm hfresh).map Prod.snd
      simp only [List.map_cons] at this ⊢
      exact (this.append_right _).trans (by simpa using List.perm_middle.symm)
    · intro k hk
      rcases h3 k hk with hk' | ⟨it', hit', e⟩
      · rcases mem_setInsert hk' with e | hk''
        · exact Or.inr ⟨it, List.mem_cons_self _ _, e⟩
        · exact Or.inl hk''
      · exact Or.inr ⟨it', List.mem_cons_of_mem _ hit', e⟩

theorem QInv.of_regen {g : Graph} {t : transaction_impl} (hr : t.to_regen = true)
    (h : EInv t) : QInv g (t.check_regen g) := by
  obtain ⟨h1, h2, h3⟩ := regen_fold g t.entries [] List.Pairwise.nil h.nodup (by simp)
  refine ⟨by simp [transaction_impl.check_regen, hr], ?_, ?_, ?_, ?_, ?_⟩
  · simpa [transaction_impl.check_regen, hr] using h1
  · simpa [transaction_impl.check_regen, hr] using h2
  · simpa [transaction_impl.check_regen, hr] using h.nodup
  · simpa [transaction_impl.check_regen, hr] using h.fresh
  · intro k hk e he
    simp only [transaction_impl.check_regen, hr, if_true] at hk he
    rcases h3 k hk with hk' | ⟨it, hit, e1⟩
    · simp at hk'
    · have := mapFind_of_mem t.entries h.nodup (show (it.1, it.2) ∈ t.entries from hit)
      rw [e1] at he ⊢
      simp only at he
      rw [this] at he
      simp only [Option.some.injEq] at he
      rw [← he]

theorem SchedInv.check_regen {g : Graph} {t : transaction_impl} (h : SchedInv g t) :
    QInv g (t.check_regen g) := by
  rcases h with h | ⟨hr, he⟩
  · rw [check_regen_of_false h.regen]
    exact h
  · exact QInv.of_regen hr he

theorem check_regen_fields (g : Graph) (t : transaction_impl) :
    (t.check_regen g).entries = t.entries ∧ (t.check_regen g).lastQ = t.lastQ ∧
    (t.check_regen g).next_entry_id = t.next_entry_id ∧
    (t.check_regen g).to_regen = false := by
  unfold transaction_impl.check_regen
  split
  · exact ⟨rfl, rfl, rfl, rfl⟩
  · next h => exact ⟨rfl, rfl, rfl, by simpa using h⟩

theorem process_prioritized_check_regen (cb : Callbacks) (impl fuel : Nat) (w : World)
    (t : transaction_impl) (ht : w.trans impl = some t) :
    transaction_impl.process_prioritized cb impl (fuel + 1) w
      = transaction_impl.process_prioritized cb impl (fuel + 1)
          (w.setTrans impl (t.check_regen w.nodes)) := by
  have hl := trans_lt ht
  have ht' : (w.setTrans impl (t.check_regen w.nodes)).trans impl
      = some (t.check_regen w.nodes) := trans_setTrans _ hl
  have hn : (w.setTrans impl (t.check_regen w.nodes)).nodes = w.nodes := rfl
  have hreg : (t.check_regen w.nodes).check_regen w.nodes = t.check_regen w.nodes :=
    check_regen_of_false (check_regen_fields w.nodes t).2.2.2
  rw [transaction_impl.process_prioritized, transaction_impl.process_prioritized]
  simp only [ht, ht', hn, hreg, setTrans_setTrans]

theorem pendingWeight_check_regen (wtA wtF : Nat → Nat) (g : Graph) (t : transaction_impl) :
    pendingWeight wtA wtF (t.check_regen g) = pendingWeight wtA wtF t := by
  simp [pendingWeight, (check_regen_fields g t).1, (check_regen_fields g t).2.1]

theorem process_prioritized_sched (cb : Callbacks) (impl : Nat) (wtA wtF : Nat → Nat)
    (hact : cb.ActionsSchedule impl wtA wtF) (fuel : Nat) (w : World) (t : transaction_impl)
    (ht : w.trans impl = some t) (hinv : SchedInv w.nodes t)
    (hf : pendingWeight wtA wtF t < fuel) :
    ∃ (w' : World) (t' : transaction_impl) (new : List (Event × State)),
      transaction_impl.process_prioritized cb impl fuel w = Outcome.done w' ∧
      w'.log = w.log ++ new ∧ w'.nodes = w.nodes ∧
      w'.trans impl = some t' ∧ QInv w.nodes t' ∧
      t'.entries = [] ∧ t'.prioritizedQ = [] ∧
      t'.lastQ = t.lastQ ++ lastCalls impl (new.map Prod.fst) ∧
      pendingWeight wtA wtF t' + ((postCalls (new.map Prod.fst)).map wtF).sum
        ≤ pendingWeight wtA wtF t ∧
      Frame w w' new ∧
      (∀ x ∈ new, x.1.isInvoke = true → ∃ id tg f, x.1 = Event.run impl id tg f) ∧
      (∀ k ∈ (t.check_regen w.nodes).prioritizedQ, ∀ e, mapFind k.2 t.entries = some e →
        Event.run impl k.2 e.target e.action ∈ new.map Prod.fst ∧
        ∀ ev ∈ untilEvent (Event.run impl k.2 e.target e.action) (new.map Prod.fst),
          ∀ i id tg f, ev = Event.run i id tg f → keyLt (rankOf w.nodes tg, id) k) := by
  obtain ⟨fuel, rfl⟩ : ∃ n, fuel = n + 1 := ⟨fuel - 1, by omega⟩
  have hq := hinv.check_regen
  have hflds := check_regen_fields w.nodes t
  obtain ⟨w', t', new, hrun, hlog, hn, htr, hinv', he, hq', hlast, hpw, hfr, hi, hord⟩ :=
    process_prioritized_spec cb impl wtA wtF hact (fuel + 1)
      (w.setTrans impl (t.check_regen w.nodes)) (t.check_regen w.nodes)
      (trans_setTrans _ (trans_lt ht)) hq
      (by rw [pendingWeight_check_regen]; exact hf)
  refine ⟨w', t', new, ?_, hlog, hn, htr, hinv', he, hq', by rw [hlast, hflds.2.1],
    by rw [pendingWeight_check_regen] at hpw; exact hpw, ?_, hi, ?_⟩
  · rw [process_prioritized_check_regen cb impl fuel w t ht]
    exact hrun
  · simpa using (Frame.setTrans w impl (t.check_regen w.nodes)).frame_trans hfr
  · intro k hk e he'
    exact hord k hk e (by rw [hflds.1]; exact he')

/-- C4 (amended): in a drain that starts with a faithful queue (every key of a pending entry
carries the current rank of its target, or `to_regen` is set so that the first `check_regen`
rebuilds the keys), with actions and final callbacks that only make scheduling calls (so no
rank changes during the drain), a pending entry on `A` is invoked, and before it no entry on
a node `B` of larger rank is invoked, whether that entry on `B` was scheduled before the drain
or by an action during the drain. -/
theorem prioritized_topological_order (cb : Callbacks) (impl : Nat) (wtA wtF : Nat → Nat)
    (w : World) (t : transaction_impl) (A B idA fA fuel : Nat)
    (hact : cb.ActionsSchedule impl wtA wtF)
    (hfin : cb.FinalsSchedule impl wtA wtF (fun _ => True))
    (ht : w.trans impl = some t) (hinv : SchedInv w.nodes t)
    (hkey : w.part.key = some impl)
    (hA : mapFind idA t.entries = some ⟨some A, fA⟩)
    (hrank : (nodeAt w.nodes A).rank < (nodeAt w.nodes B).rank)
    (hfuel : pendingWeight wtA wtF t < fuel) :
    ∃ (w' : World) (new : List Event),
      transaction_impl.process_transactional cb fuel impl w = Outcome.done w' ∧
      w'.events = w.events ++ new ∧ w'.nodes = w.nodes ∧
      Event.run impl idA (some A) fA ∈ new ∧
      ∀ pre id f post, new = pre ++ Event.run impl id (some B) f :: post →
        Event.run impl idA (some A) fA ∈ pre := by
  set w0 := w.record (Event.process_transactional impl) with hw0
  have hw0t : w0.trans impl = some t := by simpa [hw0, World.trans, World.record] using ht
  have hw0n : w0.nodes = w.nodes := by simp [hw0, World.record]
  obtain ⟨w1, t1, new1, hrun1, hlog1, hn1, htr1, hinv1, _, _, _, hpw1, hfr1, _, hord⟩ :=
    process_prioritized_sched cb impl wtA wtF hact fuel w0 t hw0t (hw0n.symm ▸ hinv) hfuel
  rw [hw0n] at hn1 hinv1 hord
  obtain ⟨w2, t2, new2, hrun2, hlog2, hn2, _, _, _, _, _, hinvk2, _⟩ :=
    process_last_spec cb impl wtA wtF _ hfin fuel w1 t1 htr1 (hn1.symm ▸ hinv1)
      (hfr1.part.key.trans (by simpa [hw0, World.record] using hkey)) (by omega)
  have hq := hinv.check_regen
  have hflds := check_regen_fields w.nodes t
  obtain ⟨k, hk, hkid⟩ : ∃ k ∈ (t.check_regen w.nodes).prioritizedQ, k.2 = idA := by
    have : idA ∈ (t.check_regen w.nodes).prioritizedQ.map Prod.snd :=
      hq.ids.symm.subset (by
        rw [hflds.1]
        exact List.mem_map.2 ⟨_, mapFind_mem _ hA, rfl⟩)
    obtain ⟨k, hk, e⟩ := List.mem_map.1 this
    exact ⟨k, hk, e⟩
  subst hkid
  have hkr : k.1 = (nodeAt w.nodes A).rank :=
    hq.keys k hk ⟨some A, fA⟩ (by rw [hflds.1]; exact hA)
  obtain ⟨hmem, hbefore⟩ := hord k hk _ hA
  simp only at hmem hbefore
  refine ⟨w2, Event.process_transactional impl :: new1.map Prod.fst ++ new2.map Prod.fst,
    ?_, ?_, hn2.trans hn1, by simp [hmem], ?_⟩
  · simp only [transaction_impl.process_transactional]
    rw [← hw0, hrun1]
    exact hrun2
  · simp [World.events, hlog2, hlog1, hw0, World.record]
  · intro pre id f post hsplit
    by_contra hpre
    have hne : Event.run impl id (some B) f ≠ Event.run impl k.2 (some A) fA := by
      intro e
      injection e with _ _ e3 _
      injection e3 with e3
      rw [e3] at hrank
      exact lt_irrefl _ hrank
    have hin := @mem_untilEvent _ _ pre post hpre hne
    rw [← hsplit, List.cons_append,
      untilEvent_cons_ne (by intro e; cases e), untilEvent_append_of_mem _ _ hmem] at hin
    rcases List.mem_cons.1 hin with h0 | h0
    · cases h0
    · have := hbefore _ h0 impl id (some B) f rfl
      simp only [keyLt, rankOf] at this
      omega

theorem prioritized_topological_order_witness :
    node.link 3 [⟨0, []⟩, ⟨0, []⟩] 0 7 (some 1) = some chainWorld.nodes ∧
    (∃ (w' : World) (new : List Event),
      transaction_impl.process_transactional topoCallbacks 5 0 (execCalls 0 topoCalls chainWorld)
        = Outcome.done w' ∧
      w'.events = (execCalls 0 topoCalls chainWorld).events ++ new ∧
      w'.nodes = (execCalls 0 topoCalls chainWorld).nodes ∧
      Event.run 0 1 (some 0) 0 ∈ new ∧
      ∀ pre id f post, new = pre ++ Event.run 0 id (some 1) f :: post →
        Event.run 0 1 (some 0) 0 ∈ pre) ∧
    (∃ w', transaction_impl.process_transactional topoCallbacks 5 0
        (execCalls 0 topoCalls chainWorld) = Outcome.done w' ∧
      w'.events.drop 2 = [Event.process_transactional 0, Event.run 0 1 (some 0) 0,
        Event.prioritized 0 2 (some 1) 1, Event.run 0 0 (some 1) 1, Event.run 0 2 (some 1) 1]) ∧
    (∃ (w' : World) (new : List Event),
      transaction_impl.process_transactional topoCallbacks 5 0 staleWorld = Outcome.done w' ∧
      w'.events = staleWorld.events ++ new ∧ w'.nodes = staleWorld.nodes ∧
      Event.run 0 1 (some 0) 0 ∈ new ∧
      ∀ pre id f post, new = pre ++ Event.run 0 id (some 1) f :: post →
        Event.run 0 1 (some 0) 0 ∈ pre) ∧
    (∃ w', transaction_impl.process_transactional topoCallbacks 5 0 staleWorld
        = Outcome.done w' ∧
      w'.events = [Event.process_transactional 0, Event.run 0 1 (some 0) 0,
        Event.prioritized 0 2 (some 1) 1, Event.run 0 0 (some 1) 1, Event.run 0 2 (some 1) 1]) :=
  ⟨by decide,
    prioritized_topological_order topoCallbacks 0 (fun f => if f = 0 then 2 else 1) (fun _ => 1)
      (execCalls 0 topoCalls chainWorld)
      (topoCalls.foldl (Call.apply chainWorld.nodes) transaction_impl.new) 0 1 1 0 5
      (scripted_actions 0 _ _ _ _ (fun f => by by_cases h : f = 0 <;> simp [h, Call.weight]))
      (scripted_finals 0 _ _ _ _ _ (fun f => by simp))
      rfl (Or.inl (QInv.applyAll topoCalls (QInv.new chainWorld.nodes))) rfl rfl (by decide)
      (by decide),
    ⟨_, rfl, by decide⟩,
    prioritized_topological_order topoCallbacks 0 (fun f => if f = 0 then 2 else 1) (fun _ => 1)
      staleWorld staleTrans 0 1 1 0 5
      (scripted_actions 0 _ _ _ _ (fun f => by by_cases h : f = 0 <;> simp [h, Call.weight]))
      (scripted_finals 0 _ _ _ _ _ (fun f => by simp))
      rfl (Or.inr ⟨rfl, ⟨by decide, by decide⟩⟩) rfl rfl (by decide) (by decide),
    ⟨_, rfl, by decide⟩⟩

theorem postAll_eq_execCalls (impl : Nat) :
    ∀ (posts : List Nat) (w : World), postAll posts w = execCalls impl (posts.map Call.post) w
  | [], _ => rfl
  | f :: fs, w => by
    simp only [postAll, execCalls, List.map_cons, List.foldl_cons, Call.exec]
    exact postAll_eq_execCalls impl fs (partition.post f w)

theorem postsOf_map_post (posts : List Nat) : postsOf (posts.map Call.post) = posts := by
  induction posts with
  | nil => rfl
  | cons f fs ih => simpa [postsOf, List.filterMap_cons] using ih

theorem postAll_heap : ∀ (posts : List Nat) (w : World), (postAll posts w).heap = w.heap
  | [], _ => rfl
  | f :: fs, w => by
    simp only [postAll, List.foldl_cons]
    exact (postAll_heap fs (partition.post f w)).trans
      (by simp [partition.post, World.record, World.lock, World.unlock])

theorem postRuns_nil_of_not_invoke :
    ∀ (l : List (Event × State)), (∀ x ∈ l, x.1.isInvoke = false) → postRuns (l.map Prod.fst) = []
  | [], _ => by simp [postRuns]
  | x :: l, h => by
    have ih := postRuns_nil_of_not_invoke l (fun y hy => h y (List.mem_cons_of_mem _ hy))
    have hx := h x (List.mem_cons_self _ _)
    simp only [postRuns, List.map_cons, List.filterMap_cons] at ih ⊢
    cases hx1 : x.1 with
    | run_post f =>
      rw [hx1] at hx
      simp [Event.isInvoke] at hx
    | process_transactional i => simpa using ih
    | prioritized i id tg f => simpa using ih
    | run i id tg f => simpa using ih
    | last i f => simpa using ih
    | post f => simpa using ih
    | run_last i f => simpa using ih

theorem process_post_loop_spec (cb : Callbacks) (wtF : Nat → Nat)
    (hdef : cb.DeferredSchedule wtF) :
    ∀ (fuel : Nat) (w : World),
      w.part.key = none → 1 ≤ w.part.mx → (w.part.postQ.map wtF).sum < fuel →
      ∃ (w' : World) (new : List (Event × State)),
        partition.process_post_loop cb fuel w = Outcome.done w' ∧
        w'.log = w.log ++ new ∧ w'.nodes = w.nodes ∧ w'.heap = w.heap ∧
        SamePart w'.part w.part ∧ w'.part.postQ = [] ∧
        postRuns (new.map Prod.fst) = w.part.postQ ++ postCalls (new.map Prod.fst) ∧
        (∀ x ∈ new, x.1.isInvoke = true → ∃ f, x.1 = Event.run_post f) ∧
        (∀ x ∈ new, ∀ f, x.1 = Event.run_post f →
          x.2.part.mx + 1 = w.part.mx ∧ x.2.part.key = none ∧
          x.2.part.depth = w.part.depth ∧
          x.2.part.processing_post = w.part.processing_post ∧ x.2.heap = w.heap)
  | 0, _, _, _, hf => by omega
  | fuel + 1, w, hkey, hmx, hf => by
    cases hQ : w.part.postQ with
    | nil =>
      exact ⟨w, [], by simp [partition.process_post_loop, hQ], by simp, rfl, rfl,
        SamePart.same_refl _, hQ, by simp [postRuns, postCalls], by simp, by simp⟩
    | cons f rest =>
      set w1 : World := { w with part := { w.part with postQ := rest } } with hw1
      set wr := w1.unlock.record (Event.run_post f) with hwr
      have hwrk : wr.part.key = none := by simpa [hwr, hw1, World.record, World.unlock] using hkey
      obtain ⟨posts, hcb, hwt⟩ := hdef f wr hwrk
      obtain ⟨news, hfr, hninv, hpc, _⟩ := execCalls_frame 0 (posts.map Call.post) wr
      rw [← postAll_eq_execCalls] at hfr
      rw [postsOf_map_post] at hpc
      set w3 := (postAll posts wr).lock with hw3
      have hheap3 : w3.heap = w.heap := by
        simp only [hw3, World.lock]
        rw [postAll_heap]
        simp [hwr, hw1, World.record, World.unlock]
      have hpart3 : SamePart w3.part w.part := by
        have := hfr.part
        refine ⟨?_, ?_, ?_, ?_⟩
        · simp only [hw3, World.lock, this.mx]
          simp only [hwr, hw1, World.record, World.unlock]
          omega
        · simpa [hw3, World.lock, hwr, hw1, World.record, World.unlock] using this.depth
        · simpa [hw3, World.lock, hwr, hw1, World.record, World.unlock] using this.processing_post
        · simpa [hw3, World.lock, hwr, hw1, World.record, World.unlock] using this.key
      have hq3 : w3.part.postQ = rest ++ posts := by
        have := hfr.posts
        rw [hpc] at this
        simpa [hw3, World.lock, hwr, hw1, World.record, World.unlock] using this
      obtain ⟨w', new', hrun, hlog', hn', hh', hp', hq', hfifo', hinvk', hsnap'⟩ :=
        process_post_loop_spec cb wtF hdef fuel w3 (hpart3.key.trans hkey)
          (by rw [hpart3.mx]; exact hmx)
          (by
            rw [hq3]
            simp only [hQ, List.map_cons, List.sum_cons, List.map_append, List.sum_append] at hf ⊢
            omega)
      refine ⟨w', (Event.run_post f, w1.unlock.toState) :: news ++ new', ?_, ?_, ?_,
        hh'.trans hheap3, hp'.same_trans hpart3, hq', ?_, ?_, ?_⟩
      · rw [partition.process_post_loop]
        simp only [hQ]
        rw [← hw1, ← hwr, hcb]
        simp only
        rw [← hw3]
        exact hrun
      · rw [hlog']
        simp only [hw3, World.lock]
        rw [hfr.log]
        simp [hwr, hw1, World.record, World.unlock]
      · rw [hn']
        simp only [hw3, World.lock]
        rw [hfr.nodes]
        simp [hwr, hw1, World.record, World.unlock]
      · rw [List.cons_append, List.map_cons, List.map_append, ← List.singleton_append,
          postRuns_append, postRuns_append, postCalls_append, postCalls_append,
          postRuns_nil_of_not_invoke news hninv, hfifo', hq3, hpc]
        simp [postRuns, postCalls]
      · intro x hx hxi
        simp only [List.cons_append, List.mem_cons, List.mem_append] at hx
        rcases hx with hx | hx | hx
        · exact ⟨f, by rw [hx]⟩
        · rw [hninv x hx] at hxi
          exact absurd hxi (by simp)
        · exact hinvk' x hx hxi
      · intro x hx g hev
        simp only [List.cons_append, List.mem_cons, List.mem_append] at hx
        rcases hx with hx | hx | hx
        · rw [hx]
          refine ⟨?_, ?_, ?_, ?_, ?_⟩ <;> simp only [hw1, World.unlock]
          · omega
          · exact hkey
        · have := hninv x hx
          rw [hev] at this
          simp [Event.isInvoke] at this
        · obtain ⟨h1, h2, h3, h4, h5⟩ := hsnap' x hx g hev
          exact ⟨by rw [h1, hpart3.mx], h2, h3.trans hpart3.depth,
            h4.trans hpart3.processing_post, h5.trans hheap3⟩

theorem process_post_spec (cb : Callbacks) (wtF : Nat → Nat) (hdef : cb.DeferredSchedule wtF)
    (fuel : Nat) (w : World) (hkey : w.part.key = none)
    (hpp : w.part.processing_post = false) (hf : (w.part.postQ.map wtF).sum < fuel) :
    ∃ (w' : World) (new : List (Event × State)),
      partition.process_post cb fuel w = Outcome.done w' ∧
      w'.log = w.log ++ new ∧ w'.nodes = w.nodes ∧ w'.heap = w.heap ∧
      SamePart w'.part w.part ∧ w'.part.postQ = [] ∧
      postRuns (new.map Prod.fst) = w.part.postQ ++ postCalls (new.map Prod.fst) ∧
      (∀ x ∈ new, x.1.isInvoke = true → ∃ f, x.1 = Event.run_post f) ∧
      (∀ x ∈ new, ∀ f, x.1 = Event.run_post f →
        x.2.part.mx = w.part.mx ∧ x.2.part.key = none ∧
        x.2.part.depth = w.part.depth ∧ x.2.heap = w.heap) := by
  set w2 : World :=
    { w.lock with part := { w.lock.part with processing_post := true } } with hw2
  obtain ⟨w3, new, hrun, hlog, hn, hh, hp, hq, hfifo, hinvk, hsnap⟩ :=
    process_post_loop_spec cb wtF hdef fuel w2
      (by simpa [hw2, World.lock] using hkey) (by simp [hw2, World.lock])
      (by simpa [hw2, World.lock] using hf)
  refine ⟨({ w3 with part := { w3.part with processing_post := false } } : World).unlock, new,
    ?_, by simpa [World.unlock, hw2, World.lock] using hlog,
    by simpa [World.unlock, hw2, World.lock] using hn,
    by simpa [World.unlock, hw2, World.lock] using hh, ?_,
    by simpa [World.unlock] using hq,
    by simpa [hw2, World.lock] using hfifo, hinvk, ?_⟩
  · simp only [partition.process_post]
    have : (!(w.lock).part.processing_post) = true := by simp [World.lock, hpp]
    rw [if_pos this, ← hw2, hrun]
  · refine ⟨?_, ?_, ?_, ?_⟩
    · simp only [World.unlock, hp.mx, hw2, World.lock]
      omega
    · simpa [World.unlock, hw2, World.lock] using hp.depth
    · simp [World.unlock, hpp]
    · simpa [World.unlock, hw2, World.lock] using hp.key
  · intro x hx f hev
    obtain ⟨h1, h2, h3, _, h5⟩ := hsnap x hx f hev
    refine ⟨?_, h2, by simpa [hw2, World.lock] using h3, by simpa [hw2, World.lock] using h5⟩
    simp only [hw2, World.lock] at h1
    omega

theorem process_transactional_frame (cb : Callbacks) (impl : Nat) (wtA wtF : Nat → Nat)
    (ok : Call → Prop)
    (hact : cb.ActionsSchedule impl wtA wtF) (hfin : cb.FinalsSchedule impl wtA wtF ok)
    (fuel : Nat) (w : World) (t : transaction_impl)
    (ht : w.trans impl = some t) (hinv : QInv w.nodes t) (hkey : w.part.key = some impl)
    (hfuel : pendingWeight wtA wtF t < fuel) :
    ∃ (w' : World) (t' : transaction_impl) (new : List (Event × State)),
      transaction_impl.process_transactional cb fuel impl w = Outcome.done w' ∧
      Frame w w' ((Event.process_transactional impl, w.toState) :: new) ∧
      w'.trans impl = some t' ∧
      (∀ x ∈ new, x.1.isInvoke = true →
        (∃ id tg f, x.1 = Event.run impl id tg f) ∨ ∃ f, x.1 = Event.run_last impl f) ∧
      ((postCalls (new.map Prod.fst)).map wtF).sum ≤ pendingWeight wtA wtF t := by
  set w0 := w.record (Event.process_transactional impl) with hw0
  have hw0t : w0.trans impl = some t := by simpa [hw0, World.trans, World.record] using ht
  have hw0n : w0.nodes = w.nodes := by simp [hw0, World.record]
  have hfr0 : Frame w w0 [(Event.process_transactional impl, w.toState)] :=
    Frame.record w _ (by simp [postCalls])
  obtain ⟨w1, t1, new1, hrun1, _, hn1, htr1, hinv1, _, _, _, hpw1, hfr1, hinvk1, _⟩ :=
    process_prioritized_spec cb impl wtA wtF hact fuel w0 t hw0t (hw0n.symm ▸ hinv) hfuel
  rw [hw0n] at hn1 hinv1
  obtain ⟨w2, t2, new2, hrun2, _, _, htr2, _, _, hpw2, hfr2, hinvk2, _⟩ :=
    process_last_spec cb impl wtA wtF _ hfin fuel w1 t1 htr1 (hn1.symm ▸ hinv1)
      (hfr1.part.key.trans (by simpa [hw0, World.record] using hkey)) (by omega)
  refine ⟨w2, t2, new1 ++ new2, ?_, ?_, htr2, ?_, ?_⟩
  · simp only [transaction_impl.process_transactional]
    rw [← hw0, hrun1]
    exact hrun2
  · simpa using (hfr0.frame_trans hfr1).frame_trans hfr2
  · intro x hx hxi
    rcases List.mem_append.1 hx with hx | hx
    · exact Or.inl (hinvk1 x hx hxi)
    · exact Or.inr (hinvk2 x hx hxi)
  · rw [List.map_append, postCalls_append, List.map_append, List.sum_append]
    omega

theorem dtor_nested (cb : Callbacks) (fuel : Nat) (this : transaction_) (w : World)
    (h : w.part.depth ≠ 1) :
    transaction_.dtor cb fuel this w
      = Outcome.done { w with part := { w.part with depth := w.part.depth - 1 } } := by
  simp [transaction_.dtor, h]

theorem dtor_outermost_eq (cb : Callbacks) (fuel impl : Nat) (w w1 : World)
    (hdepth : w.part.depth = 1)
    (hrun : transaction_impl.process_transactional cb fuel impl w = Outcome.done w1) :
    transaction_.dtor cb fuel ⟨impl⟩ w
      = (partition.process_post cb fuel (postWorld impl w1)).noexcept := by
  simp only [transaction_.dtor, hdepth, if_true, simple_policy.dispatch,
    transaction_.dtor_transactional, transaction_.dtor_post, hrun]
  rfl

theorem trans_set_none (heap : List (Option transaction_impl)) (impl : Nat) :
    ((heap.set impl none).get? impl).join = none := by
  by_cases h : impl < heap.length
  · simp [List.getElem?_set, h]
  · have : (heap.set impl none)[impl]? = none :=
      List.getElem?_eq_none (by simpa using Nat.le_of_not_lt h)
    simp [this]

theorem dtor_outermost_spec (cb : Callbacks) (impl : Nat) (wtA wtF : Nat → Nat)
    (ok : Call → Prop)
    (hact : cb.ActionsSchedule impl wtA wtF) (hfin : cb.FinalsSchedule impl wtA wtF ok)
    (hdef : cb.DeferredSchedule wtF)
    (fuel : Nat) (w : World) (t : transaction_impl)
    (ht : w.trans impl = some t) (hinv : QInv w.nodes t) (hkey : w.part.key = some impl)
    (hdepth : w.part.depth = 1) (hmx : 1 ≤ w.part.mx) (hpp : w.part.processing_post = false)
    (hfuel : pendingWeight wtA wtF t + (w.part.postQ.map wtF).sum < fuel) :
    ∃ (w' : World) (new1 new2 : List (Event × State)),
      transaction_.dtor cb fuel ⟨impl⟩ w = Outcome.done w' ∧
      w'.log = w.log ++ (Event.process_transactional impl, w.toState) :: new1 ++ new2 ∧
      (∀ x ∈ new1, SamePart x.2.part w.part) ∧
      (∀ x ∈ new1, x.1.isInvoke = true →
        (∃ id tg f, x.1 = Event.run impl id tg f) ∨ ∃ f, x.1 = Event.run_last impl f) ∧
      (∀ x ∈ new2, x.1.isInvoke = true → ∃ f, x.1 = Event.run_post f) ∧
      (∀ x ∈ new2, ∀ f, x.1 = Event.run_post f →
        x.2.part.key = none ∧ x.2.part.mx + 1 = w.part.mx ∧ x.2.part.depth = 0 ∧
        x.2.heap.length = w.heap.length ∧ x.2.trans impl = none) ∧
      postRuns (new2.map Prod.fst)
        = w.part.postQ ++ postCalls (new1.map Prod.fst) ++ postCalls (new2.map Prod.fst) ∧
      w'.part.depth = 0 ∧ w'.part.key = none ∧ w'.part.mx + 1 = w.part.mx ∧
      w'.part.processing_post = false ∧ w'.part.postQ = [] ∧
      w'.heap.length = w.heap.length ∧ w'.trans impl = none ∧ w'.nodes = w.nodes := by
  obtain ⟨w1, t1, new1, hrun1, hfr1, htr1, hinvk1, hcost1⟩ :=
    process_transactional_frame cb impl wtA wtF ok hact hfin fuel w t ht hinv hkey (by omega)
  have hq4 : (postWorld impl w1).part.postQ
      = w.part.postQ ++ postCalls (new1.map Prod.fst) := by
    have := hfr1.posts
    rw [List.map_cons, ← List.singleton_append, postCalls_append] at this
    simpa [postWorld, postCalls] using this
  obtain ⟨w5, new2, hrun2, hlog2, hn2, hh2, hp2, hq2, hfifo2, hinvk2, hsnap2⟩ :=
    process_post_spec cb wtF hdef fuel (postWorld impl w1) rfl
      (hfr1.part.processing_post.trans hpp)
      (by
        rw [hq4, List.map_append, List.sum_append]
        omega)
  have hmx1 := hfr1.part.mx
  have hd1 := hfr1.part.depth
  refine ⟨w5, new1, new2, ?_, ?_, ?_, hinvk1, hinvk2, ?_, ?_, ?_, ?_, ?_, ?_, hq2, ?_, ?_, ?_⟩
  · rw [dtor_outermost_eq cb fuel impl w w1 hdepth hrun1, hrun2]
    rfl
  · rw [hlog2]
    simp only [postWorld]
    rw [hfr1.log]
  · intro x hx
    exact (hfr1.snaps x (List.mem_cons_of_mem _ hx)).1
  · intro x hx f hev
    obtain ⟨h1, h2, h3, h4⟩ := hsnap2 x hx f hev
    refine ⟨h2, ?_, ?_, ?_, ?_⟩
    · rw [h1]
      simp only [postWorld, hmx1]
      omega
    · rw [h3]
      simp only [postWorld, hd1, hdepth]
      rfl
    · rw [h4]
      simp [postWorld, hfr1.heap]
    · simp only [State.trans, h4, postWorld]
      exact trans_set_none _ _
  · rw [hfifo2, hq4]
  · rw [hp2.depth]
    simp only [postWorld, hd1, hdepth]
    rfl
  · rw [hp2.key]
    rfl
  · rw [hp2.mx]
    simp only [postWorld, hmx1]
    omega
  · rw [hp2.processing_post]
    exact hfr1.part.processing_post.trans hpp
  · rw [hh2]
    simp [postWorld, hfr1.heap]
  · simp only [World.trans, hh2, postWorld]
    exact trans_set_none _ _
  · rw [hn2]
    exact hfr1.nodes

theorem levelAfter_append :
    ∀ (pre rest : List ScopeOp) (k k' : Nat), levelAfter k (pre ++ rest) = some k' →
      ∃ k1, levelAfter k pre = some k1 ∧ levelAfter k1 rest = some k'
  | [], rest, k, k', h => ⟨k, rfl, h⟩
  | ScopeOp.open_ :: pre, rest, k, k', h => levelAfter_append pre rest (k + 1) k' h
  | ScopeOp.close_ :: pre, rest, k, k', h => by
    simp only [List.cons_append, levelAfter] at h ⊢
    split at h
    · next hk =>
      simp only [hk, if_true]
      exact levelAfter_append pre rest (k - 1) k' h
    · simp at h
  | ScopeOp.call c :: pre, rest, k, k', h => levelAfter_append pre rest k k' h

theorem levelAfter_pos :
    ∀ (ops : List ScopeOp) (k k' : Nat), levelAfter k ops = some k' → 1 ≤ k → 1 ≤ k'
  | [], k, k', h, hk => by
    simp only [levelAfter, Option.some.injEq] at h
    omega
  | ScopeOp.open_ :: ops, k, k', h, _ => levelAfter_pos ops (k + 1) k' h (by omega)
  | ScopeOp.close_ :: ops, k, k', h, _ => by
    simp only [levelAfter] at h
    split at h
    · exact levelAfter_pos ops (k - 1) k' h (by omega)
    · simp at h
  | ScopeOp.call c :: ops, k, k', h, hk => levelAfter_pos ops k k' h hk

theorem runOps_append (cb : Callbacks) (fuel : Nat) :
    ∀ (ops1 ops2 : List ScopeOp) (st : List transaction_) (w : World) (st' : List transaction_)
      (w' : World), runOps cb fuel ops1 st w = (Outcome.done w', st') →
      runOps cb fuel (ops1 ++ ops2) st w = runOps cb fuel ops2 st' w'
  | [], ops2, st, w, st', w', h => by
    simp only [runOps, Prod.mk.injEq, Outcome.done.injEq] at h
    rw [List.nil_append, h.1, h.2]
  | ScopeOp.open_ :: ops1, ops2, st, w, st', w', h => by
    simp only [List.cons_append, runOps] at h ⊢
    exact runOps_append cb fuel ops1 ops2 _ _ st' w' h
  | ScopeOp.close_ :: ops1, ops2, st, w, st', w', h => by
    simp only [List.cons_append, runOps] at h ⊢
    cases st with
    | nil => simp at h
    | cons tr st0 =>
      simp only at h ⊢
      cases hd : transaction_.dtor cb fuel tr w with
      | done w1 =>
        simp only [hd] at h ⊢
        exact runOps_append cb fuel ops1 ops2 _ _ st' w' h
      | thrown w1 => simp [hd] at h
      | crashed w1 => simp [hd] at h
      | out_of_fuel => simp [hd] at h
  | ScopeOp.call c :: ops1, ops2, st, w, st', w', h => by
    simp only [List.cons_append, runOps] at h ⊢
    cases st with
    | nil => simp at h
    | cons tr st0 =>
      simp only at h ⊢
      exact runOps_append cb fuel ops1 ops2 _ _ st' w' h

theorem runOps_inner (cb : Callbacks) (fuel impl : Nat) :
    ∀ (ops : List ScopeOp) (k k' : Nat) (w : World) (t : transaction_impl),
      levelAfter k ops = some k' → 1 ≤ k → w.part.depth = k → w.part.key = some impl →
      w.trans impl = some t →
      ∃ (w' : World) (new : List (Event × State)),
        runOps cb fuel ops (List.replicate k ⟨impl⟩) w
          = (Outcome.done w', List.replicate k' ⟨impl⟩) ∧
        w'.part.depth = k' ∧
        Inner impl w w' t ((callsOf ops).foldl (Call.apply w.nodes) t) new ∧
        postCalls (new.map Prod.fst) = postsOf (callsOf ops)
  | [], k, k', w, t, hl, _, hd, _, ht => by
    simp only [levelAfter, Option.some.injEq] at hl
    subst hl
    exact ⟨w, [], rfl, hd, ⟨by simp, by simp, rfl, rfl, ht, rfl, rfl, rfl, by simp [postCalls]⟩,
      by simp [postCalls, callsOf, postsOf]⟩
  | ScopeOp.open_ :: ops, k, k', w, t, hl, hk, hd, hkey, ht => by
    have hc : transaction_.ctor w
        = ({ w with part := { w.part with depth := w.part.depth + 1 } }, ⟨impl⟩) := by
      simp [transaction_.ctor, simple_policy.current_transaction, hkey]
    obtain ⟨w', new, hrun, hd', hin, hpc⟩ := runOps_inner cb fuel impl ops (k + 1) k'
      { w with part := { w.part with depth := w.part.depth + 1 } } t hl (by omega)
      (by simp [hd]) hkey ht
    refine ⟨w', new, ?_, hd', ⟨hin.log, hin.quiet, hin.nodes, hin.heap, hin.trans, hin.key,
      hin.mx, hin.processing_post, hin.posts⟩, hpc⟩
    simp only [runOps, hc]
    exact hrun
  | ScopeOp.close_ :: ops, k, k', w, t, hl, hk, hd, hkey, ht => by
    simp only [levelAfter] at hl
    split at hl
    · next hk1 =>
      obtain ⟨k0, rfl⟩ : ∃ k0, k = k0 + 1 := ⟨k - 1, by omega⟩
      have hne : w.part.depth ≠ 1 := by
        rw [hd]
        intro e
        have : ((k0 : Int) + 1) = 1 := by exact_mod_cast e
        omega
      obtain ⟨w', new, hrun, hd', hin, hpc⟩ := runOps_inner cb fuel impl ops k0 k'
        { w with part := { w.part with depth := w.part.depth - 1 } } t
        (by simpa using hl) (by omega) (by simp [hd]) hkey ht
      refine ⟨w', new, ?_, hd', ⟨hin.log, hin.quiet, hin.nodes, hin.heap, hin.trans, hin.key,
        hin.mx, hin.processing_post, hin.posts⟩, hpc⟩
      simp only [runOps, List.replicate_succ, dtor_nested cb fuel _ w hne]
      exact hrun
    · simp at hl
  | ScopeOp.call c :: ops, k, k', w, t, hl, hk, hd, hkey, ht => by
    obtain ⟨k0, rfl⟩ : ∃ k0, k = k0 + 1 := ⟨k - 1, by omega⟩
    obtain ⟨h1, h2, h3⟩ := Call.exec_spec ht c
    obtain ⟨n1, hfr, hq, hpc1, _⟩ := Call.exec_frame impl c w
    have hn1 : n1 = [(c.event impl t, w.toState)] := List.append_cancel_left (hfr.log.symm.trans h3)
    obtain ⟨w', new, hrun, hd', hin, hpc⟩ := runOps_inner cb fuel impl ops (k0 + 1) k'
      (c.exec impl w) (c.apply w.nodes t) hl hk (hfr.part.depth.trans hd)
      (hfr.part.key.trans hkey) h1
    refine ⟨w', n1 ++ new, ?_, hd', ⟨?_, ?_, hin.nodes.trans h2, hin.heap.trans hfr.heap, ?_,
      hin.key.trans hfr.part.key, hin.mx.trans hfr.part.mx,
      hin.processing_post.trans hfr.part.processing_post, ?_⟩, ?_⟩
    · simp only [runOps, List.replicate_succ]
      exact hrun
    · rw [hin.log, hfr.log, List.append_assoc]
    · intro x hx
      rcases List.mem_append.1 hx with hx | hx
      · exact hq x hx
      · exact hin.quiet x hx
    · have := hin.trans
      rw [h2] at this
      simpa [callsOf] using this
    · rw [hin.posts, hfr.posts, List.map_append, postCalls_append, List.append_assoc]
    · rw [List.map_append, postCalls_append, hpc1, hpc]
      simp only [callsOf, postsOf, List.filterMap_cons]
      cases c <;> simp

theorem ctor_fresh (w : World) (hkey : w.part.key = none) :
    (transaction_.ctor w).2 = ⟨w.heap.length⟩ ∧
    (transaction_.ctor w).1.trans w.heap.length = some transaction_impl.new ∧
    (transaction_.ctor w).1.heap.length = w.heap.length + 1 ∧
    (transaction_.ctor w).1.part.mx = w.part.mx + 1 ∧
    (transaction_.ctor w).1.part.key = some w.heap.length ∧
    (transaction_.ctor w).1.part.depth = w.part.depth + 1 ∧
    (transaction_.ctor w).1.part.processing_post = w.part.processing_post ∧
    (transaction_.ctor w).1.part.postQ = w.part.postQ ∧
    (transaction_.ctor w).1.nodes = w.nodes ∧
    (transaction_.ctor w).1.log = w.log := by
  simp [transaction_.ctor, simple_policy.current_transaction, hkey, simple_policy.initiate,
    World.lock, World.trans]

theorem ctor_nested (w : World) (impl : Nat) (hkey : w.part.key = some impl) :
    transaction_.ctor w
      = ({ w with part := { w.part with depth := w.part.depth + 1 } }, ⟨impl⟩) := by
  simp [transaction_.ctor, simple_policy.current_transaction, hkey]

theorem pendingWeight_new (wtA wtF : Nat → Nat) :
    pendingWeight wtA wtF transaction_impl.new = 0 := by
  simp [pendingWeight, transaction_impl.new]

theorem isInvoke_of_isDrain {e : Event} (h : e.isDrain = true) : e.isInvoke = true := by
  cases e <;> simp_all [Event.isDrain, Event.isInvoke]

theorem filter_isDrain_nil :
    ∀ (l : List (Event × State)), (∀ x ∈ l, x.1.isDrain = false) →
      (l.map Prod.fst).filter Event.isDrain = []
  | [], _ => rfl
  | x :: l, h => by
    simp only [List.map_cons, List.filter_cons, h x (List.mem_cons_self _ _)]
    simpa using filter_isDrain_nil l (fun y hy => h y (List.mem_cons_of_mem _ hy))

theorem scope_prefix_spec (cb : Callbacks) (fuel : Nat) (w : World) (pre : List ScopeOp)
    (k : Nat) (hkey : w.part.key = none) (hdepth : w.part.depth = 0)
    (hpre : levelAfter 1 pre = some k) :
    ∃ (w1 : World) (new : List (Event × State)),
      runOps cb fuel (ScopeOp.open_ :: pre) [] w
        = (Outcome.done w1, List.replicate k ⟨w.heap.length⟩) ∧
      1 ≤ k ∧ w1.part.depth = k ∧
      Inner w.heap.length (transaction_.ctor w).1 w1 transaction_impl.new
        ((callsOf pre).foldl (Call.apply w.nodes) transaction_impl.new) new ∧
      postCalls (new.map Prod.fst) = postsOf (callsOf pre) := by
  obtain ⟨h1, h2, h3, h4, h5, h6, h7, h8, h9, h10⟩ := ctor_fresh w hkey
  obtain ⟨w1, new, hrun, hd, hin, hpc⟩ := runOps_inner cb fuel w.heap.length pre 1 k
    (transaction_.ctor w).1 transaction_impl.new hpre (le_refl _)
    (by rw [h6, hdepth]; rfl) h5 h2
  rw [h9] at hin
  refine ⟨w1, new, ?_, levelAfter_pos pre 1 k hpre (le_refl _), hd, hin, hpc⟩
  simp only [runOps, h1]
  exact hrun

theorem outer_scope_spec (cb : Callbacks) (wtA wtF : Nat → Nat) (ok : Call → Prop)
    (fuel : Nat) (w : World) (body : List ScopeOp)
    (hidle : Idle w) (hbody : levelAfter 1 body = some 1)
    (hact : cb.ActionsSchedule w.heap.length wtA wtF)
    (hfin : cb.FinalsSchedule w.heap.length wtA wtF ok)
    (hdef : cb.DeferredSchedule wtF)
    (hfuel : ((callsOf body).map (Call.weight wtA wtF)).sum + (w.part.postQ.map wtF).sum
      < fuel) :
    ∃ (w2 w3 : World) (new0 new1 new2 : List (Event × State)),
      runOps cb fuel (ScopeOp.open_ :: body) [] w = (Outcome.done w2, [⟨w.heap.length⟩]) ∧
      runOps cb fuel (ScopeOp.open_ :: body ++ [ScopeOp.close_]) [] w = (Outcome.done w3, []) ∧
      w2.log = w.log ++ new0 ∧ (∀ x ∈ new0, x.1.isInvoke = false) ∧
      w2.part.depth = 1 ∧ w2.part.key = some w.heap.length ∧ w2.part.mx = w.part.mx + 1 ∧
      w2.heap.length = w.heap.length + 1 ∧
      w2.part.postQ = w.part.postQ ++ postCalls (new0.map Prod.fst) ∧
      w3.log = w2.log
        ++ (Event.process_transactional w.heap.length, w2.toState) :: new1 ++ new2 ∧
      (∀ x ∈ new1, SamePart x.2.part w2.part) ∧
      (∀ x ∈ new1, x.1.isInvoke = true →
        (∃ id tg f, x.1 = Event.run w.heap.length id tg f) ∨
          ∃ f, x.1 = Event.run_last w.heap.length f) ∧
      (∀ x ∈ new2, x.1.isInvoke = true → ∃ f, x.1 = Event.run_post f) ∧
      (∀ x ∈ new2, ∀ f, x.1 = Event.run_post f →
        x.2.part.key = none ∧ x.2.part.mx = w.part.mx ∧ x.2.part.depth = 0 ∧
        x.2.heap.length = w.heap.length + 1 ∧ x.2.trans w.heap.length = none) ∧
      postRuns (new2.map Prod.fst)
        = w2.part.postQ ++ postCalls (new1.map Prod.fst) ++ postCalls (new2.map Prod.fst) ∧
      w3.part.depth = 0 ∧ w3.part.key = none ∧ w3.part.mx = w.part.mx ∧
      w3.part.processing_post = false ∧ w3.part.postQ = [] ∧
      w3.heap.length = w.heap.length + 1 ∧ w3.trans w.heap.length = none ∧
      w3.nodes = w.nodes := by
  obtain ⟨_, _, h3, h4, h5, _, h7, h8, h9, h10⟩ := ctor_fresh w hidle.key
  obtain ⟨w2, new0, hrun2, _, hd2, hin, hpc⟩ :=
    scope_prefix_spec cb fuel w body 1 hidle.key hidle.depth hbody
  have hinv2 : QInv w2.nodes ((callsOf body).foldl (Call.apply w.nodes) transaction_impl.new) := by
    rw [hin.nodes, h9]
    exact QInv.applyAll _ (QInv.new _)
  have hpw := pendingWeight_applyAll wtA wtF (callsOf body) (QInv.new w.nodes)
  rw [pendingWeight_new] at hpw
  have hq2 : w2.part.postQ = w.part.postQ ++ postsOf (callsOf body) := by
    rw [hin.posts, hpc, h8]
  obtain ⟨w3, new1, new2, hrun3, hlog3, hs1, hi1, hi2, hs2, hfifo, g1, g2, g3, g4, g5, g6, g7,
      g8⟩ :=
    dtor_outermost_spec cb w.heap.length wtA wtF ok hact hfin hdef fuel w2 _ hin.trans hinv2
      (hin.key.trans h5) (by rw [hd2]; rfl) (by rw [hin.mx, h4]; omega)
      (hin.processing_post.trans (h7.trans hidle.processing_post))
      (by
        rw [hq2, List.map_append, List.sum_append]
        omega)
  have hmx2 : w2.part.mx = w.part.mx + 1 := hin.mx.trans h4
  refine ⟨w2, w3, new0, new1, new2, by simpa using hrun2, ?_, by rw [hin.log, h10], hin.quiet,
    by rw [hd2]; rfl, hin.key.trans h5, hmx2, hin.heap.trans h3, by rw [hin.posts, h8], hlog3,
    hs1, hi1, hi2, ?_, hfifo, g1, g2, by omega, g4, g5, by rw [g6, hin.heap, h3],
    g7, by rw [g8, hin.nodes, h9]⟩
  · have := runOps_append cb fuel (ScopeOp.open_ :: body) [ScopeOp.close_] [] w _ _
      (by simpa using hrun2)
    rw [this]
    simp [runOps, hrun3]
  · intro x hx f hev
    obtain ⟨a1, a2, a3, a4, a5⟩ := hs2 x hx f hev
    exact ⟨a1, by omega, a3, by rw [a4, hin.heap, h3], a5⟩

theorem scripted_deferred (aCalls fCalls : Nat → List Call) (wtF : Nat → Nat)
    (h : ∀ f, ((postsOf (fCalls f)).map wtF).sum < wtF f) :
    (scripted aCalls fCalls).DeferredSchedule wtF :=
  fun f w hk => ⟨postsOf (fCalls f), by simp [scripted, hk], h f⟩

/-- C6: from an idle thread, for every well-nested sequence of scope operations inside one
outermost scope: after every prefix exactly one transaction has been created, every open
scope holds that same transaction, the depth is the number of open scopes and nothing has
been invoked or drained; a close at depth other than 1 only decrements the depth; and the
whole sequence returns with exactly one `process_transactional` recorded, which therefore
happened in the close of the outermost scope. -/
theorem nested_scopes_single_drain (cb : Callbacks) (wtA wtF : Nat → Nat) (fuel : Nat)
    (w : World) (body : List ScopeOp)
    (hidle : Idle w) (hbody : levelAfter 1 body = some 1)
    (hact : cb.ActionsSchedule w.heap.length wtA wtF)
    (hfin : cb.FinalsSchedule w.heap.length wtA wtF (fun _ => True))
    (hdef : cb.DeferredSchedule wtF)
    (hfuel : ((callsOf body).map (Call.weight wtA wtF)).sum + (w.part.postQ.map wtF).sum
      < fuel) :
    (∀ pre rest, body = pre ++ rest →
      ∃ (w1 : World) (k : Nat) (new : List (Event × State)),
        runOps cb fuel (ScopeOp.open_ :: pre) [] w
          = (Outcome.done w1, List.replicate k ⟨w.heap.length⟩) ∧
        1 ≤ k ∧ w1.part.depth = k ∧ w1.heap.length = w.heap.length + 1 ∧
        w1.log = w.log ++ new ∧ ∀ x ∈ new, x.1.isInvoke = false) ∧
    (∀ (tr : transaction_) (w1 : World), w1.part.depth ≠ 1 →
      transaction_.dtor cb fuel tr w1
        = Outcome.done { w1 with part := { w1.part with depth := w1.part.depth - 1 } }) ∧
    (∃ (w3 : World) (new : List (Event × State)),
      runOps cb fuel (ScopeOp.open_ :: body ++ [ScopeOp.close_]) [] w = (Outcome.done w3, []) ∧
      w3.heap.length = w.heap.length + 1 ∧ w3.log = w.log ++ new ∧
      (new.map Prod.fst).filter Event.isDrain = [Event.process_transactional w.heap.length]) := by
  refine ⟨?_, fun tr w1 h => dtor_nested cb fuel tr w1 h, ?_⟩
  · intro pre rest hsplit
    obtain ⟨k, hk, _⟩ := levelAfter_append pre rest 1 1 (hsplit ▸ hbody)
    obtain ⟨w1, new, hrun, hk1, hd, hin, _⟩ :=
      scope_prefix_spec cb fuel w pre k hidle.key hidle.depth hk
    obtain ⟨_, _, h3, _, _, _, _, _, _, h10⟩ := ctor_fresh w hidle.key
    exact ⟨w1, k, new, hrun, hk1, hd, hin.heap.trans h3, by rw [hin.log, h10], hin.quiet⟩
  · obtain ⟨w2, w3, new0, new1, new2, _, hrun, hlog2, hq0, _, _, _, _, _, hlog3, _, hi1, hi2, _,
        _, _, _, _, _, _, hheap, _, _⟩ :=
      outer_scope_spec cb wtA wtF _ fuel w body hidle hbody hact hfin hdef hfuel
    refine ⟨w3, new0 ++ (Event.process_transactional w.heap.length, w2.toState) :: new1 ++ new2,
      hrun, hheap, by rw [hlog3, hlog2]; simp only [List.append_assoc], ?_⟩
    have h0 := filter_isDrain_nil new0 (fun x hx => by
      cases h : x.1.isDrain with
      | false => rfl
      | true => exact absurd (isInvoke_of_isDrain h) (by simp [hq0 x hx]))
    have h1 := filter_isDrain_nil new1 (fun x hx => by
      cases h : x.1.isDrain with
      | false => rfl
      | true =>
        rcases hi1 x hx (isInvoke_of_isDrain h) with ⟨_, _, _, e⟩ | ⟨_, e⟩ <;>
          simp [e, Event.isDrain] at h)
    have h2 := filter_isDrain_nil new2 (fun x hx => by
      cases h : x.1.isDrain with
      | false => rfl
      | true =>
        obtain ⟨_, e⟩ := hi2 x hx (isInvoke_of_isDrain h)
        simp [e, Event.isDrain] at h)
    simp only [List.map_append, List.map_cons, List.filter_append, List.filter_cons, h0, h1, h2,
      Event.isDrain]
    simp

theorem nested_scopes_single_drain_witness :
    ((∀ pre rest, nestedBody = pre ++ rest →
      ∃ (w1 : World) (k : Nat) (new : List (Event × State)),
        runOps idleCallbacks 3 (ScopeOp.open_ :: pre) [] idleWorld
          = (Outcome.done w1, List.replicate k ⟨idleWorld.heap.length⟩) ∧
        1 ≤ k ∧ w1.part.depth = k ∧ w1.heap.length = idleWorld.heap.length + 1 ∧
        w1.log = idleWorld.log ++ new ∧ ∀ x ∈ new, x.1.isInvoke = false) ∧
    (∀ (tr : transaction_) (w1 : World), w1.part.depth ≠ 1 →
      transaction_.dtor idleCallbacks 3 tr w1
        = Outcome.done { w1 with part := { w1.part with depth := w1.part.depth - 1 } }) ∧
    (∃ (w3 : World) (new : List (Event × State)),
      runOps idleCallbacks 3 (ScopeOp.open_ :: nestedBody ++ [ScopeOp.close_]) [] idleWorld
        = (Outcome.done w3, []) ∧
      w3.heap.length = idleWorld.heap.length + 1 ∧ w3.log = idleWorld.log ++ new ∧
      (new.map Prod.fst).filter Event.isDrain
        = [Event.process_transactional idleWorld.heap.length])) ∧
    (∃ w1, runOps idleCallbacks 3 (ScopeOp.open_ :: nestedBody) [] idleWorld
        = (Outcome.done w1, [⟨0⟩]) ∧
      w1.events = [Event.prioritized 0 0 none 5] ∧ w1.part.depth = 1) ∧
    (∃ w3, runOps idleCallbacks 3 (ScopeOp.open_ :: nestedBody ++ [ScopeOp.close_]) [] idleWorld
        = (Outcome.done w3, []) ∧
      w3.events = [Event.prioritized 0 0 none 5, Event.process_transactional 0,
        Event.run 0 0 none 5]) :=
  ⟨nested_scopes_single_drain idleCallbacks (fun _ => 1) (fun _ => 1) 3 idleWorld nestedBody
      ⟨rfl, rfl, rfl⟩ rfl
      (scripted_actions _ _ _ _ _ (fun _ => by simp))
      (scripted_finals _ _ _ _ _ _ (fun _ => by simp))
      (scripted_deferred _ _ _ (fun _ => by simp [postsOf])) (by decide),
    ⟨_, rfl, by decide, by decide⟩, ⟨_, rfl, by decide⟩⟩

/-- C7: from an idle thread with hold count `m` (depth 0, empty slot), for every well-nested
sequence of scope operations inside one outermost scope: after every prefix the depth is the
number of open scopes, it is positive and the slot is non-empty; every state recorded at the
start of the drain and at the invocation of a prioritized action or final callback has depth
1 and a non-empty slot; and after the close of the outermost scope the depth is 0, the slot
is empty and the hold count is `m` again. -/
theorem scope_state_invariant (cb : Callbacks) (wtA wtF : Nat → Nat) (fuel : Nat)
    (w : World) (body : List ScopeOp)
    (hidle : Idle w) (hbody : levelAfter 1 body = some 1)
    (hact : cb.ActionsSchedule w.heap.length wtA wtF)
    (hfin : cb.FinalsSchedule w.heap.length wtA wtF (fun _ => True))
    (hdef : cb.DeferredSchedule wtF)
    (hfuel : ((callsOf body).map (Call.weight wtA wtF)).sum + (w.part.postQ.map wtF).sum
      < fuel) :
    (∀ pre rest, body = pre ++ rest →
      ∃ (w1 : World) (st : List transaction_),
        runOps cb fuel (ScopeOp.open_ :: pre) [] w = (Outcome.done w1, st) ∧
        w1.part.depth = st.length ∧ 0 < w1.part.depth ∧ w1.part.key ≠ none ∧
        w1.part.mx = w.part.mx + 1) ∧
    (∃ (w2 w3 : World) (tr : transaction_) (new : List (Event × State)),
      runOps cb fuel (ScopeOp.open_ :: body) [] w = (Outcome.done w2, [tr]) ∧
      runOps cb fuel (ScopeOp.open_ :: body ++ [ScopeOp.close_]) [] w = (Outcome.done w3, []) ∧
      w3.log = w2.log ++ new ∧
      (∀ x ∈ new, (∃ i, x.1 = Event.process_transactional i) ∨
          (∃ i id tg f, x.1 = Event.run i id tg f) ∨ (∃ i f, x.1 = Event.run_last i f) →
        x.2.part.depth = 1 ∧ x.2.part.key ≠ none) ∧
      (∀ x ∈ new, ∀ f, x.1 = Event.run_post f → x.2.part.depth = 0 ∧ x.2.part.key = none) ∧
      w3.part.depth = 0 ∧ w3.part.key = none ∧ w3.part.mx = w.part.mx) := by
  constructor
  · intro pre rest hsplit
    obtain ⟨k, hk, _⟩ := levelAfter_append pre rest 1 1 (hsplit ▸ hbody)
    obtain ⟨w1, new, hrun, hk1, hd, hin, _⟩ :=
      scope_prefix_spec cb fuel w pre k hidle.key hidle.depth hk
    obtain ⟨_, _, _, h4, h5, _, _, _, _, _⟩ := ctor_fresh w hidle.key
    refine ⟨w1, _, hrun, by simp [hd], by rw [hd]; exact_mod_cast hk1, ?_, hin.mx.trans h4⟩
    rw [hin.key, h5]
    simp
  · obtain ⟨w2, w3, new0, new1, new2, hrun2, hrun3, _, _, hd2, hk2, _, _, _, hlog3, hs1, hi1, hi2,
        hs2, _, g1, g2, g3, _, _, _, _, _⟩ :=
      outer_scope_spec cb wtA wtF _ fuel w body hidle hbody hact hfin hdef hfuel
    refine ⟨w2, w3, _, (Event.process_transactional w.heap.length, w2.toState) :: new1 ++ new2,
      hrun2, hrun3, by rw [hlog3]; simp only [List.append_assoc], ?_, ?_, g1, g2, g3⟩
    · intro x hx hev
      simp only [List.cons_append, List.mem_cons, List.mem_append] at hx
      rcases hx with hx | hx | hx
      · rw [hx]
        exact ⟨hd2, by simp [hk2]⟩
      · have := hs1 x hx
        exact ⟨this.depth.trans hd2, by rw [this.key, hk2]; simp⟩
      · have hinv : x.1.isInvoke = true := by
          rcases hev with ⟨_, e⟩ | ⟨_, _, _, _, e⟩ | ⟨_, _, e⟩ <;> simp [e, Event.isInvoke]
        obtain ⟨f, e⟩ := hi2 x hx hinv
        rcases hev with ⟨_, e'⟩ | ⟨_, _, _, _, e'⟩ | ⟨_, _, e'⟩ <;> simp [e] at e'
    · intro x hx f hev
      simp only [List.cons_append, List.mem_cons, List.mem_append] at hx
      rcases hx with hx | hx | hx
      · rw [hx] at hev
        cases hev
      · have hinv : x.1.isInvoke = true := by simp [hev, Event.isInvoke]
        rcases hi1 x hx hinv with ⟨_, _, _, e⟩ | ⟨_, e⟩ <;> simp [e] at hev
      · obtain ⟨a1, _, a3, _, _⟩ := hs2 x hx f hev
        exact ⟨a3, a1⟩

/-- C8: in the close of an outermost scope under the default policy, with callbacks that only
schedule, `process_transactional` invokes no deferred callback and leaves the callbacks
posted during the drain in the deferred queue; the destructor invokes them afterwards, in
order, each in a state where the slot is empty, the hold of the outermost scope has been
released and the finished transaction is gone, so that a scope opened there creates a new
transaction. -/
theorem deferred_isolation (cb : Callbacks) (impl : Nat) (wtA wtF : Nat → Nat) (fuel : Nat)
    (w : World) (t : transaction_impl)
    (hact : cb.ActionsSchedule impl wtA wtF)
    (hfin : cb.FinalsSchedule impl wtA wtF (fun _ => True))
    (hdef : cb.DeferredSchedule wtF)
    (ht : w.trans impl = some t) (hinv : QInv w.nodes t) (hkey : w.part.key = some impl)
    (hdepth : w.part.depth = 1) (hmx : 1 ≤ w.part.mx) (hpp : w.part.processing_post = false)
    (hfuel : pendingWeight wtA wtF t + (w.part.postQ.map wtF).sum < fuel) :
    (∃ (w1 : World) (new : List (Event × State)),
      transaction_impl.process_transactional cb fuel impl w = Outcome.done w1 ∧
      w1.log = w.log ++ new ∧ (∀ x ∈ new, ∀ f, x.1 ≠ Event.run_post f) ∧
      w1.part.postQ = w.part.postQ ++ postCalls (new.map Prod.fst)) ∧
    (∃ (w' : World) (new1 new2 : List (Event × State)),
      transaction_.dtor cb fuel ⟨impl⟩ w = Outcome.done w' ∧
      w'.log = w.log ++ (Event.process_transactional impl, w.toState) :: new1 ++ new2 ∧
      (∀ x ∈ new1, ∀ f, x.1 ≠ Event.run_post f) ∧
      postRuns (new2.map Prod.fst)
        = w.part.postQ ++ postCalls (new1.map Prod.fst) ++ postCalls (new2.map Prod.fst) ∧
      (∀ x ∈ new2, ∀ f, x.1 = Event.run_post f →
        x.2.part.key = none ∧ x.2.part.mx + 1 = w.part.mx ∧ x.2.trans impl = none ∧
        ∀ v : World, v.toState = x.2 →
          (transaction_.ctor v).2.impl_ ≠ impl ∧
          (transaction_.ctor v).1.trans (transaction_.ctor v).2.impl_
            = some transaction_impl.new)) := by
  constructor
  · obtain ⟨w1, _, new, hrun, hfr, _, hi, _⟩ :=
      process_transactional_frame cb impl wtA wtF _ hact hfin fuel w t ht hinv hkey (by omega)
    refine ⟨w1, _, hrun, hfr.log, ?_, hfr.posts⟩
    intro x hx f hev
    rcases List.mem_cons.1 hx with hx | hx
    · rw [hx] at hev
      cases hev
    · rcases hi x hx (by simp [hev, Event.isInvoke]) with ⟨_, _, _, e⟩ | ⟨_, e⟩ <;>
        simp [e] at hev
  · obtain ⟨w', new1, new2, hrun, hlog, _, hi1, _, hs2, hfifo, _⟩ :=
      dtor_outermost_spec cb impl wtA wtF _ hact hfin hdef fuel w t ht hinv hkey hdepth hmx hpp
        hfuel
    refine ⟨w', new1, new2, hrun, hlog, ?_, hfifo, ?_⟩
    · intro x hx f hev
      rcases hi1 x hx (by simp [hev, Event.isInvoke]) with ⟨_, _, _, e⟩ | ⟨_, e⟩ <;>
        simp [e] at hev
    · intro x hx f hev
      obtain ⟨a1, a2, _, a4, a5⟩ := hs2 x hx f hev
      refine ⟨a1, a2, a5, ?_⟩
      intro v hv
      have hvk : v.part.key = none := by rw [← a1, ← hv]
      have hvl : v.heap.length = w.heap.length := by rw [← a4, ← hv]
      obtain ⟨c1, c2, _⟩ := ctor_fresh v hvk
      rw [c1]
      refine ⟨?_, c2⟩
      simp only [hvl]
      exact Nat.ne_of_gt (trans_lt ht)

/-- C9: with no deferred pass running and no current transaction, `process_post`, run on
callbacks that only post, returns normally having invoked, in order and each once, the
callbacks that were queued followed by the callbacks posted during the pass; the deferred
queue is then empty, `processing_post` is false and the hold count is as at entry. -/
theorem process_post_fifo (cb : Callbacks) (wtF : Nat → Nat) (fuel : Nat) (w : World)
    (hdef : cb.DeferredSchedule wtF) (hkey : w.part.key = none)
    (hpp : w.part.processing_post = false) (hfuel : (w.part.postQ.map wtF).sum < fuel) :
    ∃ (w' : World) (new : List (Event × State)),
      partition.process_post cb fuel w = Outcome.done w' ∧ w'.log = w.log ++ new ∧
      postRuns (new.map Prod.fst) = w.part.postQ ++ postCalls (new.map Prod.fst) ∧
      w'.part.postQ = [] ∧ w'.part.processing_post = false ∧ w'.part.mx = w.part.mx := by
  obtain ⟨w', new, hrun, hlog, _, _, hp, hq, hfifo, _, _⟩ :=
    process_post_spec cb wtF hdef fuel w hkey hpp hfuel
  exact ⟨w', new, hrun, hlog, hfifo, hq, hp.processing_post.trans hpp, hp.mx⟩

theorem scope_state_invariant_witness :
    ((∀ pre rest, mixedBody = pre ++ rest →
      ∃ (w1 : World) (st : List transaction_),
        runOps postingCallbacks 8 (ScopeOp.open_ :: pre) [] idleWorld = (Outcome.done w1, st) ∧
        w1.part.depth = st.length ∧ 0 < w1.part.depth ∧ w1.part.key ≠ none ∧
        w1.part.mx = idleWorld.part.mx + 1) ∧
    (∃ (w2 w3 : World) (tr : transaction_) (new : List (Event × State)),
      runOps postingCallbacks 8 (ScopeOp.open_ :: mixedBody) [] idleWorld
        = (Outcome.done w2, [tr]) ∧
      runOps postingCallbacks 8 (ScopeOp.open_ :: mixedBody ++ [ScopeOp.close_]) [] idleWorld
        = (Outcome.done w3, []) ∧
      w3.log = w2.log ++ new ∧
      (∀ x ∈ new, (∃ i, x.1 = Event.process_transactional i) ∨
          (∃ i id tg f, x.1 = Event.run i id tg f) ∨ (∃ i f, x.1 = Event.run_last i f) →
        x.2.part.depth = 1 ∧ x.2.part.key ≠ none) ∧
      (∀ x ∈ new, ∀ f, x.1 = Event.run_post f → x.2.part.depth = 0 ∧ x.2.part.key = none) ∧
      w3.part.depth = 0 ∧ w3.part.key = none ∧ w3.part.mx = idleWorld.part.mx)) ∧
    (∃ w3, runOps postingCallbacks 8 (ScopeOp.open_ :: mixedBody ++ [ScopeOp.close_]) []
        idleWorld = (Outcome.done w3, []) ∧
      w3.log.map (fun x => (x.1, x.2.part.depth, x.2.part.key, x.2.part.mx))
        = [(Event.last 0 20, 1, some 0, 1), (Event.prioritized 0 0 none 0, 2, some 0, 1),
          (Event.post 30, 1, some 0, 1), (Event.process_transactional 0, 1, some 0, 1),
          (Event.run 0 0 none 0, 1, some 0, 1), (Event.post 30, 1, some 0, 1),
          (Event.run_last 0 20, 1, some 0, 1), (Event.run_post 30, 0, none, 0),
          (Event.post 31, 0, none, 0), (Event.run_post 30, 0, none, 0),
          (Event.post 31, 0, none, 0), (Event.run_post 31, 0, none, 0),
          (Event.run_post 31, 0, none, 0)]) :=
  ⟨scope_state_invariant postingCallbacks (fun f => if f = 0 then 3 else 1)
      (fun f => if f = 30 then 2 else 1) 8 idleWorld mixedBody ⟨rfl, rfl, rfl⟩ rfl
      (scripted_actions _ _ _ _ _ (fun f => by by_cases h : f = 0 <;> simp [h, Call.weight]))
      (scripted_finals _ _ _ _ _ _ (fun f => by by_cases h : f = 30 <;> simp [h, Call.weight]))
      (scripted_deferred _ _ _ (fun f => by by_cases h : f = 30 <;> simp [h, postsOf]))
      (by decide),
    ⟨_, rfl, by decide⟩⟩

theorem deferred_isolation_witness :
    ((∃ (w1 : World) (new : List (Event × State)),
      transaction_impl.process_transactional postingCallbacks 5 0
        (execCalls 0 [Call.prioritized (some 0) 0] chainWorld) = Outcome.done w1 ∧
      w1.log = (execCalls 0 [Call.prioritized (some 0) 0] chainWorld).log ++ new ∧
      (∀ x ∈ new, ∀ f, x.1 ≠ Event.run_post f) ∧
      w1.part.postQ = (execCalls 0 [Call.prioritized (some 0) 0] chainWorld).part.postQ
        ++ postCalls (new.map Prod.fst)) ∧
    (∃ (w' : World) (new1 new2 : List (Event × State)),
      transaction_.dtor postingCallbacks 5 ⟨0⟩
        (execCalls 0 [Call.prioritized (some 0) 0] chainWorld) = Outcome.done w' ∧
      w'.log = (execCalls 0 [Call.prioritized (some 0) 0] chainWorld).log
        ++ (Event.process_transactional 0,
            (execCalls 0 [Call.prioritized (some 0) 0] chainWorld).toState) :: new1 ++ new2 ∧
      (∀ x ∈ new1, ∀ f, x.1 ≠ Event.run_post f) ∧
      postRuns (new2.map Prod.fst)
        = (execCalls 0 [Call.prioritized (some 0) 0] chainWorld).part.postQ
          ++ postCalls (new1.map Prod.fst) ++ postCalls (new2.map Prod.fst) ∧
      (∀ x ∈ new2, ∀ f, x.1 = Event.run_post f →
        x.2.part.key = none ∧
        x.2.part.mx + 1 = (execCalls 0 [Call.prioritized (some 0) 0] chainWorld).part.mx ∧
        x.2.trans 0 = none ∧
        ∀ v : World, v.toState = x.2 →
          (transaction_.ctor v).2.impl_ ≠ 0 ∧
          (transaction_.ctor v).1.trans (transaction_.ctor v).2.impl_
            = some transaction_impl.new))) ∧
    (∃ w', transaction_.dtor postingCallbacks 5 ⟨0⟩
        (execCalls 0 [Call.prioritized (some 0) 0] chainWorld) = Outcome.done w' ∧
      w'.log.map (fun x => (x.1, x.2.part.key, x.2.part.mx))
        = [(Event.prioritized 0 0 (some 0) 0, some 0, 1),
          (Event.process_transactional 0, some 0, 1), (Event.run 0 0 (some 0) 0, some 0, 1),
          (Event.post 30, some 0, 1), (Event.run_post 30, none, 0), (Event.post 31, none, 0),
          (Event.run_post 31, none, 0)]) ∧
    (∃ w', transaction_.dtor reopeningCallbacks 5 ⟨0⟩
        (execCalls 0 [Call.prioritized (some 0) 0] chainWorld) = Outcome.done w' ∧
      w'.events = [Event.prioritized 0 0 (some 0) 0, Event.process_transactional 0,
        Event.run 0 0 (some 0) 0, Event.post 30, Event.run_post 30,
        Event.prioritized 1 0 none 7, Event.process_transactional 1, Event.run 1 0 none 7] ∧
      w'.heap = [none, none]) :=
  ⟨deferred_isolation postingCallbacks 0 (fun f => if f = 0 then 3 else 1)
      (fun f => if f = 30 then 2 else 1) 5 (execCalls 0 [Call.prioritized (some 0) 0] chainWorld)
      ([Call.prioritized (some 0) 0].foldl (Call.apply chainWorld.nodes) transaction_impl.new)
      (scripted_actions _ _ _ _ _ (fun f => by by_cases h : f = 0 <;> simp [h, Call.weight]))
      (scripted_finals _ _ _ _ _ _ (fun f => by by_cases h : f = 30 <;> simp [h, Call.weight]))
      (scripted_deferred _ _ _ (fun f => by by_cases h : f = 30 <;> simp [h, postsOf]))
      rfl (QInv.applyAll _ (QInv.new chainWorld.nodes)) rfl rfl (by decide) rfl (by decide),
    ⟨_, rfl, by decide⟩, ⟨_, rfl, by decide, by decide⟩⟩

theorem process_post_fifo_witness :
    (∃ (w' : World) (new : List (Event × State)),
      partition.process_post postingCallbacks 4 queuedWorld = Outcome.done w' ∧
      w'.log = queuedWorld.log ++ new ∧
      postRuns (new.map Prod.fst) = queuedWorld.part.postQ ++ postCalls (new.map Prod.fst) ∧
      w'.part.postQ = [] ∧ w'.part.processing_post = false ∧
      w'.part.mx = queuedWorld.part.mx) ∧
    (∃ w', partition.process_post postingCallbacks 4 queuedWorld = Outcome.done w' ∧
      w'.events = [Event.run_post 30, Event.post 31, Event.run_post 40, Event.run_post 31]) :=
  ⟨process_post_fifo postingCallbacks (fun f => if f = 30 then 2 else 1) 4 queuedWorld
      (scripted_deferred _ _ _ (fun f => by by_cases h : f = 30 <;> simp [h, postsOf]))
      rfl rfl (by decide),
    ⟨_, rfl, by decide⟩⟩

theorem unvisited_nil (g : Graph) : unvisited (g, []) = g.length := by
  simp [unvisited]

theorem unvisited_pos {s : Graph × List Nat} {p : Nat} (hl : p < s.1.length) (hv : p ∉ s.2) :
    0 < unvisited s := by
  unfold unvisited
  exact Finset.card_pos.2 ⟨p, by simp [hl, hv]⟩

theorem targets_setRank (g : Graph) (q r p : Nat) :
    (nodeAt (setRank g q r) p).targets = (nodeAt g p).targets := by
  rw [nodeAt_setRank]
  split
  · next hp => rw [hp.1]
  · rfl

theorem lt_length_of_target {g : Graph} {p : Nat} {it : target}
    (h : it ∈ (nodeAt g p).targets) : p < g.length := by
  by_contra hl
  rw [nodeAt_of_le g p (Nat.le_of_not_lt hl)] at h
  simp at h

theorem ensure_bigger_than_bound :
    ∀ (fuel this limit : Nat) (s s' : Graph × List Nat),
      node.ensure_bigger_than fuel this limit s = some s' →
      ∀ p, (nodeAt s'.1 p).rank ≤ max (nodeAt s.1 p).rank (limit + unvisited s)
  | 0, _, _, _, _, h => by simp [node.ensure_bigger_than] at h
  | fuel + 1, this, limit, s, s', h => by
    rw [node.ensure_bigger_than] at h
    split at h
    · simp at h; subst h; exact fun p => le_max_left _ _
    · next hc =>
      have hv : this ∉ s.2 := fun hm => hc (Or.inr hm)
      have hr : (limit + 1) % (ULLONG_MAX + 1) ≤ limit + 1 := Nat.mod_le _ _
      have key := foldlM_inv
        (fun st => Ext (setRank s.1 this ((limit + 1) % (ULLONG_MAX + 1)), this :: s.2) st ∧
          ∀ p, (nodeAt st.1 p).rank ≤ max (nodeAt s.1 p).rank (limit + unvisited s))
        _ _ _ s' ?_ ?_ h
      · exact key.2
      · intro st it st' hit hI hstep
        cases hn : it.n with
        | none => simp [hn] at hstep; exact hstep ▸ hI
        | some b =>
          simp only [hn] at hstep
          have he := ensure_bigger_than_ext fuel b _ st st' hstep
          refine ⟨hI.1.ext_trans he, fun p => ?_⟩
          have hb := ensure_bigger_than_bound fuel b _ st st' hstep p
          have hl : this < s.1.length := by
            have := lt_length_of_target hit
            simpa [setRank] using this
          have hfro := hI.1.frozen this (List.mem_cons_self _ _)
          simp only [nodeAt_setRank, hl, and_self, if_true] at hfro
          have hu1 := unvisited_mono hI.1
          have hu2 := unvisited_visit s.1 s.2 this ((limit + 1) % (ULLONG_MAX + 1)) hv hl
          have hss : unvisited (s.1, s.2) = unvisited s := Eq.refl _
          have hIp := hI.2 p
          rw [hfro] at hb
          simp only [le_max_iff] at hb hIp ⊢
          omega
      · refine ⟨Ext.ext_refl _, fun p => ?_⟩
        rw [nodeAt_setRank]
        split
        · next hp =>
          have := unvisited_pos hp.2 hv
          simp only [le_max_iff]
          right
          omega
        · exact le_max_left _ _

theorem ensure_bigger_than_mono :
    ∀ (fuel this limit : Nat) (s s' : Graph × List Nat),
      limit + unvisited s < ULLONG_MAX + 1 →
      node.ensure_bigger_than fuel this limit s = some s' →
      ∀ p, (nodeAt s.1 p).rank ≤ (nodeAt s'.1 p).rank
  | 0, _, _, _, _, _, h => by simp [node.ensure_bigger_than] at h
  | fuel + 1, this, limit, s, s', hlim, h => by
    rw [node.ensure_bigger_than] at h
    split at h
    · simp at h; subst h; exact fun p => le_refl _
    · next hc =>
      have hv : this ∉ s.2 := fun hm => hc (Or.inr hm)
      have hold : (nodeAt s.1 this).rank ≤ limit := Nat.le_of_not_lt (fun hgt => hc (Or.inl hgt))
      have hr : (limit + 1) % (ULLONG_MAX + 1) ≤ limit + 1 := Nat.mod_le _ _
      have key := foldlM_inv
        (fun st => Ext (setRank s.1 this ((limit + 1) % (ULLONG_MAX + 1)), this :: s.2) st ∧
          ∀ p, (nodeAt s.1 p).rank ≤ (nodeAt st.1 p).rank)
        _ _ _ s' ?_ ?_ h
      · exact key.2
      · intro st it st' hit hI hstep
        cases hn : it.n with
        | none => simp [hn] at hstep; exact hstep ▸ hI
        | some b =>
          simp only [hn] at hstep
          have he := ensure_bigger_than_ext fuel b _ st st' hstep
          refine ⟨hI.1.ext_trans he, fun p => ?_⟩
          have hl : this < s.1.length := by
            have := lt_length_of_target hit
            simpa [setRank] using this
          have hfro := hI.1.frozen this (List.mem_cons_self _ _)
          simp only [nodeAt_setRank, hl, and_self, if_true] at hfro
          have hu1 := unvisited_mono hI.1
          have hu2 := unvisited_visit s.1 s.2 this ((limit + 1) % (ULLONG_MAX + 1)) hv hl
          have hss : unvisited (s.1, s.2) = unvisited s := Eq.refl _
          have hb := ensure_bigger_than_mono fuel b _ st st' (by rw [hfro]; omega) hstep p
          exact le_trans (hI.2 p) hb
      · refine ⟨Ext.ext_refl _, fun p => ?_⟩
        rw [nodeAt_setRank]
        split
        · next hp =>
          have := unvisited_pos hp.2 hv
          rw [hp.1]
          simp only
          rw [Nat.mod_eq_of_lt (by omega)]
          omega
        · exact le_refl _

theorem ensure_bigger_than_nodup :
    ∀ (fuel this limit : Nat) (s s' : Graph × List Nat),
      node.ensure_bigger_than fuel this limit s = some s' → s.2.Nodup → s'.2.Nodup
  | 0, _, _, _, _, h, _ => by simp [node.ensure_bigger_than] at h
  | fuel + 1, this, limit, s, s', h, hnd => by
    rw [node.ensure_bigger_than] at h
    split at h
    · simp at h; subst h; exact hnd
    · next hc =>
      have hv : this ∉ s.2 := fun hm => hc (Or.inr hm)
      refine foldlM_inv (fun st => st.2.Nodup) _ _ _ s' ?_ (List.nodup_cons.2 ⟨hv, hnd⟩) h
      intro st it st' _ hI hstep
      cases hn : it.n with
      | none => simp [hn] at hstep; exact hstep ▸ hI
      | some b =>
        simp only [hn] at hstep
        exact ensure_bigger_than_nodup fuel b _ st st' hstep hI

theorem ensure_bigger_than_assigns (fuel this limit : Nat) (s s' : Graph × List Nat)
    (hl : this < s.1.length) (hv : this ∉ s.2) (hr : (nodeAt s.1 this).rank ≤ limit)
    (h : node.ensure_bigger_than fuel this limit s = some s') :
    (nodeAt s'.1 this).rank = (limit + 1) % (ULLONG_MAX + 1) := by
  cases fuel with
  | zero => simp [node.ensure_bigger_than] at h
  | succ fuel =>
    rw [node.ensure_bigger_than] at h
    split at h
    · next hc =>
      rcases hc with hc | hc
      · omega
      · exact absurd hc hv
    · have hE : Ext (setRank s.1 this ((limit + 1) % (ULLONG_MAX + 1)), this :: s.2) s' := by
        refine foldlM_inv
          (fun st => Ext (setRank s.1 this ((limit + 1) % (ULLONG_MAX + 1)), this :: s.2) st)
          _ _ _ s' ?_ (Ext.ext_refl _) h
        intro st it st' _ hI hstep
        cases hn : it.n with
        | none => simp [hn] at hstep; exact hstep ▸ hI
        | some b =>
          simp only [hn] at hstep
          exact hI.ext_trans (ensure_bigger_than_ext fuel b _ st st' hstep)
      have hfro := hE.frozen this (List.mem_cons_self _ _)
      simpa only [nodeAt_setRank, hl, and_self, if_true] using hfro

/-- C11: for every graph, cyclic or not, `link` returns as soon as the depth bound exceeds
the number of nodes; every rank after the call is at most the larger of its old value and the
source rank plus the number of nodes; and each rank is assigned at most once in the call: the
`visited` set, to which a node is added at the moment its rank is assigned, ends without
duplicates, only its members have a changed rank, and no call of `ensure_bigger_than` changes
the rank of a node that is already in `visited`. -/
theorem link_cycle_safe (g : Graph) (A h : Nat) (targ : Option Nat) (fuel : Nat)
    (hfuel : g.length < fuel) :
    (∃ g', node.link fuel g A h targ = some g' ∧
      ∀ p, (nodeAt g' p).rank ≤ max (nodeAt g p).rank ((nodeAt g A).rank + g.length)) ∧
    (∀ B, ∃ s', node.ensure_bigger_than fuel B (nodeAt g A).rank (g, []) = some s' ∧
      s'.2.Nodup ∧ ∀ p, p ∉ s'.2 → (nodeAt s'.1 p).rank = (nodeAt g p).rank) ∧
    (∀ (n this limit : Nat) (s s' : Graph × List Nat),
      node.ensure_bigger_than n this limit s = some s' →
      ∀ p ∈ s.2, (nodeAt s'.1 p).rank = (nodeAt s.1 p).rank) := by
  have hun : unvisited (g, []) < fuel := by rw [unvisited_nil]; exact hfuel
  refine ⟨?_, ?_, ?_⟩
  · cases targ with
    | none =>
      exact ⟨pushTarget g A h none, by simp [node.link],
        fun p => by rw [rank_pushTarget]; exact le_max_left _ _⟩
    | some B =>
      obtain ⟨s', hs'⟩ := ensure_bigger_than_total fuel B (nodeAt g A).rank (g, []) hun
      refine ⟨pushTarget s'.1 A h (some B), by simp [node.link, hs'], fun p => ?_⟩
      rw [rank_pushTarget]
      have := ensure_bigger_than_bound _ _ _ _ _ hs' p
      rwa [unvisited_nil] at this
  · intro B
    obtain ⟨s', hs'⟩ := ensure_bigger_than_total fuel B (nodeAt g A).rank (g, []) hun
    exact ⟨s', hs', ensure_bigger_than_nodup _ _ _ _ _ hs' List.nodup_nil,
      (ensure_bigger_than_ext _ _ _ _ _ hs').changed⟩
  · intro n this limit s s' hs'
    exact (ensure_bigger_than_ext _ _ _ _ _ hs').frozen

theorem link_cycle_safe_witness :
    (3 > cyclic.length) ∧
    (∃ g', node.link 3 cyclic 0 9 (some 1) = some g' ∧
      ∀ p, (nodeAt g' p).rank ≤ max (nodeAt cyclic p).rank ((nodeAt cyclic 0).rank + cyclic.length)) ∧
    node.link 3 cyclic 0 9 (some 1)
      = some [⟨2, [⟨1, some 1⟩, ⟨9, some 1⟩]⟩, ⟨1, [⟨2, some 0⟩, ⟨3, some 1⟩]⟩] ∧
    node.ensure_bigger_than 3 1 0 (cyclic, []) =
      some ([⟨2, [⟨1, some 1⟩]⟩, ⟨1, [⟨2, some 0⟩, ⟨3, some 1⟩]⟩], [0, 1]) :=
  ⟨by decide, (link_cycle_safe cyclic 0 9 (some 1) 3 (by decide)).1, by decide, by decide⟩

/-- C12: for every `link(A, h, B)` with `A.rank` plus the number of nodes below `2^64`, the
call returns and no rank after the call is smaller than before; when the target's rank
already exceeds `A.rank`, or the target is absent, no rank changes. -/
theorem link_ranks_monotone (g : Graph) (A h : Nat) (targ : Option Nat) (fuel : Nat)
    (hbound : (nodeAt g A).rank + g.length < 2 ^ 64) (hfuel : g.length < fuel) :
    ∃ g', node.link fuel g A h targ = some g' ∧
      (∀ p, (nodeAt g p).rank ≤ (nodeAt g' p).rank) ∧
      ((∀ B, targ = some B → (nodeAt g B).rank > (nodeAt g A).rank) →
        ∀ p, (nodeAt g' p).rank = (nodeAt g p).rank) := by
  cases targ with
  | none =>
    exact ⟨pushTarget g A h none, by simp [node.link],
      fun p => by rw [rank_pushTarget], fun _ p => rank_pushTarget _ _ _ _ p⟩
  | some B =>
    have hun : unvisited (g, []) < fuel := by rw [unvisited_nil]; exact hfuel
    obtain ⟨s', hs'⟩ := ensure_bigger_than_total fuel B (nodeAt g A).rank (g, []) hun
    refine ⟨pushTarget s'.1 A h (some B), by simp [node.link, hs'], fun p => ?_, fun hgt p => ?_⟩
    · rw [rank_pushTarget]
      refine ensure_bigger_than_mono _ _ _ _ _ ?_ hs' p
      rw [unvisited_nil]
      simpa [ULLONG_MAX] using hbound
    · rw [rank_pushTarget]
      have hB := hgt B (Eq.refl _)
      obtain ⟨n, rfl⟩ : ∃ n, fuel = n + 1 := ⟨fuel - 1, by omega⟩
      rw [node.ensure_bigger_than, if_pos (Or.inl hB)] at hs'
      simp only [Option.some.injEq] at hs'
      rw [← hs']

theorem link_ranks_monotone_witness :
    ((nodeAt diamond 0).rank + diamond.length < 2 ^ 64 ∧ diamond.length < 5) ∧
    (∃ g', node.link 5 diamond 0 99 (some 1) = some g' ∧
      (∀ p, (nodeAt diamond p).rank ≤ (nodeAt g' p).rank) ∧
      ((∀ B, some 1 = some B → (nodeAt diamond B).rank > (nodeAt diamond 0).rank) →
        ∀ p, (nodeAt g' p).rank = (nodeAt diamond p).rank)) ∧
    ranks diamond = [3, 0, 1, 2] ∧
    (node.link 5 diamond 0 99 (some 1)).map ranks = some [3, 4, 5, 5] ∧
    (node.link 5 diamond 1 99 (some 3)).map ranks = some [3, 0, 1, 2] :=
  ⟨⟨by decide, by decide⟩,
    link_ranks_monotone diamond 0 99 (some 1) 5 (by decide) (by decide),
    by decide, by decide, by decide⟩

/-- C20: `limit + 1` is computed modulo `2^64`: for a source `A` of rank `2^64 - 1` and a
present target `B` from which `A` is not reachable, `link(A, h, B)` returns with `B.rank = 0`,
so `B.rank < A.rank` after the call and the rank of `B` has decreased whenever it was not 0
before; the rank of `A` is unchanged. -/
theorem link_rank_wraps (g : Graph) (A B h fuel : Nat)
    (hA : (nodeAt g A).rank = 2 ^ 64 - 1) (hB : B < g.length)
    (hBr : (nodeAt g B).rank < 2 ^ 64) (hreach : ¬ Reachable g B A)
    (hfuel : g.length < fuel) :
    ∃ g', node.link fuel g A h (some B) = some g' ∧
      (nodeAt g' B).rank = 0 ∧ (nodeAt g' A).rank = 2 ^ 64 - 1 ∧
      (nodeAt g' B).rank < (nodeAt g' A).rank ∧
      ((nodeAt g B).rank ≠ 0 → (nodeAt g' B).rank < (nodeAt g B).rank) := by
  have hun : unvisited (g, []) < fuel := by rw [unvisited_nil]; exact hfuel
  obtain ⟨s', hs'⟩ := ensure_bigger_than_total fuel B (nodeAt g A).rank (g, []) hun
  have hE := ensure_bigger_than_ext _ _ _ _ _ hs'
  have hR := ensure_bigger_than_reach _ _ _ _ _ hs'
  have hAv : A ∉ s'.2 := by
    intro hm
    rcases hR A hm with h0 | h0
    · simp at h0
    · exact hreach h0
  have hrA : (nodeAt s'.1 A).rank = 2 ^ 64 - 1 := (hE.changed A hAv).trans hA
  have hrB : (nodeAt s'.1 B).rank = 0 := by
    have := ensure_bigger_than_assigns fuel B (nodeAt g A).rank (g, []) s' hB (by simp)
      (by rw [hA]; exact Nat.le_pred_of_lt hBr) hs'
    rw [this, hA]
    decide
  refine ⟨pushTarget s'.1 A h (some B), by simp [node.link, hs'], ?_, ?_, ?_, ?_⟩
  · rw [rank_pushTarget, hrB]
  · rw [rank_pushTarget, hrA]
  · rw [rank_pushTarget, rank_pushTarget, hrA, hrB]
    decide
  · intro hne
    rw [rank_pushTarget, hrB]
    omega

theorem link_rank_wraps_witness :
    ((nodeAt wrapGraph 0).rank = 2 ^ 64 - 1 ∧ ¬ Reachable wrapGraph 2 0) ∧
    (∃ g', node.link 4 wrapGraph 0 9 (some 2) = some g' ∧
      (nodeAt g' 2).rank = 0 ∧ (nodeAt g' 0).rank = 2 ^ 64 - 1 ∧
      (nodeAt g' 2).rank < (nodeAt g' 0).rank ∧
      ((nodeAt wrapGraph 2).rank ≠ 0 → (nodeAt g' 2).rank < (nodeAt wrapGraph 2).rank)) ∧
    (node.link 4 wrapGraph 0 9 (some 2)).map ranks = some [ULLONG_MAX, 1, 0] :=
  have hreach : ¬ Reachable wrapGraph 2 0 :=
    not_reachable_of_no_incoming (by decide) (by decide)
  ⟨⟨by decide, hreach⟩,
    link_rank_wraps wrapGraph 0 2 9 4 (by decide) (by decide) (by decide) hreach (by decide),
    by decide⟩

theorem process_prioritized_snaps (cb : Callbacks) (impl : Nat) (wtA wtF : Nat → Nat)
    (hact : cb.ActionsSchedule impl wtA wtF) :
    ∀ (fuel : Nat) (w : World) (t : transaction_impl),
      w.trans impl = some t → QInv w.nodes t → pendingWeight wtA wtF t < fuel →
      ∀ (w' : World) (new : List (Event × State)),
        transaction_impl.process_prioritized cb impl fuel w = Outcome.done w' →
        w'.log = w.log ++ new →
        ∀ x ∈ new, ∀ id tg f, x.1 = Event.run impl id tg f →
          ∃ s, x.2.trans impl = some s ∧ QInv w.nodes s ∧
            ∀ k ∈ s.prioritizedQ, keyLt (rankOf w.nodes tg, id) k
  | 0, _, _, _, _, hf => by omega
  | fuel + 1, w, t, ht, hinv, hf => by
    intro w' new hrun hlog
    have hl := trans_lt ht
    cases hQ : t.prioritizedQ with
    | nil =>
      simp [transaction_impl.process_prioritized, ht, check_regen_of_false hinv.regen, hQ] at hrun
      subst hrun
      have : new = [] := by
        have h2 : w.log ++ [] = w.log ++ new := by simpa [World.setTrans] using hlog
        exact (List.append_cancel_left h2).symm
      subst this
      intro x hx
      simp at hx
    | cons k0 rest =>
      obtain ⟨e0, hfind0, hrank0, hinv1⟩ := hinv.pop hQ
      set t1 : transaction_impl :=
        { t with prioritizedQ := rest, entries := mapErase k0.2 t.entries } with ht1
      set w1 := (w.setTrans impl t1).record (Event.run impl k0.2 e0.target e0.action) with hw1
      have hw1t : w1.trans impl = some t1 := by
        have := @trans_setTrans w impl t1 hl
        simpa [hw1, World.trans, World.record] using this
      have hw1n : w1.nodes = w.nodes := by simp [hw1, World.record, World.setTrans]
      have hw1l : w1.log = w.log ++ [(Event.run impl k0.2 e0.target e0.action,
          (w.setTrans impl t1).toState)] := by simp [hw1, World.record, World.setTrans]
      obtain ⟨calls, hcb, hwt⟩ := hact e0.action w1
      obtain ⟨news, hlog2, hev2, htr2, hn2⟩ := execCalls_spec impl calls w1 t1 hw1t
      rw [hw1n] at hev2 htr2
      set t2 := calls.foldl (Call.apply w.nodes) t1 with ht2
      have hinv2 : QInv w.nodes t2 := QInv.applyAll calls hinv1
      have hpw1 : pendingWeight wtA wtF t = wtA e0.action + pendingWeight wtA wtF t1 := by
        simp only [pendingWeight, ht1]
        rw [sum_mapErase (fun x => wtA x.action) t.entries hfind0]
        omega
      have hpw2 : pendingWeight wtA wtF t2 + ((postsOf calls).map wtF).sum
          = pendingWeight wtA wtF t1 + (calls.map (Call.weight wtA wtF)).sum :=
        pendingWeight_applyAll wtA wtF calls hinv1
      have hn2' : (execCalls impl calls w1).nodes = w.nodes := hn2.trans hw1n
      rw [transaction_impl.process_prioritized] at hrun
      simp only [ht, check_regen_of_false hinv.regen, hQ, hfind0] at hrun
      rw [← ht1, ← hw1, hcb] at hrun
      simp only at hrun
      obtain ⟨w'', _, new', hrun', hlog', _⟩ :=
        process_prioritized_spec cb impl wtA wtF hact fuel (execCalls impl calls w1) t2 htr2
          (hn2'.symm ▸ hinv2) (by omega)
      rw [hrun'] at hrun
      simp only [Outcome.done.injEq] at hrun
      subst hrun
      have hnew : new = (Event.run impl k0.2 e0.target e0.action, (w.setTrans impl t1).toState)
          :: news ++ new' := by
        have h2 : w.log ++ new = w.log ++ ((Event.run impl k0.2 e0.target e0.action,
            (w.setTrans impl t1).toState) :: news ++ new') := by
          rw [← hlog, hlog', hlog2, hw1l]
          simp
        exact List.append_cancel_left h2
      have ih := process_prioritized_snaps cb impl wtA wtF hact fuel (execCalls impl calls w1) t2
        htr2 (hn2'.symm ▸ hinv2) (by omega) w'' new' hrun' hlog'
      rw [hn2'] at ih
      have hsorted := hinv.sorted
      rw [hQ] at hsorted
      intro x hx id tg f hev
      rw [hnew] at hx
      simp only [List.cons_append, List.mem_cons, List.mem_append] at hx
      rcases hx with hx | hx | hx
      · subst hx
        simp only at hev
        injection hev with _ h2 h3 _
        refine ⟨t1, ?_, hinv1, ?_⟩
        · have := @trans_setTrans w impl t1 hl
          simpa [State.trans, World.trans] using this
        · intro k hk
          rw [← h2, ← h3, ← hrank0]
          exact (List.pairwise_cons.1 hsorted).1 k hk
      · have := callEvents_not_invoke impl w.nodes calls t1 x.1
          (hev2 ▸ List.mem_map.2 ⟨x, hx, Eq.refl _⟩)
        rw [hev] at this
        simp [Event.isInvoke] at this
      · exact ih x hx id tg f hev

theorem QInv.entry_key {g : Graph} {t : transaction_impl} (h : QInv g t)
    {e : Nat × prioritized_entry} (he : e ∈ t.entries) :
    (rankOf g e.2.target, e.1) ∈ t.prioritizedQ := by
  have hid : e.1 ∈ t.prioritizedQ.map Prod.snd :=
    h.ids.symm.subset (List.mem_map.2 ⟨e, he, Eq.refl _⟩)
  obtain ⟨k, hk, hke⟩ := List.mem_map.1 hid
  have hfind : mapFind k.2 t.entries = some e.2 := by
    rw [hke]
    exact mapFind_of_mem _ h.nodup he
  have := h.keys k hk e.2 hfind
  have hk' : k = (rankOf g e.2.target, e.1) := Prod.ext this hke
  rw [← hk']
  exact hk

theorem rank_unlink (g : Graph) (this h p : Nat) :
    (nodeAt (node.unlink g this h).1 p).rank = (nodeAt g p).rank := by
  cases hu : node.unlinkLoop h (nodeAt g this).targets with
  | none => simp [node.unlink, hu]
  | some ts =>
    simp only [node.unlink, hu, nodeAt_set]
    split
    · next hp => rw [hp.1]
    · rfl

theorem rankOf_congr {g g' : Graph} (h : ∀ p, (nodeAt g' p).rank = (nodeAt g p).rank)
    (tg : Option Nat) : rankOf g' tg = rankOf g tg := by
  cases tg with
  | none => rfl
  | some p => exact h p

theorem QInv.congr {g g' : Graph} {t : transaction_impl} (h : QInv g t)
    (hr : ∀ e ∈ t.entries, rankOf g' e.2.target = rankOf g e.2.target) : QInv g' t :=
  ⟨h.regen, h.sorted, h.ids, h.nodup, h.fresh, fun k hk e he => by
    rw [h.keys k hk e he]
    exact (hr (k.2, e) (mapFind_mem _ he)).symm⟩

theorem QInv.faithful {g : Graph} {t : transaction_impl} (h : QInv g t) : Faithful g t := by
  intro k
  constructor
  · intro hk
    have hid : k.2 ∈ t.entries.map Prod.fst := h.ids.subset (List.mem_map.2 ⟨k, hk, Eq.refl _⟩)
    obtain ⟨e, he, hke⟩ := List.mem_map.1 hid
    have hfind : mapFind k.2 t.entries = some e.2 := by
      rw [← hke]
      exact mapFind_of_mem _ h.nodup he
    exact ⟨e, he, Prod.ext (h.keys k hk e.2 hfind) hke.symm⟩
  · rintro ⟨e, he, rfl⟩
    exact h.entry_key he

theorem QInv.drain_step {g : Graph} {t : transaction_impl} (h : QInv g t) :
    ∃ t', t.drain_step g = some t' ∧ QInv g t' := by
  unfold transaction_impl.drain_step
  simp only [check_regen_of_false h.regen]
  cases hQ : t.prioritizedQ with
  | nil => exact ⟨t, rfl, h⟩
  | cons k rest =>
    obtain ⟨e, he, _, hinv⟩ := h.pop hQ
    exact ⟨_, by simp only [he], hinv⟩

theorem trans_nodes (w : World) (g : Graph) (impl : Nat) :
    ({ w with nodes := g } : World).trans impl = w.trans impl := rfl

theorem SchedOp.run_inv (fuel impl : Nat) (w w1 : World) (t : transaction_impl) (op : SchedOp)
    (ht : w.trans impl = some t) (hinv : QInv w.nodes t)
    (hkeep : op.keepsPending fuel impl w = true) (hrun : op.run fuel impl w = some w1) :
    ∃ t1, w1.trans impl = some t1 ∧ QInv w1.nodes t1 := by
  cases op with
  | prioritized target f =>
    simp only [SchedOp.run, Option.some.injEq] at hrun
    subst hrun
    obtain ⟨h1, h2, _⟩ := Call.exec_spec ht (Call.prioritized target f)
    simp only [Call.exec] at h1 h2
    exact ⟨_, h1, h2.symm ▸ hinv.apply _⟩
  | link this handler targ =>
    simp only [SchedOp.run, Option.map_eq_some'] at hrun
    obtain ⟨g', hg', rfl⟩ := hrun
    simp only [SchedOp.keepsPending, hg', ht, List.all_eq_true, decide_eq_true_eq] at hkeep
    exact ⟨t, ht, hinv.congr hkeep⟩
  | unlink this handler =>
    simp only [SchedOp.run, Option.some.injEq] at hrun
    subst hrun
    exact ⟨t, ht, hinv.congr (fun e _ => rankOf_congr (rank_unlink _ _ _) _)⟩
  | check_regen =>
    simp only [SchedOp.run, ht, Option.map_some', Option.some.injEq] at hrun
    subst hrun
    rw [check_regen_of_false hinv.regen]
    exact ⟨t, trans_setTrans _ (trans_lt ht), hinv⟩
  | drain_step =>
    obtain ⟨t', ht', hinv'⟩ := hinv.drain_step
    simp only [SchedOp.run, ht, Option.some_bind, ht', Option.map_some', Option.some.injEq] at hrun
    subst hrun
    exact ⟨t', trans_setTrans _ (trans_lt ht), hinv'⟩

theorem runSched_inv (fuel impl : Nat) :
    ∀ (ops : List SchedOp) (w w' : World) (t : transaction_impl),
      w.trans impl = some t → QInv w.nodes t → KeepsPending fuel impl w ops = true →
      runSched fuel impl w ops = some w' →
      ∃ t', w'.trans impl = some t' ∧ QInv w'.nodes t'
  | [], w, w', t, ht, hinv, _, hrun => by
    simp only [runSched, Option.some.injEq] at hrun
    exact hrun ▸ ⟨t, ht, hinv⟩
  | op :: ops, w, w', t, ht, hinv, hkeep, hrun => by
    simp only [runSched, Option.bind_eq_some] at hrun
    obtain ⟨w1, h1, h2⟩ := hrun
    simp only [KeepsPending, h1, Bool.and_eq_true] at hkeep
    obtain ⟨t1, ht1, hinv1⟩ := SchedOp.run_inv fuel impl w w1 t op ht hinv hkeep.1 h1
    exact runSched_inv fuel impl ops w1 w' t1 ht1 hinv1 hkeep.2 h2

theorem process_prioritized_drain_step (cb : Callbacks) (impl fuel : Nat) (w : World)
    (t : transaction_impl) (pit : Nat × Nat) (rest : List (Nat × Nat)) (e : prioritized_entry)
    (ht : w.trans impl = some t) (hQ : (t.check_regen w.nodes).prioritizedQ = pit :: rest)
    (he : mapFind pit.2 (t.check_regen w.nodes).entries = some e) :
    ∃ t1, t.drain_step w.nodes = some t1 ∧
      transaction_impl.process_prioritized cb impl (fuel + 1) w
        = match cb.action e.action impl
            ((w.setTrans impl t1).record (Event.run impl pit.2 e.target e.action)) with
          | Outcome.done w2 => transaction_impl.process_prioritized cb impl fuel w2
          | o => o := by
  refine ⟨{ t.check_regen w.nodes with
      prioritizedQ := rest, entries := mapErase pit.2 (t.check_regen w.nodes).entries }, ?_, ?_⟩
  · simp only [transaction_impl.drain_step, hQ, he]
  · rw [transaction_impl.process_prioritized]
    simp only [ht, hQ, he]

/-- C14 (counterexample): from a fresh transaction, scheduling an entry on `node 1`, linking
`node 0` to `node 1` and scheduling an entry on `node 0` reaches a state in which `to_regen`
is false although the queue holds the key `(0, 0)` for the entry on `node 1`, whose rank is
now 1; the drain of that state invokes the entry on `node 1` before the entry on
`node 0`. -/
theorem link_leaves_queue_stale :
    (runSched 3 0 freshWorld staleOps).map (fun w => (ranks w.nodes, w.trans 0))
      = some ([0, 1], some staleQueued) ∧
    staleQueued.to_regen = false ∧
    ¬ Faithful [⟨0, [⟨7, some 1⟩]⟩, ⟨1, []⟩] staleQueued ∧
    (runSched 3 0 freshWorld staleOps).map (fun w =>
      match transaction_impl.process_transactional idleCallbacks 3 0 w with
      | Outcome.done w' => w'.events.drop 2
      | _ => [])
      = some [Event.process_transactional 0, Event.run 0 0 (some 1) 1,
          Event.run 0 1 (some 0) 0] := by
  refine ⟨by decide, rfl, ?_, by decide⟩
  intro h
  obtain ⟨e, he, hk⟩ := (h (0, 0)).1 (by decide)
  simp only [staleQueued, List.mem_cons, List.mem_singleton, List.not_mem_nil, or_false] at he
  rcases he with rfl | rfl
  · revert hk; decide
  · revert hk; decide

/-- C14 (amended): in every state reached from a fresh transaction by `prioritized`, `link`,
`unlink`, `check_regen` and drain steps in which every `link` changed no rank of a node
referenced by an entry pending at the time, `to_regen` is false, the priority queue is
exactly the set of keys `(rankOf target, id)` of the entries under the current ranks, in
ascending order, and the next drain step passes its `assert`; and a `link` never touches a
transaction object, so it leaves `to_regen` as it is whatever ranks it changes. -/
theorem queue_faithful_reachable (fuel impl : Nat) (w0 w : World) (ops : List SchedOp)
    (hfresh : w0.trans impl = some transaction_impl.new)
    (hkeep : KeepsPending fuel impl w0 ops = true)
    (hrun : runSched fuel impl w0 ops = some w) :
    (∃ t, w.trans impl = some t ∧ t.to_regen = false ∧ Faithful w.nodes t ∧
      t.prioritizedQ.Pairwise keyLt ∧ ∃ t', t.drain_step w.nodes = some t') ∧
    (∀ (v v1 : World) (this handler : Nat) (targ : Option Nat),
      (SchedOp.link this handler targ).run fuel impl v = some v1 → v1.heap = v.heap) := by
  constructor
  · obtain ⟨t, ht, hinv⟩ := runSched_inv fuel impl ops w0 w _ hfresh (QInv.new _) hkeep hrun
    obtain ⟨t', ht', _⟩ := hinv.drain_step
    exact ⟨t, ht, hinv.regen, hinv.faithful, hinv.sorted, t', ht'⟩
  · intro v v1 this handler targ h
    simp only [SchedOp.run, Option.map_eq_some'] at h
    obtain ⟨g', _, rfl⟩ := h
    rfl

theorem queue_faithful_reachable_witness :
    (KeepsPending 3 0 freshWorld keptOps = true ∧
      runSched 3 0 freshWorld keptOps = some keptWorld) ∧
    ((∃ t, keptWorld.trans 0 = some t ∧ t.to_regen = false ∧ Faithful keptWorld.nodes t ∧
        t.prioritizedQ.Pairwise keyLt ∧ ∃ t', t.drain_step keptWorld.nodes = some t') ∧
      (∀ (v v1 : World) (this handler : Nat) (targ : Option Nat),
        (SchedOp.link this handler targ).run 3 0 v = some v1 → v1.heap = v.heap)) ∧
    keptWorld.trans 0 = some ⟨false, [(0, ⟨some 1, 1⟩)], [(1, 0)], 2, []⟩ ∧
    ranks keptWorld.nodes = [0, 1] ∧
    KeepsPending 3 0 freshWorld staleOps = false :=
  ⟨⟨by decide, by decide⟩,
    queue_faithful_reachable 3 0 freshWorld keptWorld keptOps rfl (by decide) (by decide),
    by decide, by decide, by decide⟩

theorem process_post_loop_thrown (cb : Callbacks)
    (hbal : ∀ f v v', cb.fn f v = Outcome.done v' ∨ cb.fn f v = Outcome.thrown v' →
      v'.part.mx = v.part.mx) :
    ∀ (fuel : Nat) (w w' : World), 1 ≤ w.part.mx →
      partition.process_post_loop cb fuel w = Outcome.thrown w' →
      w'.part.mx + 1 = w.part.mx
  | 0, _, _, _, h => by simp [partition.process_post_loop] at h
  | fuel + 1, w, w', hmx, h => by
    rw [partition.process_post_loop] at h
    cases hQ : w.part.postQ with
    | nil => simp [hQ] at h
    | cons f rest =>
      simp only [hQ] at h
      cases hcb : cb.fn f
          ((({ w with part := { w.part with postQ := rest } } : World).unlock).record
            (Event.run_post f)) with
      | done w3 =>
        rw [hcb] at h
        have h3 := hbal _ _ _ (Or.inl hcb)
        simp only [World.record, World.unlock] at h3
        have := process_post_loop_thrown cb hbal fuel w3.lock w' (by simp [World.lock]) h
        simp only [World.lock] at this
        omega
      | thrown v =>
        rw [hcb] at h
        simp only [Outcome.thrown.injEq] at h
        have h3 := hbal _ _ _ (Or.inr hcb)
        simp only [World.record, World.unlock] at h3
        rw [← h]
        omega
      | crashed v => rw [hcb] at h; simp at h
      | out_of_fuel => rw [hcb] at h; simp at h

/-- C17 (counterexample): `process_post` is entered with hold count 0 and the throwing
callback 31 at the front of the queue; it exits by the exception with `processing_post`
reset to false and with hold count 0, the value at entry, not one higher. -/
theorem post_failure_lock_not_held :
    failQueued.part.mx = 0 ∧ failQueued.part.processing_post = false ∧
    partition.process_post throwingCallbacks 3 failQueued = Outcome.thrown failedPost ∧
    failedPost.part.processing_post = false ∧
    failedPost.part.mx = 0 ∧
    ¬ failedPost.part.mx = failQueued.part.mx + 1 ∧
    failedPost.events = [Event.run_post 31] ∧ failedPost.part.postQ = [40] := by
  refine ⟨rfl, rfl, by decide, by decide, by decide, by decide, by decide, by decide⟩

/-- C17 (amended): a deferred callback that throws when the loop of `process_post` invokes it
makes the loop return that failure at once; and when `process_post` exits by an exception,
with callbacks that leave the hold count as they found it, `processing_post` is false and
the hold count equals its value at entry: the hold taken at entry was released before the
callback was invoked, so the skipped final `unlock` leaves no hold behind. -/
theorem process_post_failure_state (cb : Callbacks) (fuel : Nat) (w w' : World)
    (hbal : ∀ f v v', cb.fn f v = Outcome.done v' ∨ cb.fn f v = Outcome.thrown v' →
      v'.part.mx = v.part.mx)
    (hthrow : partition.process_post cb fuel w = Outcome.thrown w') :
    w'.part.processing_post = false ∧ w'.part.mx = w.part.mx ∧
    (∀ (n : Nat) (v v' : World) (f : Nat) (rest : List Nat), v.part.postQ = f :: rest →
      cb.fn f ((({ v with part := { v.part with postQ := rest } } : World).unlock).record
        (Event.run_post f)) = Outcome.thrown v' →
      partition.process_post_loop cb (n + 1) v = Outcome.thrown v') := by
  refine ⟨?_, ?_, ?_⟩
  · simp only [partition.process_post] at hthrow
    split at hthrow
    · split at hthrow
      · simp at hthrow
      · simp only [Outcome.thrown.injEq] at hthrow
        rw [← hthrow]
      · next o h1 h2 => exact absurd hthrow (h2 w')
    · simp at hthrow
  · simp only [partition.process_post] at hthrow
    split at hthrow
    · split at hthrow
      · simp at hthrow
      · next w3 hloop =>
        simp only [Outcome.thrown.injEq] at hthrow
        have := process_post_loop_thrown cb hbal fuel _ w3 (by simp [World.lock]) hloop
        rw [← hthrow]
        simp only [World.lock] at this
        simp only
        omega
      · next o h1 h2 => exact absurd hthrow (h2 w')
    · simp at hthrow
  · intro n v v' f rest hQ hcb
    rw [partition.process_post_loop]
    simp only [hQ, hcb]

theorem process_post_failure_state_witness :
    ((∀ f v v', throwingCallbacks.fn f v = Outcome.done v' ∨
        throwingCallbacks.fn f v = Outcome.thrown v' → v'.part.mx = v.part.mx) ∧
      partition.process_post throwingCallbacks 3 failQueued = Outcome.thrown failedPost) ∧
    (failedPost.part.processing_post = false ∧ failedPost.part.mx = failQueued.part.mx ∧
      (∀ (n : Nat) (v v' : World) (f : Nat) (rest : List Nat), v.part.postQ = f :: rest →
        throwingCallbacks.fn f
          ((({ v with part := { v.part with postQ := rest } } : World).unlock).record
            (Event.run_post f)) = Outcome.thrown v' →
        partition.process_post_loop throwingCallbacks (n + 1) v = Outcome.thrown v')) :=
  have hbal : ∀ f v v', throwingCallbacks.fn f v = Outcome.done v' ∨
      throwingCallbacks.fn f v = Outcome.thrown v' → v'.part.mx = v.part.mx := by
    intro f v v' h
    simp only [throwingCallbacks] at h
    split at h
    · rcases h with h | h
      · simp at h
      · simp only [Outcome.thrown.injEq] at h; rw [h]
    · rcases h with h | h
      · simp only [Outcome.done.injEq] at h; rw [h]
      · simp at h
  ⟨⟨hbal, by decide⟩,
    process_post_failure_state throwingCallbacks 3 failQueued failedPost hbal (by decide)⟩

theorem lock_unlock (w : World) : w.lock.unlock = w := by
  cases w with
  | mk s log =>
    cases s with
    | mk nodes part heap =>
      cases part
      simp [World.lock, World.unlock]

theorem process_post_reentrant (cb : Callbacks) (fuel : Nat) (w : World)
    (hpp : w.part.processing_post = true) :
    partition.process_post cb fuel w = Outcome.done w := by
  have h : (!(w.lock).part.processing_post) = false := by simp [World.lock, hpp]
  simp only [partition.process_post, h, Bool.false_eq_true, if_false, lock_unlock]

theorem postRuns_nil_of_no_run_post :
    ∀ (l : List (Event × State)), (∀ x ∈ l, ∀ f, x.1 ≠ Event.run_post f) →
      postRuns (l.map Prod.fst) = []
  | [], _ => by simp [postRuns]
  | x :: l, h => by
    have ih := postRuns_nil_of_no_run_post l (fun y hy => h y (List.mem_cons_of_mem _ hy))
    have hx := h x (List.mem_cons_self _ _)
    simp only [postRuns, List.map_cons, List.filterMap_cons] at ih ⊢
    cases hx1 : x.1 with
    | run_post f => exact absurd hx1 (hx f)
    | process_transactional i => simpa using ih
    | prioritized i id tg f => simpa using ih
    | run i id tg f => simpa using ih
    | last i f => simpa using ih
    | post f => simpa using ih
    | run_last i f => simpa using ih

theorem scope_reentrant (cb : Callbacks) (wtA wtF : Nat → Nat) (ok : Call → Prop)
    (fuel : Nat) (w : World) (body : List ScopeOp)
    (hkey : w.part.key = none) (hdepth : w.part.depth = 0)
    (hpp : w.part.processing_post = true) (hbody : levelAfter 1 body = some 1)
    (hact : cb.ActionsSchedule w.heap.length wtA wtF)
    (hfin : cb.FinalsSchedule w.heap.length wtA wtF ok)
    (hfuel : ((callsOf body).map (Call.weight wtA wtF)).sum < fuel) :
    ∃ (w3 : World) (new : List (Event × State)),
      runOps cb fuel (ScopeOp.open_ :: body ++ [ScopeOp.close_]) [] w = (Outcome.done w3, []) ∧
      w3.log = w.log ++ new ∧ SamePart w3.part w.part ∧
      w3.part.postQ = w.part.postQ ++ postCalls (new.map Prod.fst) ∧
      postRuns (new.map Prod.fst) = [] ∧
      ((postCalls (new.map Prod.fst)).map wtF).sum
        ≤ ((callsOf body).map (Call.weight wtA wtF)).sum := by
  obtain ⟨_, _, h3, h4, h5, h6, h7, h8, h9, h10⟩ := ctor_fresh w hkey
  obtain ⟨w2, new0, hrun2, _, hd2, hin, hpc⟩ :=
    scope_prefix_spec cb fuel w body 1 hkey hdepth hbody
  have hinv2 : QInv w2.nodes ((callsOf body).foldl (Call.apply w.nodes) transaction_impl.new) := by
    rw [hin.nodes, h9]
    exact QInv.applyAll _ (QInv.new _)
  have hpw := pendingWeight_applyAll wtA wtF (callsOf body) (QInv.new w.nodes)
  rw [pendingWeight_new] at hpw
  obtain ⟨w1, t1, new1, hrun1, hfr1, htr1, hinvk1, hcost1⟩ :=
    process_transactional_frame cb w.heap.length wtA wtF ok hact hfin fuel w2 _ hin.trans hinv2
      (hin.key.trans h5) (by omega)
  have hpp1 : (postWorld w.heap.length w1).part.processing_post = true := by
    simp only [postWorld]
    rw [hfr1.part.processing_post, hin.processing_post, h7, hpp]
  have hdtor : transaction_.dtor cb fuel ⟨w.heap.length⟩ w2
      = Outcome.done (postWorld w.heap.length w1) := by
    rw [dtor_outermost_eq cb fuel w.heap.length w2 w1 (by rw [hd2]; rfl) hrun1,
      process_post_reentrant cb fuel _ hpp1]
    rfl
  refine ⟨postWorld w.heap.length w1,
    new0 ++ (Event.process_transactional w.heap.length, w2.toState) :: new1, ?_, ?_, ?_, ?_, ?_,
    ?_⟩
  · have := runOps_append cb fuel (ScopeOp.open_ :: body) [ScopeOp.close_] [] w _ _
      (by simpa using hrun2)
    rw [this]
    simp [runOps, hdtor]
  · simp only [postWorld]
    rw [hfr1.log, hin.log, h10]
    simp
  · refine ⟨?_, ?_, ?_, ?_⟩
    · simp only [postWorld]
      rw [hfr1.part.mx, hin.mx, h4]
      omega
    · simp only [postWorld]
      rw [hfr1.part.depth, hd2, hdepth]
      rfl
    · rw [hpp1, hpp]
    · simp only [postWorld]
      exact hkey.symm
  · simp only [postWorld]
    rw [hfr1.posts, hin.posts, h8, List.map_append, postCalls_append, List.append_assoc]
  · rw [List.map_append, postRuns_append, postRuns_nil_of_not_invoke new0 hin.quiet,
      List.nil_append]
    apply postRuns_nil_of_no_run_post
    intro x hx f hev
    rcases List.mem_cons.1 hx with hx | hx
    · rw [hx] at hev
      cases hev
    · rcases hinvk1 x hx (by rw [hev]; rfl) with ⟨id, tg, g, h'⟩ | ⟨g, h'⟩
      · rw [hev] at h'; cases h'
      · rw [hev] at h'; cases h'
  · have h0 : postCalls [Event.process_transactional w.heap.length] = [] := rfl
    rw [List.map_append, postCalls_append, List.map_append, List.sum_append, hpc,
      List.map_cons, ← List.singleton_append, postCalls_append, h0, List.nil_append]
    omega

theorem Quiet.quiet_trans {w w' w'' : World} {n1 n2 : List (Event × State)}
    (h1 : Quiet w w' n1) (h2 : Quiet w' w'' n2) : Quiet w w'' (n1 ++ n2) where
  log := by rw [h2.log, h1.log, List.append_assoc]
  part := h2.part.same_trans h1.part
  posts := by
    rw [h2.posts, h1.posts, List.map_append, postCalls_append, List.append_assoc]
  runs := by rw [List.map_append, postRuns_append, h1.runs, h2.runs]; rfl

theorem runDeferred_quiet (inner : Callbacks) (wtA wtF : Nat → Nat) (ok : Call → Prop)
    (fuel : Nat)
    (hact : ∀ impl, inner.ActionsSchedule impl wtA wtF)
    (hfin : ∀ impl, inner.FinalsSchedule impl wtA wtF ok) :
    ∀ (ops : List DeferredOp) (w : World),
      w.part.key = none → w.part.depth = 0 → w.part.processing_post = true →
      (∀ op ∈ ops, op.wellNested) → (ops.map (DeferredOp.weight wtA wtF)).sum < fuel →
      ∃ (w' : World) (new : List (Event × State)),
        runDeferred inner fuel ops w = Outcome.done w' ∧ Quiet w w' new ∧
        ((postCalls (new.map Prod.fst)).map wtF).sum
          ≤ (ops.map (DeferredOp.weight wtA wtF)).sum
  | [], w, _, _, _, _, _ =>
    ⟨w, [], rfl, ⟨by simp, SamePart.same_refl _, by simp [postCalls], by simp [postRuns]⟩,
      by simp [postCalls]⟩
  | op :: ops, w, hkey, hdepth, hpp, hwn, hfuel => by
    simp only [List.map_cons, List.sum_cons] at hfuel ⊢
    have hstep : ∃ (w1 : World) (n1 : List (Event × State)),
        runDeferred inner fuel (op :: ops) w = runDeferred inner fuel ops w1 ∧
        Quiet w w1 n1 ∧
        ((postCalls (n1.map Prod.fst)).map wtF).sum ≤ op.weight wtA wtF := by
      cases op with
      | post f =>
        have hf := Frame.post w f
        refine ⟨partition.post f w, [(Event.post f, w.toState)], rfl,
          ⟨hf.log, hf.part, hf.posts, by simp [postRuns]⟩, ?_⟩
        simp [postCalls, DeferredOp.weight]
      | process_post =>
        refine ⟨w, [], ?_,
          ⟨by simp, SamePart.same_refl _, by simp [postCalls], by simp [postRuns]⟩,
          by simp [postCalls]⟩
        simp only [runDeferred, process_post_reentrant inner fuel w hpp]
      | scope body =>
        have hb : levelAfter 1 body = some 1 := hwn _ (List.mem_cons_self _ _)
        obtain ⟨w3, new, hrun, hlog, hpart, hposts, hruns, hcost⟩ :=
          scope_reentrant inner wtA wtF ok fuel w body hkey hdepth hpp hb (hact _) (hfin _)
            (by simp only [DeferredOp.weight] at hfuel; omega)
        refine ⟨w3, new, ?_, ⟨hlog, hpart, hposts, hruns⟩, hcost⟩
        simp only [runDeferred, hrun]
    obtain ⟨w1, n1, hrun1, hq1, hc1⟩ := hstep
    obtain ⟨w', n2, hrun2, hq2, hc2⟩ := runDeferred_quiet inner wtA wtF ok fuel hact hfin ops w1
      (hq1.part.key.trans hkey) (hq1.part.depth.trans hdepth)
      (hq1.part.processing_post.trans hpp)
      (fun o ho => hwn o (List.mem_cons_of_mem _ ho)) (by omega)
    refine ⟨w', n1 ++ n2, by rw [hrun1]; exact hrun2,
      hq1.quiet_trans hq2, ?_⟩
    rw [List.map_append, postCalls_append, List.map_append, List.sum_append]
    omega

theorem process_post_loop_reenter (cb : Callbacks) (wtF : Nat → Nat)
    (hq : ∀ f w, w.part.key = none → w.part.depth = 0 → w.part.processing_post = true →
      ∃ (w' : World) (new : List (Event × State)), cb.fn f w = Outcome.done w' ∧
        Quiet w w' new ∧ ((postCalls (new.map Prod.fst)).map wtF).sum < wtF f) :
    ∀ (fuel : Nat) (w : World),
      w.part.key = none → w.part.depth = 0 → w.part.processing_post = true →
      1 ≤ w.part.mx → (w.part.postQ.map wtF).sum < fuel →
      ∃ (w' : World) (new : List (Event × State)),
        partition.process_post_loop cb fuel w = Outcome.done w' ∧
        w'.log = w.log ++ new ∧ SamePart w'.part w.part ∧ w'.part.postQ = [] ∧
        postRuns (new.map Prod.fst) = w.part.postQ ++ postCalls (new.map Prod.fst)
  | 0, _, _, _, _, _, hf => by omega
  | fuel + 1, w, hkey, hdepth, hpp, hmx, hf => by
    cases hQ : w.part.postQ with
    | nil =>
      exact ⟨w, [], by simp [partition.process_post_loop, hQ], by simp,
        SamePart.same_refl _, hQ, by simp [postRuns, postCalls]⟩
    | cons f rest =>
      set w1 : World := { w with part := { w.part with postQ := rest } } with hw1
      set wr := w1.unlock.record (Event.run_post f) with hwr
      obtain ⟨w2, news, hcb, hqt, hwt⟩ := hq f wr
        (by simpa [hwr, hw1, World.record, World.unlock] using hkey)
        (by simpa [hwr, hw1, World.record, World.unlock] using hdepth)
        (by simpa [hwr, hw1, World.record, World.unlock] using hpp)
      have hpart3 : SamePart w2.lock.part w.part := by
        have := hqt.part
        refine ⟨?_, ?_, ?_, ?_⟩
        · simp only [World.lock, this.mx]
          simp only [hwr, hw1, World.record, World.unlock]
          omega
        · simpa [World.lock, hwr, hw1, World.record, World.unlock] using this.depth
        · simpa [World.lock, hwr, hw1, World.record, World.unlock] using this.processing_post
        · simpa [World.lock, hwr, hw1, World.record, World.unlock] using this.key
      have hq3 : w2.lock.part.postQ = rest ++ postCalls (news.map Prod.fst) := by
        have := hqt.posts
        simpa [World.lock, hwr, hw1, World.record, World.unlock] using this
      obtain ⟨w', new', hrun, hlog', hp', hq', hfifo'⟩ :=
        process_post_loop_reenter cb wtF hq fuel w2.lock (hpart3.key.trans hkey)
          (hpart3.depth.trans hdepth) (hpart3.processing_post.trans hpp)
          (by rw [hpart3.mx]; exact hmx)
          (by
            rw [hq3]
            simp only [hQ, List.map_cons, List.sum_cons, List.map_append, List.sum_append] at hf ⊢
            omega)
      refine ⟨w', (Event.run_post f, w1.unlock.toState) :: news ++ new', ?_, ?_,
        hp'.same_trans hpart3, hq', ?_⟩
      · rw [partition.process_post_loop]
        simp only [hQ]
        rw [← hw1, ← hwr, hcb]
        exact hrun
      · rw [hlog']
        simp only [World.lock]
        rw [hqt.log]
        simp [hwr, hw1, World.record, World.unlock]
      · rw [List.cons_append, List.map_cons, List.map_append, ← List.singleton_append,
          postRuns_append, postRuns_append, postCalls_append, postCalls_append,
          hqt.runs, hfifo', hq3]
        simp [postRuns, postCalls]

/-- C19: `process_post` called while `processing_post` is true returns at once with the
world as it was: nothing is invoked or recorded, the deferred queue, `processing_post` and
the hold count are as at entry. And a pass started outside any scope, whose callbacks post,
call `process_post` themselves and run scopes of their own (whose closes call `process_post`
again), returns having invoked, in order and each once, the callbacks queued at the start
followed by all callbacks posted during the pass, those that the nested calls left in the
queue included; the queue is then empty and `processing_post` false. -/
theorem reentrant_process_post_noop (cb inner : Callbacks) (wtA wtF : Nat → Nat)
    (ok : Call → Prop) (fuel n : Nat) (w : World)
    (hidle : Idle w)
    (hact : ∀ impl, cb.ActionsSchedule impl wtA wtF)
    (hfin : ∀ impl, cb.FinalsSchedule impl wtA wtF ok)
    (hsame : inner.action = cb.action ∧
      ∀ f v, v.part.key ≠ none → inner.fn f v = cb.fn f v)
    (hre : cb.DeferredReenter inner wtA wtF n)
    (hfuel : (w.part.postQ.map wtF).sum < fuel) :
    (∀ (cb' : Callbacks) (m : Nat) (v : World), v.part.processing_post = true →
      partition.process_post cb' m v = Outcome.done v) ∧
    ∃ (w' : World) (new : List (Event × State)),
      partition.process_post cb fuel w = Outcome.done w' ∧ w'.log = w.log ++ new ∧
      postRuns (new.map Prod.fst) = w.part.postQ ++ postCalls (new.map Prod.fst) ∧
      w'.part.postQ = [] ∧ w'.part.processing_post = false ∧ w'.part.mx = w.part.mx := by
  refine ⟨fun cb' m v hv => process_post_reentrant cb' m v hv, ?_⟩
  have hact' : ∀ impl, inner.ActionsSchedule impl wtA wtF := by
    intro impl f v
    obtain ⟨calls, h1, h2⟩ := hact impl f v
    exact ⟨calls, by rw [hsame.1]; exact h1, h2⟩
  have hfin' : ∀ impl, inner.FinalsSchedule impl wtA wtF ok := by
    intro impl f v hk
    obtain ⟨calls, h1, h2⟩ := hfin impl f v hk
    exact ⟨calls, by rw [hsame.2 f v (by rw [hk]; simp)]; exact h1, h2⟩
  have hq : ∀ f v, v.part.key = none → v.part.depth = 0 → v.part.processing_post = true →
      ∃ (v' : World) (new : List (Event × State)), cb.fn f v = Outcome.done v' ∧
        Quiet v v' new ∧ ((postCalls (new.map Prod.fst)).map wtF).sum < wtF f := by
    intro f v hk hd hp
    obtain ⟨ops, hrun, hwn, hwt, hn⟩ := hre f v hk hd hp
    obtain ⟨v', new, hrun', hqt, hc⟩ :=
      runDeferred_quiet inner wtA wtF ok n hact' hfin' ops v hk hd hp hwn hn
    exact ⟨v', new, by rw [hrun, hrun'], hqt, by omega⟩
  set w2 : World :=
    { w.lock with part := { w.lock.part with processing_post := true } } with hw2
  obtain ⟨w3, new, hrun, hlog, hp, hq3, hfifo⟩ :=
    process_post_loop_reenter cb wtF hq fuel w2
      (by simpa [hw2, World.lock] using hidle.key)
      (by simpa [hw2, World.lock] using hidle.depth) (by simp [hw2])
      (by simp [hw2, World.lock]) (by simpa [hw2, World.lock] using hfuel)
  refine ⟨({ w3 with part := { w3.part with processing_post := false } } : World).unlock, new,
    ?_, by simpa [World.unlock, hw2, World.lock] using hlog,
    by simpa [hw2, World.lock] using hfifo, by simpa [World.unlock] using hq3,
    by simp [World.unlock], ?_⟩
  · simp only [partition.process_post]
    have : (!(w.lock).part.processing_post) = true := by
      simp [World.lock, hidle.processing_post]
    rw [if_pos this, ← hw2, hrun]
  · simp only [World.unlock, hp.mx, hw2, World.lock]
    omega

theorem reentrant_process_post_noop_witness :
    (Idle queuedWorld ∧ (queuedWorld.part.postQ.map (fun f => if f = 30 then 4 else 1)).sum < 6) ∧
    ((∀ (cb' : Callbacks) (m : Nat) (v : World), v.part.processing_post = true →
        partition.process_post cb' m v = Outcome.done v) ∧
      ∃ (w' : World) (new : List (Event × State)),
        partition.process_post reenteringCallbacks 6 queuedWorld = Outcome.done w' ∧
        w'.log = queuedWorld.log ++ new ∧
        postRuns (new.map Prod.fst) = queuedWorld.part.postQ ++ postCalls (new.map Prod.fst) ∧
        w'.part.postQ = [] ∧ w'.part.processing_post = false ∧
        w'.part.mx = queuedWorld.part.mx) ∧
    (∃ w', partition.process_post reenteringCallbacks 6 queuedWorld = Outcome.done w' ∧
      w'.events = [Event.run_post 30, Event.post 31, Event.post 32,
        Event.prioritized 0 0 none 7, Event.process_transactional 0, Event.run 0 0 none 7,
        Event.run_post 40, Event.run_post 31, Event.run_post 32]) :=
  ⟨⟨⟨rfl, rfl, rfl⟩, by decide⟩,
    reentrant_process_post_noop reenteringCallbacks idleCallbacks (fun _ => 1)
      (fun f => if f = 30 then 4 else 1) (fun _ => True) 6 4 queuedWorld ⟨rfl, rfl, rfl⟩
      (fun _ f _ => ⟨[], rfl, by simp⟩)
      (fun impl f v hk =>
        ⟨[], by simp [reenteringCallbacks, idleCallbacks, scripted, hk], by
          by_cases h : f = 30 <;> simp [h], fun _ hc => by simp at hc⟩)
      ⟨rfl, fun f v hk => by simp [reenteringCallbacks, hk]⟩
      (fun f v hk _ _ => by
        by_cases h : f = 30
        · exact ⟨[DeferredOp.post 31, DeferredOp.process_post,
            DeferredOp.scope [ScopeOp.call (Call.post 32), ScopeOp.call (Call.prioritized none 7)]],
            by simp [reenteringCallbacks, h, hk],
            by
              intro op hop
              simp only [List.mem_cons, List.mem_singleton, List.not_mem_nil, or_false] at hop
              rcases hop with rfl | rfl | rfl
              · trivial
              · trivial
              · show levelAfter 1 _ = some 1
                rfl,
            by simp [h, DeferredOp.weight, callsOf, Call.weight],
            by simp [DeferredOp.weight, callsOf, Call.weight]⟩
        · exact ⟨[], by simp [reenteringCallbacks, h, hk, idleCallbacks, scripted, postsOf,
              postAll, runDeferred],
            by simp, by simp [h], by simp⟩)
      (by decide),
    ⟨_, rfl, by decide⟩⟩

/-- C15 (evaluation at the failing input): in the open scope two entries and a final callback
are queued and the action of the first entry throws. `process_transactional` exits by the
exception right after that action, with the second entry and the final callback still
queued, and `dispatch` passes the exception on; the destructor does not: the close ends the
program with the world as the failing action left it, so the failure is not the result of
the close. The same happens when the first of two final callbacks throws. -/
theorem failing_callback_ends_program :
    runOps throwingCallbacks 4 (ScopeOp.open_ :: failingBody) [] idleWorld
      = (Outcome.done failingWorld, [⟨0⟩]) ∧
    transaction_impl.process_transactional throwingCallbacks 4 0 failingWorld
      = Outcome.thrown failedWorld ∧
    failedWorld.events = failingWorld.events
      ++ [Event.process_transactional 0, Event.run 0 0 none 0, Event.post 30] ∧
    (failedWorld.trans 0).map (fun t => (t.entries, t.lastQ))
      = some ([(1, ⟨none, 1⟩)], [20]) ∧
    simple_policy.dispatch 0 (transaction_.dtor_transactional throwingCallbacks 4 0)
      (transaction_.dtor_post throwingCallbacks 4 0) failingWorld = Outcome.thrown failedWorld ∧
    transaction_.dtor throwingCallbacks 4 ⟨0⟩ failingWorld = Outcome.crashed failedWorld ∧
    runOps throwingCallbacks 4 (ScopeOp.open_ :: failingBody ++ [ScopeOp.close_]) [] idleWorld
      = (Outcome.crashed failedWorld, []) ∧
    (match (runOps throwingCallbacks 4 (ScopeOp.open_ :: failingFinalBody ++ [ScopeOp.close_])
        [] idleWorld).1 with
      | Outcome.crashed v => some (v.events, (v.trans 0).map (fun t => t.lastQ))
      | _ => none)
      = some ([Event.last 0 21, Event.last 0 20, Event.prioritized 0 0 none 1,
          Event.process_transactional 0, Event.run 0 0 none 1, Event.run_last 0 21],
        some [21, 20]) := by
  refine ⟨by decide, by decide, by decide, by decide, by decide, by decide, by decide,
    by decide⟩

/-- C16 (evaluation at the failing input): a thread with hold count 0 opens a scope, which
takes one hold, schedules an action that throws and closes the scope. The exception leaves
`dispatch` before the slot is cleared and the mutex unlocked: it reaches the destructor with
hold count 1, the slot still set and depth 1, and the destructor ends the program in that
state. With callbacks that return, the same operations end with hold count 0, the slot empty
and depth 0. -/
theorem failed_close_keeps_lock :
    idleWorld.part.mx = 0 ∧
    runOps throwingCallbacks 4 (ScopeOp.open_ :: failingBody) [] idleWorld
      = (Outcome.done failingWorld, [⟨0⟩]) ∧
    failingWorld.part.mx = 1 ∧
    simple_policy.dispatch 0 (transaction_.dtor_transactional throwingCallbacks 4 0)
      (transaction_.dtor_post throwingCallbacks 4 0) failingWorld = Outcome.thrown failedWorld ∧
    failedWorld.part.mx = 1 ∧ failedWorld.part.key = some 0 ∧ failedWorld.part.depth = 1 ∧
    runOps throwingCallbacks 4 (ScopeOp.open_ :: failingBody ++ [ScopeOp.close_]) [] idleWorld
      = (Outcome.crashed failedWorld, []) ∧
    (match (runOps idleCallbacks 4 (ScopeOp.open_ :: failingBody ++ [ScopeOp.close_]) []
        idleWorld).1 with
      | Outcome.done v => some (v.part.mx, v.part.key, v.part.depth)
      | _ => none) = some (0, none, 0) := by
  refine ⟨rfl, by decide, by decide, by decide, by decide, by decide, by decide, by decide,
    by decide⟩

theorem QInv.toKeys {g : Graph} {t : transaction_impl} (h : QInv g t)
    {P : Nat × Nat → prioritized_entry → Prop}
    (hP : ∀ k e, k.1 = rankOf g e.target → P k e) : QKeys P t :=
  ⟨h.regen, h.sorted, h.ids, h.nodup, h.fresh, fun k hk e he => hP k e (h.keys k hk e he)⟩

theorem QKeys.keys_pop {P : Nat × Nat → prioritized_entry → Prop} {t : transaction_impl}
    {k : Nat × Nat} {rest : List (Nat × Nat)}
    (h : QKeys P t) (hQ : t.prioritizedQ = k :: rest) :
    ∃ e, mapFind k.2 t.entries = some e ∧ P k e ∧
      QKeys P { t with prioritizedQ := rest, entries := mapErase k.2 t.entries } := by
  have hk : k.2 ∈ t.entries.map Prod.fst := h.ids.subset (by simp [hQ])
  obtain ⟨e, he⟩ := mapFind_isSome_of_mem _ hk
  have hs := h.sorted
  rw [hQ] at hs
  have hids := h.ids
  rw [hQ] at hids
  have hndQ : ((k :: rest).map Prod.snd).Nodup := hids.nodup_iff.2 h.nodup
  simp only [List.map_cons, List.nodup_cons] at hndQ
  refine ⟨e, he, h.keys k (by simp [hQ]) e he,
    ⟨h.regen, (List.pairwise_cons.1 hs).2, ?_, ?_, ?_, ?_⟩⟩
  · simp only [map_fst_mapErase]
    have := hids.erase k.2
    simpa using this
  · simp only [map_fst_mapErase]
    exact h.nodup.erase _
  · intro x hx
    exact h.fresh x (mem_mapErase _ hx)
  · intro k' hk' e' he'
    have hne : k'.2 ≠ k.2 := by
      intro e1
      exact hndQ.1 (e1 ▸ List.mem_map.2 ⟨k', hk', Eq.refl _⟩)
    simp only at he'
    rw [mapFind_mapErase_ne hne] at he'
    exact h.keys k' (by simp [hQ, hk']) e' he'

theorem QKeys.keys_apply {P : Nat × Nat → prioritized_entry → Prop} {g : Graph}
    {t : transaction_impl} (h : QKeys P t)
    (hP : ∀ target f id, P (rankOf g target, id) ⟨target, f⟩) (c : Call) :
    QKeys P (c.apply g t) := by
  cases c with
  | last f => exact ⟨h.regen, h.sorted, h.ids, h.nodup, h.fresh, h.keys⟩
  | post f => exact h
  | prioritized target f =>
    have hfreshK : t.next_entry_id ∉ t.entries.map Prod.fst := by
      intro hm
      obtain ⟨e, he, hk⟩ := List.mem_map.1 hm
      have := h.fresh e he
      omega
    have hfreshQ : (rankOf g target, t.next_entry_id) ∉ t.prioritizedQ := by
      intro hm
      exact hfreshK (h.ids.subset (List.mem_map.2 ⟨_, hm, Eq.refl _⟩))
    have hins := mapInsert_fresh t.next_entry_id ⟨target, f⟩ t.entries h.fresh
    refine ⟨h.regen, pairwise_setInsert _ _ h.sorted, ?_, ?_, ?_, ?_⟩
    · simp only [Call.apply, hins, List.map_append, List.map_cons, List.map_nil]
      exact ((setInsert_perm hfreshQ).map Prod.snd).trans
        ((h.ids.cons _).trans (List.perm_append_singleton _ _).symm)
    · simp only [Call.apply, hins, List.map_append, List.map_cons, List.map_nil]
      exact (List.perm_append_singleton _ _).nodup_iff.2 (List.nodup_cons.2 ⟨hfreshK, h.nodup⟩)
    · intro e he
      simp only [Call.apply, hins, List.mem_append, List.mem_singleton] at he
      simp only [Call.apply, entryID.succ]
      rcases he with he | he
      · exact Nat.lt_succ_of_lt (h.fresh e he)
      · rw [he]; exact Nat.lt_succ_self _
    · intro k hk e he
      simp only [Call.apply, hins] at he hk
      rcases mem_setInsert hk with e1 | hk'
      · subst e1
        rw [mapFind_append_self _ (fun e' he' => Nat.ne_of_lt (h.fresh e' he'))] at he
        simp only [Option.some.injEq] at he
        rw [← he]
        exact hP target f t.next_entry_id
      · have hne : k.2 ≠ t.next_entry_id := by
          intro e1
          exact hfreshK (e1 ▸ h.ids.subset (List.mem_map.2 ⟨k, hk', Eq.refl _⟩))
        rw [mapFind_append_fresh hne] at he
        exact h.keys k hk' e he

theorem QKeys.keys_applyAll {P : Nat × Nat → prioritized_entry → Prop} {g : Graph}
    (hP : ∀ target f id, P (rankOf g target, id) ⟨target, f⟩) :
    ∀ (calls : List Call) {t : transaction_impl}, QKeys P t →
      QKeys P (calls.foldl (Call.apply g) t)
  | [], _, h => h
  | c :: cs, _, h => QKeys.keys_applyAll hP cs (h.keys_apply hP c)

theorem pendingWeight_apply_fresh (wtA wtF : Nat → Nat) {g : Graph} {t : transaction_impl}
    (hfresh : ∀ e ∈ t.entries, e.1 < t.next_entry_id) (c : Call) :
    pendingWeight wtA wtF (c.apply g t) + ((postsOf [c]).map wtF).sum
      = pendingWeight wtA wtF t + c.weight wtA wtF := by
  cases c with
  | prioritized target f =>
    simp only [pendingWeight, Call.apply, mapInsert_fresh _ _ _ hfresh, Call.weight, postsOf]
    simp
    omega
  | last f =>
    simp only [pendingWeight, Call.apply, Call.weight, postsOf]
    simp
    omega
  | post f => simp [pendingWeight, Call.apply, Call.weight, postsOf]

theorem pendingWeight_applyAll_keys (wtA wtF : Nat → Nat)
    {P : Nat × Nat → prioritized_entry → Prop} {g : Graph}
    (hP : ∀ target f id, P (rankOf g target, id) ⟨target, f⟩) :
    ∀ (calls : List Call) {t : transaction_impl}, QKeys P t →
      pendingWeight wtA wtF (calls.foldl (Call.apply g) t) + ((postsOf calls).map wtF).sum
        = pendingWeight wtA wtF t + (calls.map (Call.weight wtA wtF)).sum
  | [], _, _ => by simp [postsOf]
  | c :: cs, t, h => by
    have h1 := pendingWeight_applyAll_keys wtA wtF hP cs (h.keys_apply hP c)
    have h2 := pendingWeight_apply_fresh wtA wtF (g := g) h.fresh c
    have h3 : postsOf (c :: cs) = postsOf [c] ++ postsOf cs := by
      simp only [postsOf, List.filterMap_cons]
      cases c <;> simp
    rw [List.foldl_cons, h3]
    simp only [List.map_append, List.sum_append, List.map_cons, List.sum_cons]
    omega

theorem QKeys.keys_nil_entries {P : Nat × Nat → prioritized_entry → Prop} {t : transaction_impl}
    (h : QKeys P t) (hQ : t.prioritizedQ = []) : t.entries = [] := by
  have := h.ids
  rw [hQ] at this
  simpa using this.symm.eq_nil

theorem QInv.of_empty (g : Graph) {t : transaction_impl} (hr : t.to_regen = false)
    (he : t.entries = []) (hq : t.prioritizedQ = []) : QInv g t :=
  ⟨hr, by simp [hq], by simp [hq, he], by simp [he], by simp [he], by simp [hq]⟩

theorem SchedKeys.keys_check_regen {P : Nat × Nat → prioritized_entry → Prop} {g : Graph}
    {t : transaction_impl} (h : SchedKeys P t)
    (hP : ∀ k e, k.1 = rankOf g e.target → P k e) : QKeys P (t.check_regen g) := by
  rcases h with h | ⟨hr, he⟩
  · rw [check_regen_of_false h.regen]
    exact h
  · exact (QInv.of_regen hr he).toKeys hP

theorem process_prioritized_keys (cb : Callbacks) (impl : Nat) (wtA wtF : Nat → Nat)
    (P : Nat × Nat → prioritized_entry → Prop) (g : Graph)
    (hP : ∀ target f id, P (rankOf g target, id) ⟨target, f⟩)
    (hact : cb.ActionsSchedule impl wtA wtF) :
    ∀ (fuel : Nat) (w : World) (t : transaction_impl),
      w.trans impl = some t → w.nodes = g → QKeys P t → pendingWeight wtA wtF t < fuel →
      ∃ (w' : World) (t' : transaction_impl) (new : List (Event × State)),
        transaction_impl.process_prioritized cb impl fuel w = Outcome.done w' ∧
        w'.log = w.log ++ new ∧ w'.nodes = w.nodes ∧
        w'.trans impl = some t' ∧ QKeys P t' ∧
        t'.entries = [] ∧ t'.prioritizedQ = [] ∧
        t'.lastQ = t.lastQ ++ lastCalls impl (new.map Prod.fst) ∧
        pendingWeight wtA wtF t' + ((postCalls (new.map Prod.fst)).map wtF).sum
          ≤ pendingWeight wtA wtF t ∧
        Frame w w' new ∧
        (∀ x ∈ new, x.1.isInvoke = true → ∃ id tg f, x.1 = Event.run impl id tg f) ∧
        (∀ x ∈ new, ∀ id tg f, x.1 = Event.run impl id tg f →
          ∃ (s : transaction_impl) (k0 : Nat × Nat), x.2.trans impl = some s ∧ QKeys P s ∧
            k0.2 = id ∧ P k0 ⟨tg, f⟩ ∧ ∀ k ∈ s.prioritizedQ, keyLt k0 k)
  | 0, _, _, _, _, _, hf => by omega
  | fuel + 1, w, t, ht, hg, hinv, hf => by
    have hl := trans_lt ht
    cases hQ : t.prioritizedQ with
    | nil =>
      refine ⟨w.setTrans impl t, t, [], ?_, by simp [World.setTrans], by simp [World.setTrans],
        trans_setTrans t hl, hinv, hinv.keys_nil_entries hQ, hQ, by simp [lastCalls],
        by simp [postCalls], Frame.setTrans w impl t, by simp, by simp⟩
      simp [transaction_impl.process_prioritized, ht, check_regen_of_false hinv.regen, hQ]
    | cons k0 rest =>
      obtain ⟨e0, hfind0, hP0, hinv1⟩ := hinv.keys_pop hQ
      set t1 : transaction_impl :=
        { t with prioritizedQ := rest, entries := mapErase k0.2 t.entries } with ht1
      set w1 := (w.setTrans impl t1).record (Event.run impl k0.2 e0.target e0.action) with hw1
      have hw1t : w1.trans impl = some t1 := by
        have := @trans_setTrans w impl t1 hl
        simpa [hw1, World.trans, World.record] using this
      have hw1n : w1.nodes = w.nodes := by simp [hw1, World.record, World.setTrans]
      have hw1l : w1.log = w.log ++ [(Event.run impl k0.2 e0.target e0.action,
          (w.setTrans impl t1).toState)] := by simp [hw1, World.record, World.setTrans]
      obtain ⟨calls, hcb, hwt⟩ := hact e0.action w1
      obtain ⟨news, hlog2, hev2, htr2, hn2⟩ := execCalls_spec impl calls w1 t1 hw1t
      rw [hw1n] at hev2 htr2
      set t2 := calls.foldl (Call.apply w.nodes) t1 with ht2
      have hPw : ∀ target f id, P (rankOf w.nodes target, id) ⟨target, f⟩ := by
        rw [hg]; exact hP
      have hinv2 : QKeys P t2 := QKeys.keys_applyAll hPw calls hinv1
      have hpw1 : pendingWeight wtA wtF t = wtA e0.action + pendingWeight wtA wtF t1 := by
        simp only [pendingWeight, ht1]
        rw [sum_mapErase (fun x => wtA x.action) t.entries hfind0]
        omega
      have hpw2 : pendingWeight wtA wtF t2 + ((postsOf calls).map wtF).sum
          = pendingWeight wtA wtF t1 + (calls.map (Call.weight wtA wtF)).sum :=
        pendingWeight_applyAll_keys wtA wtF hPw calls hinv1
      have hn2' : (execCalls impl calls w1).nodes = w.nodes := hn2.trans hw1n
      have hposts2 : postCalls (news.map Prod.fst) = postsOf calls := by
        rw [hev2, postCalls_callEvents]
      have hframe1 : Frame w w1 [(Event.run impl k0.2 e0.target e0.action,
          (w.setTrans impl t1).toState)] := by
        simpa [hw1] using (Frame.setTrans w impl t1).frame_trans
          (Frame.record (w.setTrans impl t1) _ (by simp [postCalls]))
      have hframe2 : Frame w1 (execCalls impl calls w1) news := by
        obtain ⟨n, hn, _⟩ := execCalls_frame impl calls w1
        rw [← execCalls_log_eq hn.log hlog2]
        exact hn
      obtain ⟨w', t', new', hrun, hlog', hn', htr', hinv', hent', hq', hlast', hpw', hframe',
          hinvk', hsnap'⟩ :=
        process_prioritized_keys cb impl wtA wtF P g hP hact fuel (execCalls impl calls w1) t2
          htr2 (hn2'.trans hg) hinv2 (by omega)
      rw [hn2'] at hn'
      have hsorted := hinv.sorted
      rw [hQ] at hsorted
      refine ⟨w', t', (Event.run impl k0.2 e0.target e0.action, (w.setTrans impl t1).toState)
          :: news ++ new', ?_, ?_, hn', htr', hinv', hent', hq', ?_, ?_, ?_, ?_, ?_⟩
      · rw [transaction_impl.process_prioritized]
        simp only [ht, check_regen_of_false hinv.regen, hQ, hfind0]
        rw [← ht1, ← hw1, hcb]
        exact hrun
      · rw [hlog', hlog2, hw1l]
        simp
      · rw [hlast', ht2, lastQ_applyAll impl w.nodes calls t1]
        simp only [List.map_cons, List.map_append, hev2, lastCalls, List.filterMap_cons,
          List.filterMap_append, List.append_assoc]
      · have : postCalls (((Event.run impl k0.2 e0.target e0.action,
            (w.setTrans impl t1).toState) :: news ++ new').map Prod.fst)
            = postsOf calls ++ postCalls (new'.map Prod.fst) := by
          rw [List.cons_append, List.map_cons, List.map_append,
            ← List.singleton_append, postCalls_append, postCalls_append, hposts2]
          simp [postCalls]
        rw [this, List.map_append, List.sum_append]
        omega
      · simpa using (hframe1.frame_trans hframe2).frame_trans hframe'
      · intro x hx hxi
        simp only [List.cons_append, List.mem_cons, List.mem_append] at hx
        rcases hx with hx | hx | hx
        · exact ⟨_, _, _, by rw [hx]⟩
        · have := callEvents_not_invoke impl w.nodes calls t1 x.1
            (hev2 ▸ List.mem_map.2 ⟨x, hx, Eq.refl _⟩)
          rw [this] at hxi
          exact absurd hxi (by simp)
        · exact hinvk' x hx hxi
      · intro x hx id tg f hev
        simp only [List.cons_append, List.mem_cons, List.mem_append] at hx
        rcases hx with hx | hx | hx
        · subst hx
          simp only at hev
          injection hev with _ h2 h3 h4
          refine ⟨t1, k0, ?_, hinv1, h2, ?_, ?_⟩
          · have := @trans_setTrans w impl t1 hl
            simpa [State.trans, World.trans] using this
          · rw [← h3, ← h4]
            exact hP0
          · intro k hk
            exact (List.pairwise_cons.1 hsorted).1 k hk
        · have := callEvents_not_invoke impl w.nodes calls t1 x.1
            (hev2 ▸ List.mem_map.2 ⟨x, hx, Eq.refl _⟩)
          rw [hev] at this
          simp [Event.isInvoke] at this
        · exact hsnap' x hx id tg f hev

theorem process_prioritized_sched_keys (cb : Callbacks) (impl : Nat) (wtA wtF : Nat → Nat)
    (P : Nat × Nat → prioritized_entry → Prop)
    (hact : cb.ActionsSchedule impl wtA wtF) (fuel : Nat) (w : World) (t : transaction_impl)
    (hP : ∀ target f id, P (rankOf w.nodes target, id) ⟨target, f⟩)
    (hP' : ∀ k e, k.1 = rankOf w.nodes e.target → P k e)
    (ht : w.trans impl = some t) (hinv : SchedKeys P t)
    (hf : pendingWeight wtA wtF t < fuel) :
    ∃ (w' : World) (t' : transaction_impl) (new : List (Event × State)),
      transaction_impl.process_prioritized cb impl fuel w = Outcome.done w' ∧
      w'.log = w.log ++ new ∧ w'.nodes = w.nodes ∧
      w'.trans impl = some t' ∧ t'.to_regen = false ∧
      t'.entries = [] ∧ t'.prioritizedQ = [] ∧
      t'.lastQ = t.lastQ ++ lastCalls impl (new.map Prod.fst) ∧
      pendingWeight wtA wtF t' + ((postCalls (new.map Prod.fst)).map wtF).sum
        ≤ pendingWeight wtA wtF t ∧
      Frame w w' new ∧
      (∀ x ∈ new, x.1.isInvoke = true → ∃ id tg f, x.1 = Event.run impl id tg f) ∧
      (∀ x ∈ new, ∀ id tg f, x.1 = Event.run impl id tg f →
        ∃ (s : transaction_impl) (k0 : Nat × Nat), x.2.trans impl = some s ∧ QKeys P s ∧
          k0.2 = id ∧ P k0 ⟨tg, f⟩ ∧ ∀ k ∈ s.prioritizedQ, keyLt k0 k) := by
  obtain ⟨fuel, rfl⟩ : ∃ n, fuel = n + 1 := ⟨fuel - 1, by omega⟩
  have hq := hinv.keys_check_regen hP'
  have hflds := check_regen_fields w.nodes t
  obtain ⟨w', t', new, hrun, hlog, hn, htr, hinv', he, hq', hlast, hpw, hfr, hi, hsnap⟩ :=
    process_prioritized_keys cb impl wtA wtF P w.nodes hP hact (fuel + 1)
      (w.setTrans impl (t.check_regen w.nodes)) (t.check_regen w.nodes)
      (trans_setTrans _ (trans_lt ht)) rfl hq
      (by rw [pendingWeight_check_regen]; exact hf)
  refine ⟨w', t', new, ?_, hlog, hn, htr, hinv'.regen, he, hq', by rw [hlast, hflds.2.1],
    by rw [pendingWeight_check_regen] at hpw; exact hpw, ?_, hi, hsnap⟩
  · rw [process_prioritized_check_regen cb impl fuel w t ht]
    exact hrun
  · simpa using (Frame.setTrans w impl (t.check_regen w.nodes)).frame_trans hfr

/-- C5 (counterexample): two final callbacks are queued and the first one, when run,
schedules a prioritized entry. `process_transactional` invokes the second final callback in a
state in which that entry is pending, never invokes the entry, and returns with it still in
`entries`. -/
theorem final_callback_leaves_entry_pending :
    drainTrace finalSchedulingCallbacks 4 0 (execCalls 0 [Call.last 20, Call.last 21] chainWorld)
      = some ([(Event.process_transactional 0, []), (Event.run_last 0 20, []),
          (Event.prioritized 0 0 none 1, []), (Event.run_last 0 21, [(0, ⟨none, 1⟩)])],
        [(0, ⟨none, 1⟩)]) := by
  decide

/-- C5 (amended): for every transaction with well-formed containers, whatever the ranks in
its queue keys, with actions that only make scheduling calls and final callbacks that only
append final callbacks or post (they schedule no prioritized entry), `process_transactional`
returns; every final callback is invoked in a state where `entries` and the priority queue
are empty; the final callbacks invoked are, in order and each once, those queued at the start
followed by those appended during the drain; and the final queue is empty on return. -/
theorem final_after_prioritized (cb : Callbacks) (impl : Nat) (wtA wtF : Nat → Nat)
    (w : World) (t : transaction_impl) (fuel : Nat)
    (hact : cb.ActionsSchedule impl wtA wtF)
    (hfin : cb.FinalsSchedule impl wtA wtF (fun c => c.isPrioritized = false))
    (ht : w.trans impl = some t) (hinv : SchedKeys anyKey t)
    (hkey : w.part.key = some impl)
    (hfuel : pendingWeight wtA wtF t < fuel) :
    ∃ (w' : World) (t' : transaction_impl) (new : List (Event × State)),
      transaction_impl.process_transactional cb fuel impl w = Outcome.done w' ∧
      w'.log = w.log ++ new ∧
      (∀ x ∈ new, ∀ i f, x.1 = Event.run_last i f →
        ∃ s, x.2.trans impl = some s ∧ s.entries = [] ∧ s.prioritizedQ = []) ∧
      lastRuns impl (new.map Prod.fst) = t.lastQ ++ lastCalls impl (new.map Prod.fst) ∧
      w'.trans impl = some t' ∧ t'.lastQ = [] ∧ t'.entries = [] ∧ t'.prioritizedQ = [] := by
  set w0 := w.record (Event.process_transactional impl) with hw0
  have hw0t : w0.trans impl = some t := by simpa [hw0, World.trans, World.record] using ht
  have hw0n : w0.nodes = w.nodes := by simp [hw0, World.record]
  obtain ⟨w1, t1, new1, hrun1, hlog1, hn1, htr1, hreg1, hent1, hq1, hlast1, hpw1, hfr1, hinvk1,
      _⟩ :=
    process_prioritized_sched_keys cb impl wtA wtF anyKey hact fuel w0 t
      (fun _ _ _ => trivial) (fun _ _ _ => trivial) hw0t hinv hfuel
  obtain ⟨w2, t2, new2, hrun2, hlog2, hn2, htr2, hlast2, hfifo2, _, _, hinvk2, hstrict2⟩ :=
    process_last_spec cb impl wtA wtF _ hfin fuel w1 t1 htr1
      (QInv.of_empty w1.nodes hreg1 hent1 hq1)
      (hfr1.part.key.trans (by simpa [hw0, World.record] using hkey)) (by omega)
  obtain ⟨hent2, hq2, hsnap⟩ := hstrict2 (fun _ h => h) hent1 hq1
  refine ⟨w2, t2, (Event.process_transactional impl, w.toState) :: new1 ++ new2,
    ?_, ?_, ?_, ?_, htr2, hlast2, hent2, hq2⟩
  · simp only [transaction_impl.process_transactional]
    rw [← hw0, hrun1]
    exact hrun2
  · simp [hlog2, hlog1, hw0, World.record]
  · intro x hx i f hev
    simp only [List.cons_append, List.mem_cons, List.mem_append] at hx
    rcases hx with hx | hx | hx
    · rw [hx] at hev
      cases hev
    · obtain ⟨_, _, _, h'⟩ := hinvk1 x hx (by rw [hev]; rfl)
      rw [hev] at h'
      cases h'
    · exact hsnap x hx i f hev
  · have h1 := lastRuns_nil_of_runs impl new1 hinvk1
    simp only [lastRuns, lastCalls] at h1 hfifo2 hlast1 ⊢
    simp only [List.cons_append, List.map_cons, List.map_append, List.filterMap_cons,
      List.filterMap_append, h1, hfifo2, hlast1, List.nil_append, List.append_assoc]

theorem staleQueued_keys : QKeys anyKey staleQueued :=
  ⟨rfl, by simp [staleQueued, keyLt], by simp [staleQueued], by simp [staleQueued],
    by simp [staleQueued], fun _ _ _ _ => trivial⟩

theorem final_after_prioritized_witness :
    (runSched 3 0 freshWorld staleOps = some staleReached ∧
      (execCalls 0 [Call.last 23] staleReached).trans 0
        = some ((Call.last 23).apply staleReached.nodes staleQueued) ∧
      ¬ Faithful (execCalls 0 [Call.last 23] staleReached).nodes
        ((Call.last 23).apply staleReached.nodes staleQueued)) ∧
    (∃ (w' : World) (t' : transaction_impl) (new : List (Event × State)),
      transaction_impl.process_transactional finalCallbacks 9 0
        (execCalls 0 [Call.last 23] staleReached) = Outcome.done w' ∧
      w'.log = (execCalls 0 [Call.last 23] staleReached).log ++ new ∧
      (∀ x ∈ new, ∀ i f, x.1 = Event.run_last i f →
        ∃ s, x.2.trans 0 = some s ∧ s.entries = [] ∧ s.prioritizedQ = []) ∧
      lastRuns 0 (new.map Prod.fst)
        = ((Call.last 23).apply staleReached.nodes staleQueued).lastQ
          ++ lastCalls 0 (new.map Prod.fst) ∧
      w'.trans 0 = some t' ∧ t'.lastQ = [] ∧ t'.entries = [] ∧ t'.prioritizedQ = []) ∧
    (∃ w', transaction_impl.process_transactional finalCallbacks 9 0
        (execCalls 0 [Call.last 23] staleReached) = Outcome.done w' ∧
      w'.events.drop 3 = [Event.process_transactional 0, Event.run 0 0 (some 1) 1,
        Event.last 0 21, Event.run 0 1 (some 0) 0, Event.last 0 20,
        Event.prioritized 0 2 none 1, Event.run 0 2 none 1, Event.last 0 21,
        Event.run_last 0 23, Event.run_last 0 21, Event.run_last 0 20, Event.last 0 22,
        Event.run_last 0 21, Event.run_last 0 22]) :=
  ⟨⟨by decide, by decide, fun h => by
      obtain ⟨e, he, hk⟩ := (h (0, 0)).1 (by decide)
      simp only [Call.apply, staleQueued, List.mem_cons, List.mem_singleton, List.not_mem_nil,
        or_false] at he
      rcases he with rfl | rfl
      · revert hk; decide
      · revert hk; decide⟩,
    final_after_prioritized finalCallbacks 0
      (fun f => if f = 0 then 5 else 2) (fun f => if f = 20 then 2 else 1)
      (execCalls 0 [Call.last 23] staleReached)
      ((Call.last 23).apply staleReached.nodes staleQueued) 9
      (scripted_actions 0 _ _ _ _ (fun f => by
        by_cases h0 : f = 0
        · simp [h0, Call.weight]
        · by_cases h1 : f = 1 <;> simp [h0, h1, Call.weight]))
      (scripted_finals 0 _ _ _ _ _ (fun f => by
        by_cases h : f = 20 <;> simp [h, Call.weight, Call.isPrioritized]))
      (by decide) (Or.inl (staleQueued_keys.keys_apply (fun _ _ _ => trivial) _)) (by decide)
      (by decide),
    ⟨_, rfl, by decide⟩⟩

/-- C13 (counterexample): an entry without target and an entry on `node 0` are scheduled
while `node 0` has rank `2^64 - 1`; a link from a node of rank `2^64 - 1` then wraps the rank
of `node 0` to 0, and the key of its entry stays `(2^64 - 1, 1)`. The drain invokes the entry
without target first, in a state in which the entry on `node 0`, whose target has rank 0, is
pending. -/
theorem absent_entry_runs_before_wrapped_target :
    (runSched 3 0 wrapWorld wrapOps).map (fun w => (ranks w.nodes, w.trans 0))
      = some ([0, ULLONG_MAX],
          some ⟨false, [(0, ⟨none, 0⟩), (1, ⟨some 0, 1⟩)],
            [(ULLONG_MAX, 0), (ULLONG_MAX, 1)], 2, []⟩) ∧
    rankOf [⟨0, []⟩, ⟨ULLONG_MAX, [⟨7, some 0⟩]⟩] (some 0) < 2 ^ 64 - 1 ∧
    (runSched 3 0 wrapWorld wrapOps).bind (fun w => drainTrace idleCallbacks 3 0 w)
      = some ([(Event.process_transactional 0, [(0, ⟨none, 0⟩), (1, ⟨some 0, 1⟩)]),
          (Event.run 0 0 none 0, [(1, ⟨some 0, 1⟩)]),
          (Event.run 0 1 (some 0) 1, [])], []) := by
  refine ⟨by decide, by decide, by decide⟩

/-- C13 (amended): `rankOf` of an absent target is `2^64 - 1`, which no node rank exceeds.
For every transaction with well-formed containers in which the key of every entry without
target is `2^64 - 1`, with callbacks that only make scheduling calls, `process_transactional`
returns and every entry with an absent target is invoked in a state in which every pending
entry has a queue key of rank `2^64 - 1` or more; the key carries the rank the target had
when the entry was scheduled. When the queue is faithful at the start of the drain, the
current rank of the target of every pending entry is `2^64 - 1` or more in that state. -/
theorem absent_target_runs_last (cb : Callbacks) (impl : Nat) (wtA wtF : Nat → Nat)
    (w : World) (t : transaction_impl) (fuel : Nat)
    (hact : cb.ActionsSchedule impl wtA wtF)
    (hfin : cb.FinalsSchedule impl wtA wtF (fun _ => True))
    (ht : w.trans impl = some t) (hinv : SchedKeys absentKey t)
    (hkey : w.part.key = some impl)
    (hranks : ∀ p, (nodeAt w.nodes p).rank < 2 ^ 64)
    (hfuel : pendingWeight wtA wtF t < fuel) :
    rankOf w.nodes none = 2 ^ 64 - 1 ∧
    (∀ p, rankOf w.nodes (some p) ≤ rankOf w.nodes none) ∧
    ∃ (w' : World) (new : List (Event × State)),
      transaction_impl.process_transactional cb fuel impl w = Outcome.done w' ∧
      w'.log = w.log ++ new ∧ w'.nodes = w.nodes ∧
      (∀ x ∈ new, ∀ id f, x.1 = Event.run impl id none f →
        ∃ s, x.2.trans impl = some s ∧
          (∀ k ∈ s.prioritizedQ, 2 ^ 64 - 1 ≤ k.1) ∧
          (∀ e ∈ s.entries, ∃ k ∈ s.prioritizedQ, k.2 = e.1 ∧ 2 ^ 64 - 1 ≤ k.1)) ∧
      (SchedInv w.nodes t → ∀ x ∈ new, ∀ id f, x.1 = Event.run impl id none f →
        ∃ s, x.2.trans impl = some s ∧
          ∀ e ∈ s.entries, 2 ^ 64 - 1 ≤ rankOf w.nodes e.2.target) := by
  refine ⟨by simp [rankOf, ULLONG_MAX], fun p => ?_, ?_⟩
  · have := hranks p
    simp only [rankOf, ULLONG_MAX]
    omega
  set w0 := w.record (Event.process_transactional impl) with hw0
  have hw0t : w0.trans impl = some t := by simpa [hw0, World.trans, World.record] using ht
  have hw0n : w0.nodes = w.nodes := by simp [hw0, World.record]
  obtain ⟨w1, t1, new1, hrun1, hlog1, hn1, htr1, hreg1, hent1, hq1, _, hpw1, hfr1, _, hsnapK⟩ :=
    process_prioritized_sched_keys cb impl wtA wtF absentKey hact fuel w0 t
      (fun target f id h => by simp only at h; rw [h]; rfl)
      (fun k e hk h => by rw [hk, h]; rfl) hw0t hinv hfuel
  rw [hw0n] at hn1
  obtain ⟨w2, t2, new2, hrun2, hlog2, hn2, _, _, _, _, _, hinvk2, _⟩ :=
    process_last_spec cb impl wtA wtF _ hfin fuel w1 t1 htr1
      (QInv.of_empty w1.nodes hreg1 hent1 hq1)
      (hfr1.part.key.trans (by simpa [hw0, World.record] using hkey)) (by omega)
  refine ⟨w2, (Event.process_transactional impl, w.toState) :: new1 ++ new2, ?_, ?_,
    hn2.trans hn1, ?_, ?_⟩
  · simp only [transaction_impl.process_transactional]
    rw [← hw0, hrun1]
    exact hrun2
  · simp [hlog2, hlog1, hw0, World.record]
  · intro x hx id f hev
    simp only [List.cons_append, List.mem_cons, List.mem_append] at hx
    rcases hx with hx | hx | hx
    · rw [hx] at hev
      cases hev
    · obtain ⟨s, k0, hs, hqs, _, hk0, hlt⟩ := hsnapK x hx id none f hev
      have hk0' : k0.1 = ULLONG_MAX := hk0 rfl
      have hkeys : ∀ k ∈ s.prioritizedQ, 2 ^ 64 - 1 ≤ k.1 := by
        intro k hk
        have := hlt k hk
        simp only [keyLt, hk0', ULLONG_MAX] at this
        omega
      refine ⟨s, hs, hkeys, fun e he => ?_⟩
      have hid : e.1 ∈ s.prioritizedQ.map Prod.snd :=
        hqs.ids.symm.subset (List.mem_map.2 ⟨e, he, Eq.refl _⟩)
      obtain ⟨k, hk, hke⟩ := List.mem_map.1 hid
      exact ⟨k, hk, hke, hkeys k hk⟩
    · obtain ⟨f', h'⟩ := hinvk2 x hx (by rw [hev]; rfl)
      rw [hev] at h'
      cases h'
  · intro hsched x hx id f hev
    obtain ⟨n, rfl⟩ : ∃ n, fuel = n + 1 := ⟨fuel - 1, by omega⟩
    have hq := hsched.check_regen
    have hsnap := process_prioritized_snaps cb impl wtA wtF hact (n + 1)
      (w0.setTrans impl (t.check_regen w0.nodes)) (t.check_regen w0.nodes)
      (trans_setTrans _ (trans_lt hw0t)) (by rw [hw0n]; exact hq)
      (by rw [pendingWeight_check_regen]; exact hfuel) w1 new1
      (by rw [← process_prioritized_check_regen cb impl n w0 t hw0t]; exact hrun1)
      (by simpa [World.setTrans] using hlog1)
    simp only [List.cons_append, List.mem_cons, List.mem_append] at hx
    rcases hx with hx | hx | hx
    · rw [hx] at hev
      cases hev
    · obtain ⟨s, hs, hqs, hlt⟩ := hsnap x hx id none f hev
      have hn0 : (w0.setTrans impl (t.check_regen w0.nodes)).nodes = w.nodes := by
        simp [World.setTrans, hw0n]
      rw [hn0] at hqs hlt
      have hkeys : ∀ k ∈ s.prioritizedQ, 2 ^ 64 - 1 ≤ k.1 := by
        intro k hk
        have := hlt k hk
        simp only [keyLt, rankOf, ULLONG_MAX] at this
        omega
      exact ⟨s, hs, fun e he => hkeys _ (hqs.entry_key he)⟩
    · obtain ⟨f', h'⟩ := hinvk2 x hx (by rw [hev]; rfl)
      rw [hev] at h'
      cases h'

theorem absent_target_runs_last_witness :
    (rankOf chainWorld.nodes none = 2 ^ 64 - 1 ∧
    (∀ p, rankOf chainWorld.nodes (some p) ≤ rankOf chainWorld.nodes none) ∧
    ∃ (w' : World) (new : List (Event × State)),
      transaction_impl.process_transactional absentCallbacks 5 0
        (execCalls 0 absentCalls chainWorld) = Outcome.done w' ∧
      w'.log = (execCalls 0 absentCalls chainWorld).log ++ new ∧
      w'.nodes = (execCalls 0 absentCalls chainWorld).nodes ∧
      (∀ x ∈ new, ∀ id f, x.1 = Event.run 0 id none f →
        ∃ s, x.2.trans 0 = some s ∧
          (∀ k ∈ s.prioritizedQ, 2 ^ 64 - 1 ≤ k.1) ∧
          (∀ e ∈ s.entries, ∃ k ∈ s.prioritizedQ, k.2 = e.1 ∧ 2 ^ 64 - 1 ≤ k.1)) ∧
      (SchedInv (execCalls 0 absentCalls chainWorld).nodes
          (absentCalls.foldl (Call.apply chainWorld.nodes) transaction_impl.new) →
        ∀ x ∈ new, ∀ id f, x.1 = Event.run 0 id none f →
          ∃ s, x.2.trans 0 = some s ∧
            ∀ e ∈ s.entries,
              2 ^ 64 - 1 ≤ rankOf (execCalls 0 absentCalls chainWorld).nodes e.2.target)) ∧
    SchedInv (execCalls 0 absentCalls chainWorld).nodes
      (absentCalls.foldl (Call.apply chainWorld.nodes) transaction_impl.new) ∧
    (∃ w', transaction_impl.process_transactional absentCallbacks 5 0
        (execCalls 0 absentCalls chainWorld) = Outcome.done w' ∧
      w'.events.drop 2 = [Event.process_transactional 0, Event.run 0 1 (some 1) 1,
        Event.prioritized 0 2 (some 0) 2, Event.run 0 2 (some 0) 2, Event.run 0 0 none 0]) :=
  ⟨absent_target_runs_last absentCallbacks 0 (fun f => if f = 1 then 2 else 1) (fun _ => 1)
      (execCalls 0 absentCalls chainWorld)
      (absentCalls.foldl (Call.apply chainWorld.nodes) transaction_impl.new) 5
      (scripted_actions 0 _ _ _ _ (fun f => by by_cases h : f = 1 <;> simp [h, Call.weight]))
      (scripted_finals 0 _ _ _ _ _ (fun f => by simp))
      rfl
      (Or.inl ((QInv.applyAll absentCalls (QInv.new chainWorld.nodes)).toKeys
        (fun k e hk h => by rw [hk, h]; rfl)))
      rfl
      (fun p => by
        have h2 : ∀ q, q < 2 → (nodeAt chainWorld.nodes q).rank < 2 ^ 64 := by decide
        by_cases hp : p < 2
        · exact h2 p hp
        · have : nodeAt (execCalls 0 absentCalls chainWorld).nodes p = ⟨0, []⟩ :=
            nodeAt_of_le _ _ (by simpa using hp)
          rw [this]
          decide)
      (by decide),
    Or.inl (QInv.applyAll absentCalls (QInv.new chainWorld.nodes)),
    ⟨_, rfl, by decide⟩⟩

/-- C4 (counterexample): an entry is scheduled on `node 1`, then `node 0` is linked to
`node 1`, which raises the rank of `node 1` to 1, then an entry is scheduled on `node 0`. At
the start of the drain `node 0` has rank 0 and `node 1` rank 1, no rank changes during the
drain, and both entries were scheduled before it; the entry on `node 1` is invoked first,
while the entry on `node 0` is still pending. -/
theorem stale_key_runs_target_first :
    runSched 3 0 freshWorld staleOps = some staleReached ∧
    ranks staleReached.nodes = [0, 1] ∧
    (nodeAt staleReached.nodes 0).targets = [⟨7, some 1⟩] ∧
    staleReached.trans 0 = some staleQueued ∧
    drainTrace idleCallbacks 3 0 staleReached
      = some ([(Event.process_transactional 0, [(0, ⟨some 1, 1⟩), (1, ⟨some 0, 0⟩)]),
          (Event.run 0 0 (some 1) 1, [(1, ⟨some 0, 0⟩)]),
          (Event.run 0 1 (some 0) 0, [])], []) := by
  refine ⟨by decide, by decide, by decide, by decide, by decide⟩

theorem QKeys.keys_drain_step {P : Nat × Nat → prioritized_entry → Prop} {g : Graph}
    {t : transaction_impl} (h : QKeys P t) :
    ∃ t', t.drain_step g = some t' ∧ QKeys P t' := by
  unfold transaction_impl.drain_step
  simp only [check_regen_of_false h.regen]
  cases hQ : t.prioritizedQ with
  | nil => exact ⟨t, rfl, h⟩
  | cons k rest =>
    obtain ⟨e, he, _, hinv⟩ := h.keys_pop hQ
    exact ⟨_, by simp only [he], hinv⟩

theorem runSched_keys (P : Nat × Nat → prioritized_entry → Prop)
    (hP : ∀ g target f id, P (rankOf g target, id) ⟨target, f⟩) (fuel impl : Nat) :
    ∀ (ops : List SchedOp) (w w' : World) (t : transaction_impl),
      w.trans impl = some t → QKeys P t → runSched fuel impl w ops = some w' →
      ∃ t', w'.trans impl = some t' ∧ QKeys P t'
  | [], w, w', t, ht, hinv, hrun => by
    simp only [runSched, Option.some.injEq] at hrun
    exact hrun ▸ ⟨t, ht, hinv⟩
  | op :: ops, w, w', t, ht, hinv, hrun => by
    simp only [runSched, Option.bind_eq_some] at hrun
    obtain ⟨w1, h1, h2⟩ := hrun
    have hstep : ∃ t1, w1.trans impl = some t1 ∧ QKeys P t1 := by
      cases op with
      | prioritized target f =>
        simp only [SchedOp.run, Option.some.injEq] at h1
        subst h1
        obtain ⟨g1, _, _⟩ := Call.exec_spec ht (Call.prioritized target f)
        simp only [Call.exec] at g1
        exact ⟨_, g1, hinv.keys_apply (hP w.nodes) _⟩
      | link this handler targ =>
        simp only [SchedOp.run, Option.map_eq_some'] at h1
        obtain ⟨g', _, rfl⟩ := h1
        exact ⟨t, ht, hinv⟩
      | unlink this handler =>
        simp only [SchedOp.run, Option.some.injEq] at h1
        subst h1
        exact ⟨t, ht, hinv⟩
      | check_regen =>
        simp only [SchedOp.run, ht, Option.map_some', Option.some.injEq] at h1
        subst h1
        rw [check_regen_of_false hinv.regen]
        exact ⟨t, trans_setTrans _ (trans_lt ht), hinv⟩
      | drain_step =>
        obtain ⟨t', ht', hinv'⟩ := hinv.keys_drain_step (g := w.nodes)
        simp only [SchedOp.run, ht, Option.some_bind, ht', Option.map_some',
          Option.some.injEq] at h1
        subst h1
        exact ⟨t', trans_setTrans _ (trans_lt ht), hinv'⟩
    obtain ⟨t1, ht1, hinv1⟩ := hstep
    exact runSched_keys P hP fuel impl ops w1 w' t1 ht1 hinv1 h2

theorem QKeys.keys_new (P : Nat × Nat → prioritized_entry → Prop) :
    QKeys P transaction_impl.new :=
  ⟨rfl, by simp [transaction_impl.new], by simp [transaction_impl.new],
    by simp [transaction_impl.new], by simp [transaction_impl.new],
    by simp [transaction_impl.new]⟩

end sodium
